import Mathlib

/-!
RSS News Feed Aggregation: the crawl pipeline and its thread pool.

A shallow embedding of `news-aggregator.cc` (both variants: the one that spawns
threads and the one built on `ThreadPool`) and of `thread-pool.cc`.

* A `std::string` is a list of characters, compared lexicographically the way
  `std::string::operator<` does.
* `std::map` is an association list kept in ascending key order with unique keys.
* Jobs of the aggregator are run one after another on an explicit state; the calls
  made on the external collaborators are recorded in an event log.
* The thread pool is a step function over program counters of the dispatcher, the
  workers and one calling thread; an interleaving is a list of actions.
-/

namespace NewsAggregator

/-- A `std::string`: a sequence of characters, ordered lexicographically. -/
abbrev Str := List Char

/-- The `Article` record of `article.h`: a url and a title. -/
structure Article where
  url : Str
  title : Str
deriving DecidableEq, Repr

/-- Modelled from the spec: `operator<` on `Article` (`article.h` is not among the
sources): compare by `(title, url)` lexicographically. -/
def Article.lt (a b : Article) : Prop :=
  a.title < b.title ∨ (a.title = b.title ∧ a.url < b.url)

instance : LT Article := ⟨Article.lt⟩

instance Article.decLt (a b : Article) : Decidable (a < b) :=
  inferInstanceAs (Decidable (a.title < b.title ∨ (a.title = b.title ∧ a.url < b.url)))

/-- The call `std::min(a, b)`: the second argument only when it is strictly smaller. -/
def stdMin (a b : Article) : Article := if b < a then b else a

/-- The call `std::sort(v.begin(), v.end())` on a vector of strings. Equal strings are
indistinguishable, so the result is the ascending rearrangement of the input. -/
def sort (v : List Str) : List Str := v.insertionSort (fun a b => a ≤ b)

/-- One pass of the `std::set_intersection` loop with the head `a` of the first range
fixed; `next` continues with the rest of the first range. -/
def intersectWith (a : Str) (next : List Str → List Str) : List Str → List Str
  | [] => []
  | b :: bs =>
    if a < b then next (b :: bs)
    else if b < a then intersectWith a next bs
    else a :: next bs

/-- The call `std::set_intersection(first1, last1, first2, last2, back_inserter(out))`:
the linear merge that copies an element of the first range whenever neither head is
smaller than the other. -/
def set_intersection : List Str → List Str → List Str
  | [] => fun _ => []
  | a :: as => intersectWith a (set_intersection as)

/-- Lookup `m.find(k)` in a `std::map` with string keys. -/
def mapFind {β : Type} (k : Str) : List (Str × β) → Option β
  | [] => none
  | (k', v) :: rest => if k' = k then some v else mapFind k rest

/-- Assignment `m[k] = v` in a `std::map` with string keys: overwrite the entry with an
equivalent key, or insert at the position that keeps the keys ascending. -/
def mapSet {β : Type} (k : Str) (v : β) : List (Str × β) → List (Str × β)
  | [] => [(k, v)]
  | (k', v') :: rest =>
    if k < k' then (k, v) :: (k', v') :: rest
    else if k' < k then (k', v') :: mapSet k v rest
    else (k, v) :: rest

/-- The inner map of `ArticleMap`: title to (article, tokens). -/
abbrev TitleMap := List (Str × (Article × List Str))

/-- The member `ArticleMap`: server to title to (article, tokens). -/
abbrev ArticleMap := List (Str × TitleMap)

/-- The entry `ArticleMap[server][title]` when `find` reaches it on both levels. -/
def lookup (m : ArticleMap) (server title : Str) : Option (Article × List Str) :=
  (mapFind server m).bind (mapFind title)

/-- The statement `ArticleMap[Server][title] = make_pair(a, toks)`; `operator[]` creates
an empty inner map when the server is new. -/
def assign (m : ArticleMap) (server title : Str) (a : Article) (toks : List Str) :
    ArticleMap :=
  mapSet server (mapSet title (a, toks) ((mapFind server m).getD [])) m

/-- The deduper block of the article job (`news-aggregator.cc`, from `ArticleMap.find(Server)`
to the end of the lambda, the same text in both variants), on already sorted `tokens`. -/
def dedupUpdate (m : ArticleMap) (Server : Str) (article : Article) (tokens : List Str) :
    ArticleMap :=
  match lookup m Server article.title with
  | some (old, oldTokens) =>
    let newTokens := set_intersection (sort oldTokens) tokens
    let newArticle := stdMin old article
    assign m Server article.title newArticle newTokens
  | none => assign m Server article.title article tokens

/-- The tail of the article job after a successful parse: copy the tokens returned by
`getTokens()`, sort the copy, then run the deduper block. -/
def observe (m : ArticleMap) (Server : Str) (article : Article) (const_tokens : List Str) :
    ArticleMap :=
  dedupUpdate m Server article (sort const_tokens)

/-- One observation handed to the deduper: the server, the article and the tokens that
the HTML collaborator returned for it. -/
structure Observation where
  server : Str
  article : Article
  tokens : List Str
deriving DecidableEq, Repr

/-- The deduper updates of a sequence of observations, one after another. -/
def observeAll (m : ArticleMap) (obs : List Observation) : ArticleMap :=
  obs.foldl (fun acc o => observe acc o.server o.article o.tokens) m

/-- The entries of `ArticleMap` in the order of the two nested iterator loops. -/
def entries (m : ArticleMap) : List (Str × Str × Article × List Str) :=
  m.flatMap (fun st => st.2.map (fun e => (st.1, e.1, e.2.1, e.2.2)))

/-- The observations of one group: same server and same title. -/
def group (obs : List Observation) (server title : Str) : List Observation :=
  obs.filter (fun o => o.server = server ∧ o.article.title = title)

/-- A call made on an external collaborator (libxml, the RSS and HTML parsers, the log,
a per-server semaphore), recorded in program order. -/
inductive Event where
  | xmlInitParser
  | xmlInitializeCatalog
  | xmlCatalogCleanup
  | xmlCleanupParser
  | feedListParse (uri : Str)
  | feedListFailure (uri : Str)
  | feedParse (url : Str)
  | feedFailure (url : Str)
  | htmlParse (url : Str)
  | semWait (server : Str)
  | semSignal (server : Str)
deriving DecidableEq, Repr

/-- The external collaborators, as functions of the address they are given; `none` is
the exception the collaborator throws (`RSSFeedListException`, `RSSFeedException`,
`HTMLDocumentException`). -/
structure Collaborators where
  getURLServer : Str → Str
  feedList : Str → Option (List (Str × Str))
  feed : Str → Option (List Article)
  html : Str → Option (List Str)

/-- The data members of `NewsAggregator` that the crawl reads or writes, the `RSSIndex`
as the list of `add` calls it received, and the log of collaborator calls. -/
structure State where
  rssFeedListURI : Str
  built : Bool
  urlSet : List Str
  serverSemaphoreMap : List (Str × Nat)
  ArticleMap : ArticleMap
  index : List (Article × List Str)
  events : List Event

/-- The constant `kNumPerServer` of `news-aggregator.h`. -/
def kNumPerServer : Nat := 10

/-- The state the private constructor leaves: `built(false)` and empty containers. -/
def State.init (rssFeedListURI : Str) : State :=
  { rssFeedListURI := rssFeedListURI, built := false, urlSet := [],
    serverSemaphoreMap := [], ArticleMap := [], index := [], events := [] }

/-- Record a collaborator call. -/
def State.emit (s : State) (e : Event) : State := { s with events := s.events ++ [e] }

/-- How many times `HTMLDocument::parse` was called for `url`. -/
def State.htmlParses (s : State) (url : Str) : Nat := s.events.count (Event.htmlParse url)

namespace ThreadPoolVariant

/-- The lambda scheduled by `articleThreads` in the thread-pool variant: claim the url,
derive the server, parse the HTML document, then update the deduper. -/
def articleJob (c : Collaborators) (article : Article) (s : State) : State :=
  if article.url ∈ s.urlSet then s
  else
    let s1 := { s with urlSet := article.url :: s.urlSet }
    let Server := c.getURLServer article.url
    let s2 := s1.emit (Event.htmlParse article.url)
    match c.html article.url with
    | none => s2
    | some const_tokens =>
      { s2 with ArticleMap := observe s2.ArticleMap Server article const_tokens }

/-- The body of `articleThreads`: one job per article on `articlePool`, then
`articlePool.wait()`; the jobs are taken one after another in the order scheduled. -/
def articleThreads (c : Collaborators) (articles : List Article) (s : State) : State :=
  articles.foldl (fun acc a => articleJob c a acc) s

/-- The body of `feedThread`: claim the feed url, parse the feed, hand its articles to
`articleThreads`. -/
def feedThread (c : Collaborators) (feed : Str × Str) (s : State) : State :=
  let xmlUrl := feed.1
  if xmlUrl ∈ s.urlSet then s
  else
    let s1 := { s with urlSet := xmlUrl :: s.urlSet }
    let s2 := s1.emit (Event.feedParse xmlUrl)
    match c.feed xmlUrl with
    | none => s2.emit (Event.feedFailure xmlUrl)
    | some articles => articleThreads c articles s2

/-- The feed jobs of `processAllFeeds`, one after another in the order scheduled. -/
def feedJobs (c : Collaborators) (feeds : List (Str × Str)) (s : State) : State :=
  feeds.foldl (fun acc f => feedThread c f acc) s

/-- The finalization loop of `processAllFeeds`: one `index.add` per entry of `ArticleMap`. -/
def finalize (s : State) : State :=
  { s with index := s.index ++ (entries s.ArticleMap).map (fun e => (e.2.2.1, e.2.2.2)) }

/-- The body of `processAllFeeds`: parse the feed list (log and return when that fails),
run a feed job per feed, wait, then finalize. -/
def processAllFeeds (c : Collaborators) (s : State) : State :=
  let s1 := s.emit (Event.feedListParse s.rssFeedListURI)
  match c.feedList s.rssFeedListURI with
  | none => s1.emit (Event.feedListFailure s.rssFeedListURI)
  | some feeds => finalize (feedJobs c feeds s1)

/-- The body of `buildIndex`. -/
def buildIndex (c : Collaborators) (s : State) : State :=
  if s.built then s
  else
    let s1 := { s with built := true }
    let s2 := (s1.emit Event.xmlInitParser).emit Event.xmlInitializeCatalog
    let s3 := processAllFeeds c s2
    (s3.emit Event.xmlCatalogCleanup).emit Event.xmlCleanupParser

end ThreadPoolVariant

namespace ThreadsVariant

/-- The lambda of `articleThreads` in the variant that spawns threads: claim the url,
create the server semaphore on first use, wait on it, parse, signal it on both paths,
then update the deduper. The result is `none` when `serverSemaph->wait()` finds no
permit, which in a run of one job after another means the job never proceeds. -/
def articleJob (c : Collaborators) (article : Article) (s : State) : Option State :=
  if article.url ∈ s.urlSet then some s
  else
    let s1 := { s with urlSet := article.url :: s.urlSet }
    let Server := c.getURLServer article.url
    let permits := (mapFind Server s1.serverSemaphoreMap).getD kNumPerServer
    if permits = 0 then none
    else
      let s2 := { s1 with serverSemaphoreMap := mapSet Server (permits - 1) s1.serverSemaphoreMap }
      let s3 := (s2.emit (Event.semWait Server)).emit (Event.htmlParse article.url)
      let s4 := { s3 with serverSemaphoreMap := mapSet Server permits s3.serverSemaphoreMap }
      let s5 := s4.emit (Event.semSignal Server)
      match c.html article.url with
      | none => some s5
      | some const_tokens =>
        some { s5 with ArticleMap := observe s5.ArticleMap Server article const_tokens }

end ThreadsVariant

end NewsAggregator

namespace ThreadPool

/-!
The thread pool of `thread-pool.cc`.

Every thread is a program counter; a step is one critical section or one access to a
shared variable. A condition-variable wait lets its thread proceed in any state where
its predicate holds, a semaphore is its counter, and the queue operations a thread
makes without the matching lock are taken as atomic.
-/

/-- A scheduled `std::function<void(void)>`: the number of the `schedule` call that
enqueued it, and whether its body ends by throwing. -/
structure Thunk where
  id : Nat
  throws : Bool
deriving DecidableEq, Repr

/-- Where the dispatcher thread stands in `ThreadPool::dispatcher`. -/
inductive DispatcherPc where
  | waitJob
  | waitWorker (thunk : Thunk)
  | assign (thunk : Thunk) (availableWorkerID : Nat)
  | signal (availableWorkerID : Nat)
  | exited
deriving DecidableEq, Repr

/-- Where a worker thread stands in `ThreadPool::worker`. -/
inductive WorkerPc where
  | waitSem
  | waitLock
  | run
  | push
  | unlock
  | exited
deriving DecidableEq, Repr

/-- Where the calling thread stands: outside the pool, inside `wait()`, or inside the
destructor. -/
inductive CallerPc where
  | idle
  | wait1
  | wait2
  | dLock
  | dWait1
  | dWait2
  | dSetExit
  | dUnlock
  | dJoinDt
  | dSignalAll (i : Nat)
  | dJoinWts (i : Nat)
  | destroyed
deriving DecidableEq, Repr

/-- Who holds the mutex `sLock`. -/
inductive LockOwner where
  | worker (workerID : Nat)
  | destructor
deriving DecidableEq, Repr

/-- One slot of `thunkQueue` together with the thread of `wts` that serves it: the
semaphore counter, the stored thunk, and the program counter of the worker. -/
structure Worker where
  pc : WorkerPc
  sem : Nat
  thunk : Option Thunk
deriving DecidableEq, Repr

/-- The data members of `ThreadPool`, the program counters of its threads and of the
calling thread, and the bookkeeping of what was scheduled and what ran. -/
structure Pool where
  totalNumThreads : Nat
  workers : Nat → Worker
  jobQueue : List Thunk
  threadQueue : List Nat
  exit : Bool
  sLock : Option LockOwner
  dt : DispatcherPc
  caller : CallerPc
  nextId : Nat
  executed : List Thunk
  terminated : Bool
  waitMark : Nat

/-- The state the constructor leaves: every semaphore at 0, every worker id on
`threadQueue`, the dispatcher and the workers at the top of their loops. -/
def Pool.init (numThreads : Nat) : Pool :=
  { totalNumThreads := numThreads
    workers := fun _ => { pc := WorkerPc.waitSem, sem := 0, thunk := none }
    jobQueue := []
    threadQueue := List.range numThreads
    exit := false
    sLock := none
    dt := DispatcherPc.waitJob
    caller := CallerPc.idle
    nextId := 0
    executed := []
    terminated := false
    waitMark := 0 }

/-- Overwrite the slot of worker `w`. -/
def Pool.setWorker (p : Pool) (w : Nat) (x : Worker) : Pool :=
  { p with workers := fun i => if i = w then x else p.workers i }

/-- The call `schedule(thunk)`: push on `jobQueue`. -/
def schedule (p : Pool) (throws : Bool) : Pool :=
  { p with jobQueue := p.jobQueue ++ [{ id := p.nextId, throws := throws }],
           nextId := p.nextId + 1 }

/-- One step of `ThreadPool::dispatcher`; `none` when the thread is blocked or gone. -/
def stepDispatcher (p : Pool) : Option Pool :=
  match p.dt with
  | DispatcherPc.waitJob =>
    if p.exit then some { p with dt := DispatcherPc.exited }
    else
      match p.jobQueue with
      | [] => none
      | thunk :: rest => some { p with jobQueue := rest, dt := DispatcherPc.waitWorker thunk }
  | DispatcherPc.waitWorker thunk =>
    match p.threadQueue with
    | [] => none
    | w :: rest => some { p with threadQueue := rest, dt := DispatcherPc.assign thunk w }
  | DispatcherPc.assign thunk w =>
    some { p.setWorker w { p.workers w with thunk := some thunk } with
           dt := DispatcherPc.signal w }
  | DispatcherPc.signal w =>
    some { p.setWorker w { p.workers w with sem := (p.workers w).sem + 1 } with
           dt := DispatcherPc.waitJob }
  | DispatcherPc.exited => none

/-- One step of `ThreadPool::worker` for worker `w`; `none` when the thread is blocked
or gone. A thunk that throws is not caught anywhere in the loop, so the exception
leaves the thread function and the program is terminated. -/
def stepWorker (p : Pool) (w : Nat) : Option Pool :=
  if w < p.totalNumThreads then
    match (p.workers w).pc with
    | WorkerPc.waitSem =>
      if 0 < (p.workers w).sem then
        some (p.setWorker w { p.workers w with sem := (p.workers w).sem - 1,
                                               pc := WorkerPc.waitLock })
      else none
    | WorkerPc.waitLock =>
      match p.sLock with
      | some _ => none
      | none =>
        if p.exit then some (p.setWorker w { p.workers w with pc := WorkerPc.exited })
        else some { p.setWorker w { p.workers w with pc := WorkerPc.run } with
                    sLock := some (LockOwner.worker w) }
    | WorkerPc.run =>
      match (p.workers w).thunk with
      | none => some { p with terminated := true }
      | some thunk =>
        if thunk.throws then some { p with terminated := true }
        else some { p.setWorker w { p.workers w with pc := WorkerPc.push } with
                    executed := p.executed ++ [thunk] }
    | WorkerPc.push =>
      some { p.setWorker w { p.workers w with pc := WorkerPc.unlock } with
             threadQueue := p.threadQueue ++ [w] }
    | WorkerPc.unlock =>
      some { p.setWorker w { p.workers w with pc := WorkerPc.waitSem } with sLock := none }
    | WorkerPc.exited => none
  else none

/-- One step of the calling thread inside `wait()` or inside the destructor; `none`
when it is blocked or not inside either. -/
def stepCaller (p : Pool) : Option Pool :=
  match p.caller with
  | CallerPc.idle => none
  | CallerPc.wait1 =>
    if p.jobQueue.isEmpty then some { p with caller := CallerPc.wait2 } else none
  | CallerPc.wait2 =>
    if p.totalNumThreads = p.threadQueue.length then some { p with caller := CallerPc.idle }
    else none
  | CallerPc.dLock =>
    match p.sLock with
    | some _ => none
    | none => some { p with sLock := some LockOwner.destructor, caller := CallerPc.dWait1 }
  | CallerPc.dWait1 =>
    if p.jobQueue.isEmpty then some { p with caller := CallerPc.dWait2 } else none
  | CallerPc.dWait2 =>
    if p.totalNumThreads = p.threadQueue.length then
      some { p with caller := CallerPc.dSetExit }
    else none
  | CallerPc.dSetExit => some { p with exit := true, caller := CallerPc.dUnlock }
  | CallerPc.dUnlock => some { p with sLock := none, caller := CallerPc.dJoinDt }
  | CallerPc.dJoinDt =>
    if p.dt = DispatcherPc.exited then some { p with caller := CallerPc.dSignalAll 0 }
    else none
  | CallerPc.dSignalAll i =>
    if i < p.totalNumThreads then
      some { p.setWorker i { p.workers i with sem := (p.workers i).sem + 1 } with
             caller := CallerPc.dSignalAll (i + 1) }
    else some { p with caller := CallerPc.dJoinWts 0 }
  | CallerPc.dJoinWts i =>
    if i < p.totalNumThreads then
      if (p.workers i).pc = WorkerPc.exited then
        some { p with caller := CallerPc.dJoinWts (i + 1) }
      else none
    else some { p with caller := CallerPc.destroyed }
  | CallerPc.destroyed => none

/-- What the scheduler lets happen next. -/
inductive Action where
  | schedule (throws : Bool)
  | callWait
  | callDestroy
  | caller
  | dispatcher
  | worker (w : Nat)
deriving DecidableEq, Repr

/-- One step of the whole pool. Nothing runs once the program is terminated. -/
def step (p : Pool) (a : Action) : Option Pool :=
  if p.terminated then none
  else
    match a with
    | Action.schedule throws => some (schedule p throws)
    | Action.callWait =>
      if p.caller = CallerPc.idle then
        some { p with caller := CallerPc.wait1, waitMark := p.nextId }
      else none
    | Action.callDestroy =>
      if p.caller = CallerPc.idle then some { p with caller := CallerPc.dLock } else none
    | Action.caller => stepCaller p
    | Action.dispatcher => stepDispatcher p
    | Action.worker w => stepWorker p w

/-- An interleaving: the actions taken one after another; `none` when one of them is
not enabled where it is taken. -/
def run (p : Pool) : List Action → Option Pool
  | [] => some p
  | a :: rest => (step p a).bind (fun q => run q rest)

/-- The thunk the dispatcher has popped from `jobQueue` and not yet stored in a slot. -/
def hand (p : Pool) : List Thunk :=
  match p.dt with
  | DispatcherPc.waitWorker thunk => [thunk]
  | DispatcherPc.assign thunk _ => [thunk]
  | _ => []

/-- Worker `w` has been given a thunk it has not finished: the dispatcher is about to
signal it, its semaphore is up, or it is between the semaphore and the end of the call. -/
def fresh (p : Pool) (w : Nat) : Bool :=
  decide (p.dt = DispatcherPc.signal w) || decide (0 < (p.workers w).sem) ||
  decide ((p.workers w).pc = WorkerPc.waitLock) || decide ((p.workers w).pc = WorkerPc.run)

/-- The thunk in the mailbox or under execution at worker `w`. -/
def inFlight (p : Pool) (w : Nat) : List Thunk :=
  if fresh p w then (p.workers w).thunk.toList else []

/-- Every thunk the pool currently accounts for: the job queue, the dispatcher's hand,
the mailboxes and executions of workers `0 .. totalNumThreads - 1`, and the thunks
that have run to completion. -/
def places (p : Pool) : List Thunk :=
  p.jobQueue ++ hand p ++ (List.range p.totalNumThreads).flatMap (inFlight p) ++ p.executed

end ThreadPool

namespace NewsAggregator

/-- The keys of a `std::map` are strictly ascending. -/
def SortedKeys {β : Type} (l : List (Str × β)) : Prop :=
  (l.map Prod.fst).Pairwise (fun a b => a < b)

/-- Both levels of `ArticleMap` have strictly ascending keys. -/
def WellFormed (m : ArticleMap) : Prop :=
  SortedKeys m ∧ ∀ st ∈ m, SortedKeys st.2

/-- The entries that the finalization loop meets for one `(server, title)`. -/
def entriesAt (m : ArticleMap) (server title : Str) : List (Str × Str × Article × List Str) :=
  (entries m).filter (fun e => e.1 = server ∧ e.2.1 = title)

end NewsAggregator

namespace NewsAggregator

/-- What the deduper promises about a map `m` built from the observations `obs`: a key
is present exactly when its group is non-empty, the stored article was observed in the
group and no article of the group is smaller, the stored tokens are the strings common
to every token list of the group, and they are stored in ascending order. -/
def Represents (m : ArticleMap) (obs : List Observation) : Prop :=
  ∀ s t : Str,
    match lookup m s t with
    | none => group obs s t = []
    | some (a, toks) =>
      (∃ o ∈ group obs s t, o.article = a) ∧
      (∀ o ∈ group obs s t, ¬ (o.article < a)) ∧
      (∀ x : Str, x ∈ toks ↔ ∀ o ∈ group obs s t, x ∈ o.tokens) ∧
      toks.Sorted (fun x y => x ≤ y)

end NewsAggregator

namespace NewsAggregator

/-- The first observation of the scenario "two URLs, same server, same title". -/
def scenarioX : Observation :=
  { server := "http://a".toList
    article := { url := "http://a/x".toList, title := "T".toList }
    tokens := ["k".toList, "m".toList, "p".toList] }

/-- The second observation of the scenario "two URLs, same server, same title". -/
def scenarioY : Observation :=
  { server := "http://a".toList
    article := { url := "http://a/y".toList, title := "T".toList }
    tokens := ["k".toList, "p".toList, "q".toList] }

/-- An observation whose document repeats a word. -/
def scenarioRepeat : Observation :=
  { server := "http://a".toList
    article := { url := "http://a/z".toList, title := "Z".toList }
    tokens := ["b".toList, "a".toList, "b".toList] }

end NewsAggregator

namespace NewsAggregator

namespace ThreadPoolVariant

/-- Feed `f` parses, and one of the articles it enumerates has url `u`. -/
def lists (c : Collaborators) (f : Str × Str) (u : Str) : Prop :=
  ∃ arts, c.feed f.1 = some arts ∧ ∃ a ∈ arts, a.url = u

/-- The url `v` was claimed by a feed job that has finished: every article the feed
enumerates has its url in the seen-url set. -/
def feedDone (c : Collaborators) (F : Str → Prop) (urlSet : List Str) (v : Str) : Prop :=
  F v ∧ ∀ arts, c.feed v = some arts → ∀ a ∈ arts, a.url ∈ urlSet

/-- The bookkeeping between the seen-url set and the log of HTML parses: no document is
parsed twice, a parsed url is claimed (and is a listed article url, `A`), and a claimed
url was parsed as HTML, or belongs to the feed job under way (`cur`), or to a finished
feed job. -/
structure Claimed (c : Collaborators) (A F : Str → Prop) (cur : Option Str)
    (urlSet : List Str) (events : List Event) : Prop where
  once : ∀ u, events.count (Event.htmlParse u) ≤ 1
  parsed : ∀ u, Event.htmlParse u ∈ events → u ∈ urlSet ∧ A u
  claimed : ∀ v ∈ urlSet, Event.htmlParse v ∈ events ∨ cur = some v ∨ feedDone c F urlSet v

/-- Collaborators for the scenario in which the feed list names the page `http://a/x`
as a feed (it does not parse as RSS) and two proper feeds list that page as an article. -/
def collidingFeeds : Collaborators :=
  { getURLServer := fun _ => "http://a".toList
    feedList := fun _ => none
    feed := fun url =>
      if url = "http://a/x".toList then none
      else some [{ url := "http://a/x".toList, title := "T".toList }]
    html := fun _ => some ["k".toList] }

/-- Collaborators for the scenario in which the feed `http://a/g` enumerates the urls
of the feeds `http://a/f1` and `http://a/f2` as articles, and each of these two feeds
lists the page `http://a/x`. -/
def listedFeeds : Collaborators :=
  { getURLServer := fun _ => "http://a".toList
    feedList := fun _ => none
    feed := fun url =>
      if url = "http://a/g".toList then
        some [{ url := "http://a/f1".toList, title := "A1".toList },
              { url := "http://a/f2".toList, title := "A2".toList }]
      else if url = "http://a/f1".toList ∨ url = "http://a/f2".toList then
        some [{ url := "http://a/x".toList, title := "T".toList }]
      else none
    html := fun _ => some ["k".toList] }

/-- The feed `http://a/g` of the scenario `listedFeeds`. -/
def feedG : Str × Str := ("http://a/g".toList, "G".toList)

/-- The feed `http://a/f1` of the scenarios. -/
def feedF1 : Str × Str := ("http://a/f1".toList, "F1".toList)

/-- The feed `http://a/f2` of the scenarios. -/
def feedF2 : Str × Str := ("http://a/f2".toList, "F2".toList)

/-- Collaborators for the scenario "two feeds share one article url". -/
def sharedArticle : Collaborators :=
  { getURLServer := fun _ => "http://a".toList
    feedList := fun _ => some [("http://a/f1".toList, "F1".toList),
                              ("http://a/f2".toList, "F2".toList)]
    feed := fun url =>
      if url = "http://a/f1".toList ∨ url = "http://a/f2".toList then
        some [{ url := "http://a/x".toList, title := "T".toList }]
      else none
    html := fun _ => some ["alpha".toList, "beta".toList] }

end ThreadPoolVariant

end NewsAggregator

namespace NewsAggregator

/-- The event with which `processAllFeeds` starts: the parse of the feed list. -/
def Event.isCrawl : Event → Bool
  | Event.feedListParse _ => true
  | _ => false

/-- How many times `processAllFeeds` has been entered. -/
def State.crawls (s : State) : Nat := s.events.countP Event.isCrawl

/-- A piece of the crawl that leaves the `built` flag and the feed-list uri alone and
does not start a crawl. -/
def Quiet (s s2 : State) : Prop :=
  s2.built = s.built ∧ s2.rssFeedListURI = s.rssFeedListURI ∧ s2.crawls = s.crawls

end NewsAggregator

namespace ThreadPool

/-- The state an interleaving leads to, or the starting state when the interleaving
cannot be taken. -/
def runFrom (p : Pool) (trace : List Action) : Pool := (run p trace).getD p

/-- Whether the dispatcher holds worker id `w`: it has popped the id from `threadQueue`
and has not yet signalled that worker. -/
def holds (d : DispatcherPc) (w : Nat) : Nat :=
  match d with
  | DispatcherPc.assign _ v => if v = w then 1 else 0
  | DispatcherPc.signal v => if v = w then 1 else 0
  | _ => 0

/-- Whether a worker is between its semaphore and the push of its id. -/
def busy (pc : WorkerPc) : Nat :=
  match pc with
  | WorkerPc.waitLock => 1
  | WorkerPc.run => 1
  | WorkerPc.push => 1
  | _ => 0

/-- In how many places the id of worker `w` stands: on `threadQueue`, with the dispatcher,
as a raised semaphore, or with the worker itself on its way through a job. -/
def tokenCount (p : Pool) (w : Nat) : Nat :=
  p.threadQueue.count w + holds p.dt w + (p.workers w).sem + busy (p.workers w).pc

/-- How often the thunk numbered `j` occurs among the places. -/
def occurrences (p : Pool) (j : Nat) : Nat := ((places p).map Thunk.id).count j

/-- The invariant of the pool while its destructor has not been called. -/
structure PoolInv (p : Pool) : Prop where
  exitFalse : p.exit = false
  callerOutside : p.caller = CallerPc.idle ∨ p.caller = CallerPc.wait1 ∨
    p.caller = CallerPc.wait2
  token : ∀ w, tokenCount p w = if w < p.totalNumThreads then 1 else 0
  conserve : ∀ j, occurrences p j = if j < p.nextId then 1 else 0

/-- The interleaving of C4: one thunk is scheduled, the caller enters `wait()`, the
dispatcher pops the thunk, and the caller makes its two observations. -/
def raceTrace : List Action :=
  [Action.schedule false, Action.callWait, Action.dispatcher, Action.caller, Action.caller]

/-- The interleaving of C6 in which the destructor returns: the destructor takes `sLock`,
the dispatcher pops the thunk, `wait()` makes its two observations before the dispatcher
pops a worker id, and the worker wakes up only after `exit` is set. -/
def dropTrace : List Action :=
  [Action.schedule false, Action.callDestroy, Action.caller, Action.dispatcher,
   Action.caller, Action.caller, Action.caller, Action.caller,
   Action.dispatcher, Action.dispatcher, Action.dispatcher, Action.dispatcher,
   Action.caller, Action.caller, Action.caller,
   Action.worker 0, Action.worker 0, Action.caller, Action.caller]

/-- The interleaving of C6 in which the destructor hangs: the destructor takes `sLock`,
the dispatcher hands the thunk to worker 0, and the worker stops at `sLock`. -/
def hangTrace : List Action :=
  [Action.schedule false, Action.callDestroy, Action.caller, Action.dispatcher,
   Action.dispatcher, Action.dispatcher, Action.dispatcher, Action.worker 0, Action.caller]

/-- The state in which nothing can move: the destructor waits in `wait()` for an id that
only worker 0 can push, and worker 0 waits for the `sLock` that the destructor holds. -/
structure Stuck (p : Pool) : Prop where
  caller : p.caller = CallerPc.dWait2
  lock : p.sLock = some LockOwner.destructor
  one : p.totalNumThreads = 1
  worker : (p.workers 0).pc = WorkerPc.waitLock
  queue : p.threadQueue = []
  none_ran : p.executed = []

/-- The interleaving that brings worker 0 to the call of its thunk. -/
def toRun (throws : Bool) : List Action :=
  [Action.schedule throws, Action.dispatcher, Action.dispatcher, Action.dispatcher,
   Action.dispatcher, Action.worker 0, Action.worker 0]

end ThreadPool

namespace ThreadPool

/-- How often the thunk numbered `j` occurs in the mailboxes and executions of the
workers `0 .. n - 1`. -/
def flightCount (p : Pool) (n : Nat) (j : Nat) : Nat :=
  (((List.range n).flatMap (inFlight p)).map Thunk.id).count j

end ThreadPool

namespace ThreadPool

/-- An interleaving in which one thunk is scheduled, handed over and run, and a second
one is scheduled and popped by the dispatcher. -/
def busyTrace : List Action :=
  [Action.schedule false, Action.dispatcher, Action.dispatcher, Action.dispatcher,
   Action.dispatcher, Action.worker 0, Action.worker 0, Action.worker 0,
   Action.schedule false, Action.callWait, Action.dispatcher, Action.worker 0,
   Action.worker 0, Action.dispatcher]

end ThreadPool

namespace NewsAggregator

/-- Collaborators whose HTML fetch always throws `HTMLDocumentException`. -/
def failingHtml : Collaborators :=
  { getURLServer := fun _ => "http://a".toList
    feedList := fun _ => none
    feed := fun _ => none
    html := fun _ => none }

/-- An observation with the title of `scenarioX` on another server. -/
def scenarioOther : Observation :=
  { server := "http://b".toList
    article := { url := "http://b/x".toList, title := "T".toList }
    tokens := ["k".toList] }

/-- The arguments of the `index.add` call made for an entry of `ArticleMap`. -/
def addCall (e : Str × Str × Article × List Str) : Article × List Str := (e.2.2.1, e.2.2.2)

end NewsAggregator

namespace ThreadPool

/-- Whether a worker at this point of its loop is inside the scope of its
`lock_guard` on `sLock`, past the test of `exit`. -/
def holdsLock (pc : WorkerPc) : Bool :=
  match pc with
  | WorkerPc.run => true
  | WorkerPc.push => true
  | WorkerPc.unlock => true
  | _ => false

/-- Whether the destructor is between `sLock.lock()` and `sLock.unlock()`. -/
def destructorLocked (pc : CallerPc) : Bool :=
  match pc with
  | CallerPc.dWait1 => true
  | CallerPc.dWait2 => true
  | CallerPc.dSetExit => true
  | CallerPc.dUnlock => true
  | _ => false

/-- The mutex `sLock` is held by whoever is inside its scope. -/
structure LockInv (p : Pool) : Prop where
  workers : ∀ w, holdsLock (p.workers w).pc = true → p.sLock = some (LockOwner.worker w)
  destructor : destructorLocked p.caller = true → p.sLock = some LockOwner.destructor

/-- The workers that stand at the call `thunkQueue[workerID].second()`. -/
def runningWorkers (p : Pool) : List Nat :=
  (List.range p.totalNumThreads).filter (fun w => decide ((p.workers w).pc = WorkerPc.run))

/-- The article jobs under execution on `articlePool` whose article is on `server`,
where `serverOf id` is the server of the article for which the thunk of the `id`-th
`schedule` call was made. The HTML download of an article is made from inside the call
of its thunk, so this bounds the downloads active against `server`. -/
def activeOn (serverOf : Nat → NewsAggregator.Str) (server : NewsAggregator.Str)
    (p : Pool) : Nat :=
  ((runningWorkers p).filter (fun w =>
    match (p.workers w).thunk with
    | some thunk => decide (serverOf thunk.id = server)
    | none => false)).length

/-- An interleaving on two workers: two thunks are scheduled and handed to workers 0 and
1, worker 0 takes `sLock` and stands at the call of its thunk, worker 1 has taken its
semaphore and waits for `sLock`. -/
def twoWorkersTrace : List Action :=
  [Action.schedule false, Action.schedule false,
   Action.dispatcher, Action.dispatcher, Action.dispatcher, Action.dispatcher,
   Action.dispatcher, Action.dispatcher, Action.dispatcher, Action.dispatcher,
   Action.worker 0, Action.worker 1, Action.worker 0]

end ThreadPool

namespace NewsAggregator

/-- Every server of the map has at least one title under it. -/
def InnerNonempty (m : ArticleMap) : Prop := ∀ st ∈ m, st.2 ≠ []

/-- What the deduper block stores for the key of `o`, given what `find` reached there
before: the observation itself with its tokens sorted, or the smaller article with the
intersection of the sorted old tokens and the sorted new ones. -/
def mergeEntry (old : Option (Article × List Str)) (o : Observation) : Article × List Str :=
  match old with
  | none => (o.article, sort o.tokens)
  | some (a, toks) => (stdMin a o.article, set_intersection (sort toks) (sort o.tokens))

/-- The pair by which `operator<` compares two articles. -/
def Article.key (a : Article) : Lex (Str × Str) := toLex (a.title, a.url)

end NewsAggregator

namespace NewsAggregator

/-- How often `x` occurs in `l`. -/
def tally {α : Type} [DecidableEq α] (x : α) (l : List α) : Nat := l.count x

end NewsAggregator

namespace StreamTokenizer

/-!
The tokenizer of `stream-tokenizer.cc` and its use in `HTMLDocument::extractTokens`.

A stream is the list of the bytes still to be read, each below 256. A value of type
`int` is an integer; a value of type `char` is the integer it promotes to, which depends
on whether plain `char` is signed (it is under the x86-64 System V ABI). Every `while
(true)` loop takes a bound on its number of passes and returns nothing when the bound is
used up.
-/

/-- The macro `EOF`. -/
def EOF : Int := -1

/-- The value of an `int` after it has been stored in a `char` and promoted back. -/
def toChar (signedChar : Bool) (v : Int) : Int :=
  if signedChar then (v + 128) % 256 - 128 else v % 256

/-- The byte that `token += ch` appends, and that `delimiters.find(ch)` looks for. -/
def byteOf (ch : Int) : Nat := (ch % 256).toNat

/-- The test `delimiters.find(ch) != string::npos`. -/
def isDelimiter (delimiters : List Nat) (ch : Int) : Bool := delimiters.contains (byteOf ch)

/-- Modelled from the spec: the data members of `StreamTokenizer` (`stream-tokenizer.h`
is not among the sources): the stream, the delimiters, the flag `skipDelimiters`, and
`saved`, an `int` that the constructor sets to `EOF`. The field `signedChar` records
the signedness of plain `char` on the platform. -/
structure Tokenizer where
  is : List Nat
  delimiters : List Nat
  skipDelimiters : Bool
  saved : Int
  signedChar : Bool
deriving DecidableEq, Repr

/-- The constructor. -/
def Tokenizer.init (signedChar : Bool) (is delimiters : List Nat) (skipDelimiters : Bool) :
    Tokenizer :=
  { is := is, delimiters := delimiters, skipDelimiters := skipDelimiters, saved := EOF,
    signedChar := signedChar }

/-- The method `getNextChar`: the saved character, passed through a `char`, when there
is one; otherwise `is.get()`. -/
def getNextChar (t : Tokenizer) : Int × Tokenizer :=
  if t.saved ≠ EOF then (toChar t.signedChar t.saved, { t with saved := EOF })
  else
    match t.is with
    | [] => (EOF, t)
    | b :: rest => ((b : Int), { t with is := rest })

/-- The `while (true)` loop of `hasMoreTokens`, for at most `fuel` passes. -/
def skipLoop : Nat → Tokenizer → Option (Bool × Tokenizer)
  | 0, _ => none
  | fuel + 1, t =>
    if (getNextChar t).1 = EOF then some (false, (getNextChar t).2)
    else if isDelimiter t.delimiters (getNextChar t).1 then skipLoop fuel (getNextChar t).2
    else some (true, { (getNextChar t).2 with saved := (getNextChar t).1 })

/-- The method `hasMoreTokens`: the answer and the tokenizer after the call. -/
def hasMoreTokens (fuel : Nat) (t : Tokenizer) : Option (Bool × Tokenizer) :=
  if t.skipDelimiters then skipLoop fuel t
  else if t.saved ≠ EOF then some (true, t)
  else some (decide ((getNextChar t).1 ≠ EOF),
             { (getNextChar t).2 with saved := (getNextChar t).1 })

/-- The `while (true)` loop of `nextToken`, for at most `fuel` passes: the last value of
the `char ch`, the token, and the tokenizer. -/
def tokenLoop : Nat → Tokenizer → List Nat → Option (Int × List Nat × Tokenizer)
  | 0, _, _ => none
  | fuel + 1, t, token =>
    if toChar t.signedChar (getNextChar t).1 = EOF ∨
        isDelimiter t.delimiters (toChar t.signedChar (getNextChar t).1) = true then
      some (toChar t.signedChar (getNextChar t).1, token, (getNextChar t).2)
    else
      tokenLoop fuel (getNextChar t).2
        (token ++ [byteOf (toChar t.signedChar (getNextChar t).1)])

/-- How a piece of the program ends: with a value, in a failed `assert`, or with the
bound on the loop passes used up. -/
inductive Result (α : Type) where
  | done (a : α)
  | aborted
  | unfinished
deriving DecidableEq, Repr

/-- The part of `nextToken` after `assert(hasMoreTokens())`. -/
def nextTokenBody (fuel : Nat) (t : Tokenizer) : Result (List Nat × Tokenizer) :=
  if isDelimiter t.delimiters (toChar t.signedChar (getNextChar t).1) = true then
    Result.done ([byteOf (toChar t.signedChar (getNextChar t).1)], (getNextChar t).2)
  else
    match tokenLoop fuel (getNextChar t).2 [byteOf (toChar t.signedChar (getNextChar t).1)] with
    | none => Result.unfinished
    | some (ch, token, t2) =>
      Result.done (token, if ch ≠ EOF then { t2 with saved := ch } else t2)

/-- The method `nextToken`, with its `assert` enabled. -/
def nextToken (fuel : Nat) (t : Tokenizer) : Result (List Nat × Tokenizer) :=
  match hasMoreTokens fuel t with
  | none => Result.unfinished
  | some (false, _) => Result.aborted
  | some (true, t1) => nextTokenBody fuel t1

/-- The loop `while (st.hasMoreTokens()) tokens.push_back(st.nextToken())`, for at most
`n` passes, every inner loop for at most `fuel` passes: the tokens pushed. -/
def drain : Nat → Nat → Tokenizer → Result (List (List Nat))
  | 0, _, _ => Result.unfinished
  | n + 1, fuel, t =>
    match hasMoreTokens fuel t with
    | none => Result.unfinished
    | some (false, _) => Result.done []
    | some (true, t1) =>
      match nextToken fuel t1 with
      | Result.done (token, t2) =>
        match drain n fuel t2 with
        | Result.done tokens => Result.done (token :: tokens)
        | Result.aborted => Result.aborted
        | Result.unfinished => Result.unfinished
      | Result.aborted => Result.aborted
      | Result.unfinished => Result.unfinished

/-- A `StreamTokenizer` with `skipDelimiters` on is built on `input` and drained; the
bounds allow one pass more than there are bytes for the outer loop and two more for the
inner ones. -/
def tokenize (signedChar : Bool) (delimiters input : List Nat) : Result (List (List Nat)) :=
  drain (input.length + 1) (input.length + 2)
    (Tokenizer.init signedChar input delimiters true)

/-- Whether a byte of the input is one of the delimiters. -/
def isDelimByte (delimiters : List Nat) (b : Nat) : Bool := delimiters.contains b

/-- Whether a byte of the input is none of the delimiters. -/
def notDelimByte (delimiters : List Nat) (b : Nat) : Bool := !delimiters.contains b

/-- Modelled from the spec: the maximal non-empty runs of non-delimiter bytes of the
input, in input order: the input is split at every delimiter and the empty pieces are
dropped. -/
def maximalRuns (delimiters input : List Nat) : List (List Nat) :=
  (input.splitOnP (isDelimByte delimiters)).filter (fun r => !r.isEmpty)

/-- A byte that a signed `char` does not turn into `EOF`: any byte but 255. -/
def Plain (b : Nat) : Prop := b < 255

/-- What the members of a tokenizer with `skipDelimiters` on and a signed `char` stand
for: the delimiters, the stream `rest`, and before it the byte `pend` when `saved` holds
one, as read from the stream or as it comes back from a `char`. -/
structure Rep (delims : List Nat) (t : Tokenizer) (pend : Option Nat) (rest : List Nat) :
    Prop where
  delims : t.delimiters = delims
  signed : t.signedChar = true
  skip : t.skipDelimiters = true
  stream : t.is = rest
  saved : match pend with
    | none => t.saved = EOF
    | some b => Plain b ∧ (t.saved = (b : Int) ∨ t.saved = toChar true (b : Int))

/-- The constant `kDelimiters` of `html-document.cc`, as byte values: space, tab, line
feed, carriage return, backspace and the punctuation marks of the literal. -/
def kDelimiters : List Nat :=
  [32, 9, 10, 13, 8, 33, 64, 35, 36, 37, 94, 38, 42, 40, 41, 95, 45, 43, 61, 126, 96, 123,
   91, 125, 93, 124, 92, 34, 39, 58, 59, 60, 44, 62, 46, 63, 47]

/-- The constant `kSeparator` of `html-document.cc`: one space. -/
def kSeparator : List Nat := [32]

/-- The `for` loop of `extractTokens` over the text nodes: the text of the node and a
separator go to `serialization`, the tokens of the text are pushed, and the text and a
separator go to `serialization` once more. -/
def extractLoop (signedChar : Bool) :
    List (List Nat) → List Nat → List (List Nat) → Result (List Nat × List (List Nat))
  | [], serialization, tokens => Result.done (serialization, tokens)
  | text :: rest, serialization, tokens =>
    match tokenize signedChar kDelimiters text with
    | Result.done ts =>
      extractLoop signedChar rest
        (serialization ++ (text ++ kSeparator) ++ (text ++ kSeparator)) (tokens ++ ts)
    | Result.aborted => Result.aborted
    | Result.unfinished => Result.unfinished

/-- The token part of `HTMLDocument::extractTokens` on the texts of the body text nodes,
starting from the tokens the document already has: the loop over the nodes, then the
tokens of the whole serialization are pushed as well. -/
def extractTokens (signedChar : Bool) (nodes : List (List Nat)) (tokens : List (List Nat)) :
    Result (List (List Nat)) :=
  match extractLoop signedChar nodes [] tokens with
  | Result.done (serialization, toks) =>
    match tokenize signedChar kDelimiters serialization with
    | Result.done ts => Result.done (toks ++ ts)
    | Result.aborted => Result.aborted
    | Result.unfinished => Result.unfinished
  | Result.aborted => Result.aborted
  | Result.unfinished => Result.unfinished

end StreamTokenizer

namespace StreamTokenizer

/-- The tokenizer at the end of its stream with nothing saved, where `char` is
unsigned and the only delimiter is the space. -/
def atEndUnsigned : Tokenizer :=
  { is := [], delimiters := [32], skipDelimiters := true, saved := EOF, signedChar := false }

/-- What `extractTokens` has put in `serialization` after the loop over the nodes. -/
def serializationOf (nodes : List (List Nat)) : List Nat :=
  nodes.flatMap (fun text => (text ++ kSeparator) ++ (text ++ kSeparator))

end StreamTokenizer

namespace NewsAggregator

/-! ## The deduper: `std::set_intersection`, `std::map` and the update block -/

theorem set_intersection_nil_left (l : List Str) : set_intersection [] l = [] := rfl

theorem set_intersection_nil_right (l : List Str) : set_intersection l [] = [] := by
  cases l <;> rfl

theorem set_intersection_cons_cons (a b : Str) (as bs : List Str) :
    set_intersection (a :: as) (b :: bs) =
      if a < b then set_intersection as (b :: bs)
      else if b < a then set_intersection (a :: as) bs
      else a :: set_intersection as bs := rfl

/-- The output of the merge is a subsequence of its first input. -/
theorem set_intersection_sublist (l1 l2 : List Str) :
    (set_intersection l1 l2).Sublist l1 := by
  induction l1 generalizing l2 with
  | nil => simp [set_intersection_nil_left]
  | cons a as ih =>
    induction l2 with
    | nil => simp [set_intersection_nil_right]
    | cons b bs ih2 =>
      rw [set_intersection_cons_cons]
      split_ifs with h1 h2
      · exact (ih _).cons a
      · exact ih2
      · exact (ih _).cons₂ a

/-- On ascending inputs the merge keeps exactly the strings that occur in both. -/
theorem mem_set_intersection (l1 l2 : List Str)
    (h1 : l1.Sorted (· ≤ ·)) (h2 : l2.Sorted (· ≤ ·)) (x : Str) :
    x ∈ set_intersection l1 l2 ↔ x ∈ l1 ∧ x ∈ l2 := by
  induction l1 generalizing l2 with
  | nil => simp [set_intersection_nil_left]
  | cons a as ih =>
    induction l2 with
    | nil => simp [set_intersection_nil_right]
    | cons b bs ih2 =>
      have ha := List.sorted_cons.mp h1
      have hb := List.sorted_cons.mp h2
      rw [set_intersection_cons_cons]
      split_ifs with hab hba
      · rw [ih _ ha.2 h2]
        constructor
        · rintro ⟨hx1, hx2⟩
          exact ⟨List.mem_cons_of_mem _ hx1, hx2⟩
        · rintro ⟨hx1, hx2⟩
          refine ⟨?_, hx2⟩
          rcases List.mem_cons.mp hx1 with rfl | hx1
          · exfalso
            rcases List.mem_cons.mp hx2 with rfl | hx2
            · exact lt_irrefl _ hab
            · exact absurd (hb.1 _ hx2) (not_le.mpr hab)
          · exact hx1
      · rw [ih2 hb.2]
        constructor
        · rintro ⟨hx1, hx2⟩
          exact ⟨hx1, List.mem_cons_of_mem _ hx2⟩
        · rintro ⟨hx1, hx2⟩
          refine ⟨hx1, ?_⟩
          rcases List.mem_cons.mp hx2 with rfl | hx2
          · exfalso
            rcases List.mem_cons.mp hx1 with rfl | hx1
            · exact lt_irrefl _ hba
            · exact absurd (ha.1 _ hx1) (not_le.mpr hba)
          · exact hx2
      · have hEq : a = b := le_antisymm (not_lt.mp hba) (not_lt.mp hab)
        subst hEq
        simp only [List.mem_cons, ih _ ha.2 hb.2]
        constructor
        · rintro (rfl | ⟨hx1, hx2⟩)
          · exact ⟨Or.inl rfl, Or.inl rfl⟩
          · exact ⟨Or.inr hx1, Or.inr hx2⟩
        · rintro ⟨hx1, hx2⟩
          rcases hx1 with rfl | hx1
          · exact Or.inl rfl
          · rcases hx2 with rfl | hx2
            · exact Or.inl rfl
            · exact Or.inr ⟨hx1, hx2⟩

theorem sort_sorted (v : List Str) : (sort v).Sorted (· ≤ ·) :=
  List.sorted_insertionSort _ v

theorem sort_perm (v : List Str) : (sort v).Perm v :=
  List.perm_insertionSort _ v

theorem mem_sort (v : List Str) (x : Str) : x ∈ sort v ↔ x ∈ v :=
  (sort_perm v).mem_iff

theorem mapFind_mapSet_self {β : Type} (k : Str) (v : β) (l : List (Str × β)) :
    mapFind k (mapSet k v l) = some v := by
  induction l with
  | nil => simp [mapSet, mapFind]
  | cons e rest ih =>
    obtain ⟨k', v'⟩ := e
    simp only [mapSet]
    split_ifs with h1 h2
    · simp [mapFind]
    · simp [mapFind, ih, ne_of_lt h2]
    · simp [mapFind]

theorem mapFind_mapSet_ne {β : Type} (k k2 : Str) (v : β) (l : List (Str × β))
    (h : k2 ≠ k) : mapFind k2 (mapSet k v l) = mapFind k2 l := by
  induction l with
  | nil => simp [mapSet, mapFind, Ne.symm h]
  | cons e rest ih =>
    obtain ⟨k', v'⟩ := e
    simp only [mapSet]
    split_ifs with h1 h2
    · simp [mapFind, Ne.symm h]
    · simp [mapFind, ih]
    · have hEq : k = k' := le_antisymm (not_lt.mp h2) (not_lt.mp h1)
      subst hEq
      simp [mapFind, Ne.symm h]

theorem lookup_assign_self (m : ArticleMap) (s t : Str) (a : Article) (toks : List Str) :
    lookup (assign m s t a toks) s t = some (a, toks) := by
  simp [lookup, assign, mapFind_mapSet_self]

theorem lookup_assign_ne (m : ArticleMap) (s t s2 t2 : Str) (a : Article)
    (toks : List Str) (h : ¬ (s2 = s ∧ t2 = t)) :
    lookup (assign m s t a toks) s2 t2 = lookup m s2 t2 := by
  by_cases hs : s2 = s
  · subst hs
    have ht : t2 ≠ t := fun e => h ⟨rfl, e⟩
    simp only [lookup, assign, mapFind_mapSet_self, Option.some_bind]
    rw [mapFind_mapSet_ne _ _ _ _ ht]
    cases mapFind s2 m <;> simp [mapFind]
  · simp [lookup, assign, mapFind_mapSet_ne _ _ _ _ hs]

end NewsAggregator

namespace NewsAggregator

theorem mapFind_some_mem {β : Type} (k : Str) (v : β) (l : List (Str × β))
    (h : mapFind k l = some v) : (k, v) ∈ l := by
  induction l with
  | nil => simp [mapFind] at h
  | cons e rest ih =>
    obtain ⟨k', v'⟩ := e
    simp only [mapFind] at h
    split_ifs at h with hk
    · subst hk
      simp only [Option.some.injEq] at h
      subst h
      exact List.mem_cons_self _ _
    · exact List.mem_cons_of_mem _ (ih h)

theorem mem_mapSet {β : Type} (k : Str) (v : β) (l : List (Str × β)) (e : Str × β)
    (h : e ∈ mapSet k v l) : e = (k, v) ∨ e ∈ l := by
  induction l with
  | nil => simpa [mapSet] using h
  | cons e' rest ih =>
    obtain ⟨k', v'⟩ := e'
    simp only [mapSet] at h
    split_ifs at h with h1 h2
    · rcases List.mem_cons.mp h with h | h
      · exact Or.inl h
      · exact Or.inr h
    · rcases List.mem_cons.mp h with h | h
      · exact Or.inr (h ▸ List.mem_cons_self _ _)
      · rcases ih h with h | h
        · exact Or.inl h
        · exact Or.inr (List.mem_cons_of_mem _ h)
    · rcases List.mem_cons.mp h with h | h
      · exact Or.inl h
      · exact Or.inr (List.mem_cons_of_mem _ h)

theorem sortedKeys_mapSet {β : Type} (k : Str) (v : β) (l : List (Str × β))
    (h : SortedKeys l) : SortedKeys (mapSet k v l) := by
  induction l with
  | nil => simp [mapSet, SortedKeys]
  | cons e rest ih =>
    obtain ⟨k', v'⟩ := e
    unfold SortedKeys at h ih ⊢
    simp only [List.map_cons, List.pairwise_cons] at h
    simp only [mapSet]
    split_ifs with h1 h2
    · simp only [List.map_cons, List.pairwise_cons]
      refine ⟨?_, h⟩
      intro x hx
      rcases List.mem_cons.mp hx with rfl | hx
      · exact h1
      · exact lt_trans h1 (h.1 x hx)
    · simp only [List.map_cons, List.pairwise_cons]
      refine ⟨?_, ih h.2⟩
      intro x hx
      obtain ⟨e, he, rfl⟩ := List.mem_map.mp hx
      rcases mem_mapSet _ _ _ _ he with rfl | he
      · exact h2
      · exact h.1 _ (List.mem_map_of_mem _ he)
    · have hEq : k = k' := le_antisymm (not_lt.mp h2) (not_lt.mp h1)
      subst hEq
      simpa only [List.map_cons, List.pairwise_cons] using h

theorem wellFormed_nil : WellFormed [] := by
  constructor
  · simp [SortedKeys]
  · intro st hst
    cases hst

theorem wellFormed_assign (m : ArticleMap) (s t : Str) (a : Article) (toks : List Str)
    (h : WellFormed m) : WellFormed (assign m s t a toks) := by
  refine ⟨sortedKeys_mapSet _ _ _ h.1, ?_⟩
  intro st hst
  rcases mem_mapSet _ _ _ _ hst with rfl | hst
  · apply sortedKeys_mapSet
    cases hfind : mapFind s m with
    | none => simp [SortedKeys]
    | some tm => exact h.2 _ (mapFind_some_mem _ _ _ hfind)
  · exact h.2 _ hst

theorem wellFormed_dedupUpdate (m : ArticleMap) (s : Str) (a : Article) (toks : List Str)
    (h : WellFormed m) : WellFormed (dedupUpdate m s a toks) := by
  unfold dedupUpdate
  split
  · exact wellFormed_assign _ _ _ _ _ h
  · exact wellFormed_assign _ _ _ _ _ h

theorem wellFormed_observeAll (obs : List Observation) (m : ArticleMap)
    (h : WellFormed m) : WellFormed (observeAll m obs) := by
  induction obs generalizing m with
  | nil => exact h
  | cons o rest ih =>
    exact ih _ (wellFormed_dedupUpdate _ _ _ _ h)

theorem filter_key_eq_mapFind {β : Type} (k : Str) (l : List (Str × β))
    (h : SortedKeys l) :
    l.filter (fun e => e.1 = k) = (mapFind k l).toList.map (fun v => (k, v)) := by
  induction l with
  | nil => simp [mapFind]
  | cons e rest ih =>
    obtain ⟨k', v'⟩ := e
    unfold SortedKeys at h ih
    simp only [List.map_cons, List.pairwise_cons] at h
    by_cases hk : k' = k
    · subst hk
      have hnone : rest.filter (fun e => e.1 = k') = [] := by
        apply List.filter_eq_nil_iff.mpr
        intro e he
        have := h.1 e.1 (List.mem_map_of_mem _ he)
        simpa using (ne_of_lt this).symm
      simp [mapFind, List.filter_cons, hnone]
    · simp [mapFind, List.filter_cons, hk, ih h.2]

theorem entriesAt_of_no_server (m : ArticleMap) (s t : Str)
    (h : ∀ st ∈ m, st.1 ≠ s) : entriesAt m s t = [] := by
  unfold entriesAt entries
  apply List.filter_eq_nil_iff.mpr
  intro e he
  obtain ⟨st, hst, he⟩ := List.mem_flatMap.mp he
  obtain ⟨x, _, rfl⟩ := List.mem_map.mp he
  simp [h st hst]

/-- In a well-formed map the finalization loop meets the entry that `find` reaches for
`(server, title)`, once, and no other entry with that key. -/
theorem entriesAt_eq_lookup (m : ArticleMap) (s t : Str) (h : WellFormed m) :
    entriesAt m s t = (lookup m s t).toList.map (fun v => (s, t, v.1, v.2)) := by
  induction m with
  | nil => simp [entriesAt, entries, lookup, mapFind]
  | cons st rest ih =>
    obtain ⟨s', tm⟩ := st
    obtain ⟨hs, hin⟩ := h
    have hs' := hs
    unfold SortedKeys at hs'
    simp only [List.map_cons, List.pairwise_cons] at hs'
    have hrest : WellFormed rest :=
      ⟨hs'.2, fun st hst => hin st (List.mem_cons_of_mem _ hst)⟩
    have hsplit : entriesAt ((s', tm) :: rest) s t =
        (tm.map (fun e => (s', e.1, e.2.1, e.2.2))).filter (fun e => e.1 = s ∧ e.2.1 = t)
          ++ entriesAt rest s t := by
      simp [entriesAt, entries, List.flatMap_cons, List.filter_append]
    rw [hsplit]
    by_cases hk : s' = s
    · subst hk
      have hnone : entriesAt rest s' t = [] := by
        apply entriesAt_of_no_server
        intro st hst
        exact (ne_of_lt (hs'.1 st.1 (List.mem_map_of_mem _ hst))).symm
      have htm : SortedKeys tm := hin _ (List.mem_cons_self _ _)
      have hf := filter_key_eq_mapFind t tm htm
      rw [hnone, List.append_nil, List.filter_map]
      have hcomp : ((fun e : Str × Str × Article × List Str => decide (e.1 = s' ∧ e.2.1 = t)) ∘
          (fun e : Str × (Article × List Str) => (s', e.1, e.2.1, e.2.2))) =
          (fun e : Str × (Article × List Str) => decide (e.1 = t)) := by
        funext e
        simp
      rw [hcomp, hf]
      simp only [lookup, mapFind, if_true, Option.some_bind]
      cases mapFind t tm <;> simp
    · have hnone : (tm.map (fun e => (s', e.1, e.2.1, e.2.2))).filter
          (fun e => e.1 = s ∧ e.2.1 = t) = [] := by
        apply List.filter_eq_nil_iff.mpr
        intro e he
        obtain ⟨x, _, rfl⟩ := List.mem_map.mp he
        simp [hk]
      rw [hnone, List.nil_append, ih hrest]
      simp [lookup, mapFind, hk]

end NewsAggregator

namespace NewsAggregator

theorem article_lt_iff (a b : Article) :
    a < b ↔ a.title < b.title ∨ (a.title = b.title ∧ a.url < b.url) := Iff.rfl

theorem article_lt_irrefl (a : Article) : ¬ (a < a) := by
  rw [article_lt_iff]
  rintro (h | ⟨_, h⟩) <;> exact lt_irrefl _ h

theorem article_lt_trans (a b c : Article) (h1 : a < b) (h2 : b < c) : a < c := by
  rw [article_lt_iff] at h1 h2 ⊢
  rcases h1 with h1 | ⟨e1, h1⟩
  · rcases h2 with h2 | ⟨e2, _⟩
    · exact Or.inl (lt_trans h1 h2)
    · exact Or.inl (e2 ▸ h1)
  · rcases h2 with h2 | ⟨e2, h2⟩
    · exact Or.inl (e1 ▸ h2)
    · exact Or.inr ⟨e1.trans e2, lt_trans h1 h2⟩

theorem stdMin_eq (a b : Article) : stdMin a b = a ∨ stdMin a b = b := by
  unfold stdMin
  split_ifs
  · exact Or.inr rfl
  · exact Or.inl rfl

theorem stdMin_not_lt_left (a b : Article) : ¬ (a < stdMin a b) := by
  unfold stdMin
  split_ifs with h
  · intro h2
    exact article_lt_irrefl _ (article_lt_trans _ _ _ h h2)
  · exact article_lt_irrefl _

theorem stdMin_not_lt_right (a b : Article) : ¬ (b < stdMin a b) := by
  unfold stdMin
  split_ifs with h
  · exact article_lt_irrefl _
  · exact h

theorem stdMin_lower (a b c : Article) (h : ¬ (c < a)) : ¬ (c < stdMin a b) := by
  unfold stdMin
  split_ifs with hba
  · intro hcb
    exact h (article_lt_trans _ _ _ hcb hba)
  · exact h

theorem group_append (obs : List Observation) (o : Observation) (s t : Str) :
    group (obs ++ [o]) s t =
      if o.server = s ∧ o.article.title = t then group obs s t ++ [o] else group obs s t := by
  unfold group
  rw [List.filter_append]
  by_cases h : o.server = s ∧ o.article.title = t
  · simp [List.filter_cons, h]
  · simp [List.filter_cons, h]

theorem represents_nil : Represents [] [] := by
  intro s t
  simp [lookup, mapFind, group]

/-- One deduper update keeps the map in step with the observations made so far. -/
theorem represents_observe (m : ArticleMap) (obs : List Observation) (o : Observation)
    (h : Represents m obs) :
    Represents (observe m o.server o.article o.tokens) (obs ++ [o]) := by
  intro s t
  have hst := h s t
  by_cases hk : s = o.server ∧ t = o.article.title
  · obtain ⟨rfl, rfl⟩ := hk
    rw [group_append]
    simp only [and_self, if_true]
    unfold observe dedupUpdate
    cases hl : lookup m o.server o.article.title with
    | none =>
      rw [hl] at hst
      simp only at hst
      simp only [lookup_assign_self, hst, List.nil_append, List.mem_singleton]
      refine ⟨⟨o, rfl, rfl⟩, ?_, ?_, sort_sorted _⟩
      · rintro o' rfl
        exact article_lt_irrefl _
      · intro x
        rw [mem_sort]
        constructor
        · rintro hx o' rfl
          exact hx
        · intro hx
          exact hx o rfl
    | some v =>
      obtain ⟨old, oldToks⟩ := v
      rw [hl] at hst
      simp only at hst
      obtain ⟨⟨o0, ho0, ho0a⟩, hmin, htoks, _⟩ := hst
      simp only [lookup_assign_self]
      refine ⟨?_, ?_, ?_, ?_⟩
      · rcases stdMin_eq old o.article with e | e
        · exact ⟨o0, List.mem_append_left _ ho0, by rw [e, ho0a]⟩
        · exact ⟨o, List.mem_append_right _ (List.mem_singleton_self _), e.symm⟩
      · intro o' ho'
        rcases List.mem_append.mp ho' with ho' | ho'
        · exact stdMin_lower _ _ _ (hmin o' ho')
        · rw [List.mem_singleton.mp ho']
          exact stdMin_not_lt_right _ _
      · intro x
        rw [mem_set_intersection _ _ (sort_sorted _) (sort_sorted _), mem_sort, mem_sort,
          htoks x]
        constructor
        · rintro ⟨h1, h2⟩ o' ho'
          rcases List.mem_append.mp ho' with ho' | ho'
          · exact h1 o' ho'
          · rw [List.mem_singleton.mp ho']
            exact h2
        · intro hx
          exact ⟨fun o' ho' => hx o' (List.mem_append_left _ ho'),
            hx o (List.mem_append_right _ (List.mem_singleton_self _))⟩
      · exact (sort_sorted oldToks).sublist (set_intersection_sublist _ _)
  · have hk' : ¬ (o.server = s ∧ o.article.title = t) := fun e => hk ⟨e.1.symm, e.2.symm⟩
    rw [group_append, if_neg hk']
    have hsame : lookup (observe m o.server o.article o.tokens) s t = lookup m s t := by
      unfold observe dedupUpdate
      split <;> exact lookup_assign_ne _ _ _ _ _ _ _ hk
    rw [hsame]
    exact hst

theorem represents_observeAll (obs : List Observation) (m : ArticleMap)
    (obs0 : List Observation) (h : Represents m obs0) :
    Represents (observeAll m obs) (obs0 ++ obs) := by
  induction obs generalizing m obs0 with
  | nil => simpa [observeAll] using h
  | cons o rest ih =>
    have hstep := represents_observe m obs0 o h
    have := ih _ _ hstep
    simpa [observeAll, List.append_assoc] using this

end NewsAggregator

namespace NewsAggregator

theorem mem_entries_lookup (m : ArticleMap) (h : WellFormed m)
    (e : Str × Str × Article × List Str) (he : e ∈ entries m) :
    lookup m e.1 e.2.1 = some (e.2.2.1, e.2.2.2) := by
  have hmem : e ∈ entriesAt m e.1 e.2.1 := by
    unfold entriesAt
    exact List.mem_filter.mpr ⟨he, by simp⟩
  rw [entriesAt_eq_lookup m _ _ h] at hmem
  obtain ⟨v, hv, hev⟩ := List.mem_map.mp hmem
  have hv' : lookup m e.1 e.2.1 = some v := by
    cases hl : lookup m e.1 e.2.1 with
    | none => rw [hl] at hv; simp at hv
    | some w =>
      rw [hl] at hv
      simp only [Option.toList, List.mem_singleton] at hv
      rw [hv]
  rw [hv', ← hev]

theorem group_ne_nil (obs : List Observation) (s t : Str)
    (h : ∃ o ∈ obs, o.server = s ∧ o.article.title = t) : group obs s t ≠ [] := by
  obtain ⟨o, ho, hs, ht⟩ := h
  have : o ∈ group obs s t := List.mem_filter.mpr ⟨ho, by simp [hs, ht]⟩
  exact List.ne_nil_of_mem this

theorem mem_group (obs : List Observation) (s t : Str) (o : Observation)
    (h : o ∈ group obs s t) : o ∈ obs ∧ o.server = s ∧ o.article.title = t := by
  have := List.mem_filter.mp h
  simpa using this

/-- C1. Deduper canonical article: after any finite sequence of deduper updates
applied one after another to the empty `ArticleMap`, every `(server, title)` that was
observed at least once has exactly one entry in the map, and the article stored there was
observed with that key and is the minimum of the articles observed with that key: none of
them is below it in the `Article` ordering, and its url is the lexicographically smallest
of the group. -/
theorem deduper_canonical_article (obs : List Observation) (s t : Str)
    (h : ∃ o ∈ obs, o.server = s ∧ o.article.title = t) :
    ∃ (a : Article) (toks : List Str),
      entriesAt (observeAll [] obs) s t = [(s, t, a, toks)] ∧
      lookup (observeAll [] obs) s t = some (a, toks) ∧
      (∃ o ∈ group obs s t, o.article = a) ∧
      (∀ o ∈ group obs s t, ¬ (o.article < a)) ∧
      (∀ o ∈ group obs s t, a.url ≤ o.article.url) := by
  have hrep := represents_observeAll obs [] [] represents_nil
  rw [List.nil_append] at hrep
  have hwf := wellFormed_observeAll obs [] wellFormed_nil
  have hst := hrep s t
  cases hl : lookup (observeAll [] obs) s t with
  | none =>
    rw [hl] at hst
    exact absurd hst (group_ne_nil obs s t h)
  | some v =>
    obtain ⟨a, toks⟩ := v
    rw [hl] at hst
    obtain ⟨hin, hmin, _, _⟩ := hst
    refine ⟨a, toks, ?_, rfl, hin, hmin, ?_⟩
    · rw [entriesAt_eq_lookup _ _ _ hwf, hl]
      rfl
    · intro o ho
      obtain ⟨o0, ho0, rfl⟩ := hin
      have ht1 := (mem_group _ _ _ _ ho).2.2
      have ht0 := (mem_group _ _ _ _ ho0).2.2
      have hnot := hmin o ho
      rw [article_lt_iff] at hnot
      push_neg at hnot
      exact hnot.2 (ht1.trans ht0.symm)

/-- The scenario of two urls with one title on one server, whichever is observed first:
the hypothesis of C1 holds and its conclusion is obtained from the theorem. -/
theorem deduper_canonical_article_witness :
    (∃ o ∈ [scenarioY, scenarioX],
        o.server = "http://a".toList ∧ o.article.title = "T".toList) ∧
    ∃ (a : Article) (toks : List Str),
      entriesAt (observeAll [] [scenarioY, scenarioX]) "http://a".toList "T".toList
        = [("http://a".toList, "T".toList, a, toks)] ∧
      lookup (observeAll [] [scenarioY, scenarioX]) "http://a".toList "T".toList
        = some (a, toks) ∧
      (∃ o ∈ group [scenarioY, scenarioX] "http://a".toList "T".toList, o.article = a) ∧
      (∀ o ∈ group [scenarioY, scenarioX] "http://a".toList "T".toList,
        ¬ (o.article < a)) ∧
      (∀ o ∈ group [scenarioY, scenarioX] "http://a".toList "T".toList,
        a.url ≤ o.article.url) :=
  ⟨⟨scenarioY, by decide, by decide, by decide⟩,
   deduper_canonical_article [scenarioY, scenarioX] "http://a".toList "T".toList
     ⟨scenarioY, by decide, by decide, by decide⟩⟩

/-- C2. Deduper token intersection: after any finite sequence of deduper updates applied
one after another to the empty `ArticleMap`, for every `(server, title)` observed at
least once, a string is in the stored token list exactly when it is in the token list of
every article observed with that `(server, title)`. -/
theorem deduper_token_intersection (obs : List Observation) (s t : Str)
    (h : ∃ o ∈ obs, o.server = s ∧ o.article.title = t) :
    ∃ (a : Article) (toks : List Str),
      lookup (observeAll [] obs) s t = some (a, toks) ∧
      ∀ x : Str, x ∈ toks ↔ ∀ o ∈ obs, o.server = s → o.article.title = t → x ∈ o.tokens := by
  have hrep := represents_observeAll obs [] [] represents_nil
  rw [List.nil_append] at hrep
  have hst := hrep s t
  cases hl : lookup (observeAll [] obs) s t with
  | none =>
    rw [hl] at hst
    exact absurd hst (group_ne_nil obs s t h)
  | some v =>
    obtain ⟨a, toks⟩ := v
    rw [hl] at hst
    obtain ⟨_, _, htoks, _⟩ := hst
    refine ⟨a, toks, rfl, ?_⟩
    intro x
    rw [htoks x]
    constructor
    · intro hx o ho hs ht
      exact hx o (List.mem_filter.mpr ⟨ho, by simp [hs, ht]⟩)
    · intro hx o ho
      obtain ⟨ho1, hs, ht⟩ := mem_group _ _ _ _ ho
      exact hx o ho1 hs ht

/-- The scenario of C2: tokens k, m, p and then k, p, q under one server and title. The
hypothesis holds, the theorem applies, and the stored list evaluates to k, p. -/
theorem deduper_token_intersection_witness :
    (∃ o ∈ [scenarioX, scenarioY],
        o.server = "http://a".toList ∧ o.article.title = "T".toList) ∧
    (∃ (a : Article) (toks : List Str),
      lookup (observeAll [] [scenarioX, scenarioY]) "http://a".toList "T".toList
        = some (a, toks) ∧
      ∀ x : Str, x ∈ toks ↔ ∀ o ∈ [scenarioX, scenarioY],
        o.server = "http://a".toList → o.article.title = "T".toList → x ∈ o.tokens) ∧
    lookup (observeAll [] [scenarioX, scenarioY]) "http://a".toList "T".toList
      = some (scenarioX.article, ["k".toList, "p".toList]) :=
  ⟨⟨scenarioX, by decide, by decide, by decide⟩,
   deduper_token_intersection [scenarioX, scenarioY] "http://a".toList "T".toList
     ⟨scenarioX, by decide, by decide, by decide⟩,
   by decide⟩

/-- C9, as stated, fails: a document that repeats a word yields a sorted list that still
holds the word twice, and that list is what the deduper stores. -/
theorem token_normalisation_counterexample :
    sort scenarioRepeat.tokens = ["a".toList, "b".toList, "b".toList] ∧
    ¬ (sort scenarioRepeat.tokens).Nodup ∧
    lookup (observeAll [] [scenarioRepeat]) scenarioRepeat.server scenarioRepeat.article.title
      = some (scenarioRepeat.article, ["a".toList, "b".toList, "b".toList]) := by
  refine ⟨by decide, by decide, by decide⟩

/-- C9, amended. Token normalisation: for every token sequence returned by the HTML
collaborator, the list the article job hands to the deduper is sorted ascending and is a
rearrangement of the returned tokens, repeated tokens kept; every token list stored in the
deduper map after any sequence of updates, and so every list the finalization loop
passes on, is sorted ascending. -/
theorem token_normalisation (const_tokens : List Str) (obs : List Observation) :
    (sort const_tokens).Sorted (fun x y => x ≤ y) ∧
    (sort const_tokens).Perm const_tokens ∧
    (∀ (m : ArticleMap) (Server : Str) (article : Article),
      observe m Server article const_tokens
        = dedupUpdate m Server article (sort const_tokens)) ∧
    (∀ (s t : Str) (a : Article) (toks : List Str),
      lookup (observeAll [] obs) s t = some (a, toks) → toks.Sorted (fun x y => x ≤ y)) ∧
    (∀ e ∈ entries (observeAll [] obs), e.2.2.2.Sorted (fun x y => x ≤ y)) := by
  have hrep := represents_observeAll obs [] [] represents_nil
  rw [List.nil_append] at hrep
  have hwf := wellFormed_observeAll obs [] wellFormed_nil
  have hlook : ∀ (s t : Str) (a : Article) (toks : List Str),
      lookup (observeAll [] obs) s t = some (a, toks) →
      toks.Sorted (fun x y => x ≤ y) := by
    intro s t a toks hl
    have hst := hrep s t
    rw [hl] at hst
    exact hst.2.2.2
  refine ⟨sort_sorted _, sort_perm _, fun _ _ _ => rfl, hlook, ?_⟩
  intro e he
  exact hlook _ _ _ _ (mem_entries_lookup _ hwf e he)

/-- The document that repeats a word: the lookup hypothesis of the amended C9 holds for
its entry and the stored list, with the word twice, is ascending. -/
theorem token_normalisation_witness :
    lookup (observeAll [] [scenarioRepeat]) scenarioRepeat.server scenarioRepeat.article.title
      = some (scenarioRepeat.article, ["a".toList, "b".toList, "b".toList]) ∧
    (["a".toList, "b".toList, "b".toList] : List Str).Sorted (fun x y => x ≤ y) :=
  ⟨by decide,
   (token_normalisation [] [scenarioRepeat]).2.2.2.1 scenarioRepeat.server
     scenarioRepeat.article.title scenarioRepeat.article
     ["a".toList, "b".toList, "b".toList] (by decide)⟩

end NewsAggregator

namespace NewsAggregator

namespace ThreadPoolVariant

/-! ## Claims on the seen-url set -/

theorem articleJob_urlSet (c : Collaborators) (a : Article) (s : State) :
    (articleJob c a s).urlSet = if a.url ∈ s.urlSet then s.urlSet else a.url :: s.urlSet := by
  unfold articleJob
  split_ifs with h
  · rfl
  · cases c.html a.url <;> rfl

theorem articleJob_events (c : Collaborators) (a : Article) (s : State) :
    (articleJob c a s).events =
      if a.url ∈ s.urlSet then s.events else s.events ++ [Event.htmlParse a.url] := by
  unfold articleJob
  split_ifs with h
  · rfl
  · cases c.html a.url <;> rfl

theorem feedDone_mono (c : Collaborators) (F : Str → Prop) (us us2 : List Str) (v : Str)
    (hsub : ∀ x ∈ us, x ∈ us2) (h : feedDone c F us v) : feedDone c F us2 v :=
  ⟨h.1, fun arts harts a ha => hsub _ (h.2 arts harts a ha)⟩

theorem claimed_articleJob (c : Collaborators) (A F : Str → Prop) (cur : Option Str)
    (a : Article) (s : State) (hA : A a.url)
    (h : Claimed c A F cur s.urlSet s.events) :
    Claimed c A F cur (articleJob c a s).urlSet (articleJob c a s).events := by
  rw [articleJob_urlSet, articleJob_events]
  split_ifs with hin
  · exact h
  · have hnot : Event.htmlParse a.url ∉ s.events := fun hm => hin (h.parsed _ hm).1
    constructor
    · intro u
      rw [List.count_append]
      by_cases hu : u = a.url
      · subst hu
        have h0 : s.events.count (Event.htmlParse a.url) = 0 := List.count_eq_zero.mpr hnot
        simp [h0]
      · have hne : Event.htmlParse a.url ≠ Event.htmlParse u := by
          intro e
          injection e with e
          exact hu e.symm
        have h1 := h.once u
        simp [List.count_cons, hne, h1]
    · intro u hu
      rcases List.mem_append.mp hu with hu | hu
      · exact ⟨List.mem_cons_of_mem _ (h.parsed u hu).1, (h.parsed u hu).2⟩
      · have : u = a.url := by simpa using hu
        subst this
        exact ⟨List.mem_cons_self _ _, hA⟩
    · intro v hv
      rcases List.mem_cons.mp hv with rfl | hv
      · exact Or.inl (List.mem_append_right _ (List.mem_singleton_self _))
      · rcases h.claimed v hv with h1 | h1 | h1
        · exact Or.inl (List.mem_append_left _ h1)
        · exact Or.inr (Or.inl h1)
        · exact Or.inr (Or.inr (feedDone_mono c F _ _ v
            (fun x hx => List.mem_cons_of_mem _ hx) h1))

theorem articleJob_urlSet_mono (c : Collaborators) (a : Article) (s : State) (x : Str)
    (hx : x ∈ s.urlSet) : x ∈ (articleJob c a s).urlSet := by
  rw [articleJob_urlSet]
  split_ifs
  · exact hx
  · exact List.mem_cons_of_mem _ hx

theorem articleJob_claims (c : Collaborators) (a : Article) (s : State) :
    a.url ∈ (articleJob c a s).urlSet := by
  rw [articleJob_urlSet]
  split_ifs with h
  · exact h
  · exact List.mem_cons_self _ _

theorem articleThreads_urlSet_mono (c : Collaborators) (arts : List Article) (s : State)
    (x : Str) (hx : x ∈ s.urlSet) : x ∈ (articleThreads c arts s).urlSet := by
  induction arts generalizing s with
  | nil => exact hx
  | cons a rest ih => exact ih _ (articleJob_urlSet_mono c a s x hx)

theorem articleThreads_claims (c : Collaborators) (arts : List Article) (s : State)
    (a : Article) (ha : a ∈ arts) : a.url ∈ (articleThreads c arts s).urlSet := by
  induction arts generalizing s with
  | nil => cases ha
  | cons b rest ih =>
    rcases List.mem_cons.mp ha with rfl | ha
    · exact articleThreads_urlSet_mono c rest _ _ (articleJob_claims c a s)
    · exact ih _ ha

theorem claimed_articleThreads (c : Collaborators) (A F : Str → Prop) (cur : Option Str)
    (arts : List Article) (s : State) (hA : ∀ a ∈ arts, A a.url)
    (h : Claimed c A F cur s.urlSet s.events) :
    Claimed c A F cur (articleThreads c arts s).urlSet (articleThreads c arts s).events := by
  induction arts generalizing s with
  | nil => exact h
  | cons a rest ih =>
    exact ih _ (fun b hb => hA b (List.mem_cons_of_mem _ hb))
      (claimed_articleJob c A F cur a s (hA a (List.mem_cons_self _ _)) h)

end ThreadPoolVariant

end NewsAggregator

namespace NewsAggregator

namespace ThreadPoolVariant

theorem claimed_emit (c : Collaborators) (A F : Str → Prop) (cur : Option Str)
    (us : List Str) (ev : List Event) (e : Event) (he : ∀ u, e ≠ Event.htmlParse u)
    (h : Claimed c A F cur us ev) : Claimed c A F cur us (ev ++ [e]) := by
  constructor
  · intro u
    have h1 := h.once u
    simp [List.count_append, List.count_cons, he u, h1]
  · intro u hu
    rcases List.mem_append.mp hu with hu | hu
    · exact h.parsed u hu
    · exact absurd (List.mem_singleton.mp hu).symm (he u)
  · intro v hv
    rcases h.claimed v hv with h1 | h1
    · exact Or.inl (List.mem_append_left _ h1)
    · exact Or.inr h1

theorem claimed_open (c : Collaborators) (A F : Str → Prop) (us : List Str)
    (ev : List Event) (v0 : Str) (h : Claimed c A F none us ev) :
    Claimed c A F (some v0) (v0 :: us) ev := by
  constructor
  · exact h.once
  · intro u hu
    exact ⟨List.mem_cons_of_mem _ (h.parsed u hu).1, (h.parsed u hu).2⟩
  · intro v hv
    rcases List.mem_cons.mp hv with rfl | hv
    · exact Or.inr (Or.inl rfl)
    · rcases h.claimed v hv with h1 | h1 | h1
      · exact Or.inl h1
      · cases h1
      · exact Or.inr (Or.inr (feedDone_mono c F _ _ v
          (fun x hx => List.mem_cons_of_mem _ hx) h1))

theorem claimed_close (c : Collaborators) (A F : Str → Prop) (us : List Str)
    (ev : List Event) (v0 : Str) (hdone : feedDone c F us v0)
    (h : Claimed c A F (some v0) us ev) : Claimed c A F none us ev := by
  constructor
  · exact h.once
  · exact h.parsed
  · intro v hv
    rcases h.claimed v hv with h1 | h1 | h1
    · exact Or.inl h1
    · have : v0 = v := by simpa using h1
      subst this
      exact Or.inr (Or.inr hdone)
    · exact Or.inr (Or.inr h1)

theorem feedThread_eq (c : Collaborators) (f : Str × Str) (s : State) :
    feedThread c f s =
      if f.1 ∈ s.urlSet then s
      else
        match c.feed f.1 with
        | none => (({ s with urlSet := f.1 :: s.urlSet }.emit (Event.feedParse f.1)).emit
            (Event.feedFailure f.1))
        | some arts =>
          articleThreads c arts ({ s with urlSet := f.1 :: s.urlSet }.emit (Event.feedParse f.1)) :=
  rfl

theorem articleJob_events_mono (c : Collaborators) (a : Article) (s : State) (e : Event)
    (he : e ∈ s.events) : e ∈ (articleJob c a s).events := by
  rw [articleJob_events]
  split_ifs
  · exact he
  · exact List.mem_append_left _ he

theorem articleThreads_events_mono (c : Collaborators) (arts : List Article) (s : State)
    (e : Event) (he : e ∈ s.events) : e ∈ (articleThreads c arts s).events := by
  induction arts generalizing s with
  | nil => exact he
  | cons a rest ih => exact ih _ (articleJob_events_mono c a s e he)

theorem feedThread_urlSet_mono (c : Collaborators) (f : Str × Str) (s : State) (x : Str)
    (hx : x ∈ s.urlSet) : x ∈ (feedThread c f s).urlSet := by
  rw [feedThread_eq]
  split_ifs with h
  · exact hx
  · cases c.feed f.1 with
    | none => exact List.mem_cons_of_mem _ hx
    | some arts =>
      exact articleThreads_urlSet_mono c arts _ x (List.mem_cons_of_mem _ hx)

theorem feedThread_claims (c : Collaborators) (f : Str × Str) (s : State) :
    f.1 ∈ (feedThread c f s).urlSet := by
  rw [feedThread_eq]
  split_ifs with h
  · exact h
  · cases c.feed f.1 with
    | none => exact List.mem_cons_self _ _
    | some arts => exact articleThreads_urlSet_mono c arts _ _ (List.mem_cons_self _ _)

theorem claimed_feedThread (c : Collaborators) (A F : Str → Prop) (f : Str × Str)
    (s : State) (hF : F f.1) (hA : ∀ arts, c.feed f.1 = some arts → ∀ a ∈ arts, A a.url)
    (h : Claimed c A F none s.urlSet s.events) :
    Claimed c A F none (feedThread c f s).urlSet (feedThread c f s).events := by
  rw [feedThread_eq]
  split_ifs with hin
  · exact h
  · have h2 : Claimed c A F (some f.1) (f.1 :: s.urlSet)
        (s.events ++ [Event.feedParse f.1]) :=
      claimed_emit c A F _ _ _ _ (fun u e => by cases e) (claimed_open c A F _ _ f.1 h)
    cases hfeed : c.feed f.1 with
    | none =>
      have h3 := claimed_emit c A F _ _ _ (Event.feedFailure f.1) (fun u e => by cases e) h2
      refine claimed_close c A F _ _ f.1 ⟨hF, ?_⟩ h3
      intro arts harts
      rw [hfeed] at harts
      cases harts
    | some arts =>
      have h3 := claimed_articleThreads c A F (some f.1) arts
        ({ s with urlSet := f.1 :: s.urlSet }.emit (Event.feedParse f.1))
        (hA arts hfeed) h2
      refine claimed_close c A F _ _ f.1 ⟨hF, ?_⟩ h3
      intro arts2 harts2 a ha
      rw [hfeed] at harts2
      cases harts2
      exact articleThreads_claims c arts _ a ha

theorem feedJobs_urlSet_mono (c : Collaborators) (fs : List (Str × Str)) (s : State)
    (x : Str) (hx : x ∈ s.urlSet) : x ∈ (feedJobs c fs s).urlSet := by
  induction fs generalizing s with
  | nil => exact hx
  | cons f rest ih => exact ih _ (feedThread_urlSet_mono c f s x hx)

theorem feedJobs_claims (c : Collaborators) (fs : List (Str × Str)) (s : State)
    (f : Str × Str) (hf : f ∈ fs) : f.1 ∈ (feedJobs c fs s).urlSet := by
  induction fs generalizing s with
  | nil => cases hf
  | cons g rest ih =>
    rcases List.mem_cons.mp hf with rfl | hf
    · exact feedJobs_urlSet_mono c rest _ _ (feedThread_claims c f s)
    · exact ih _ hf

theorem claimed_feedJobs (c : Collaborators) (A F : Str → Prop) (fs : List (Str × Str))
    (s : State) (hF : ∀ f ∈ fs, F f.1)
    (hA : ∀ f ∈ fs, ∀ arts, c.feed f.1 = some arts → ∀ a ∈ arts, A a.url)
    (h : Claimed c A F none s.urlSet s.events) :
    Claimed c A F none (feedJobs c fs s).urlSet (feedJobs c fs s).events := by
  induction fs generalizing s with
  | nil => exact h
  | cons f rest ih =>
    exact ih _ (fun g hg => hF g (List.mem_cons_of_mem _ hg))
      (fun g hg => hA g (List.mem_cons_of_mem _ hg))
      (claimed_feedThread c A F f s (hF f (List.mem_cons_self _ _))
        (hA f (List.mem_cons_self _ _)) h)

theorem claimed_init (c : Collaborators) (A F : Str → Prop) (uri : Str) :
    Claimed c A F none (State.init uri).urlSet (State.init uri).events := by
  constructor
  · intro u
    simp [State.init]
  · intro u hu
    simp [State.init] at hu
  · intro v hv
    simp [State.init] at hv

theorem feedJobs_append (c : Collaborators) (pre post : List (Str × Str)) (s : State) :
    feedJobs c (pre ++ post) s = feedJobs c post (feedJobs c pre s) := by
  unfold feedJobs
  rw [List.foldl_append]

theorem feedJobs_cons (c : Collaborators) (f : Str × Str) (rest : List (Str × Str))
    (s : State) : feedJobs c (f :: rest) s = feedJobs c rest (feedThread c f s) := rfl

theorem feedThread_events_mono (c : Collaborators) (f : Str × Str) (s : State) (e : Event)
    (he : e ∈ s.events) : e ∈ (feedThread c f s).events := by
  rw [feedThread_eq]
  split_ifs with h
  · exact he
  · cases c.feed f.1 with
    | none =>
      exact List.mem_append_left _ (List.mem_append_left _ he)
    | some arts =>
      exact articleThreads_events_mono c arts _ e (List.mem_append_left _ he)

theorem feedJobs_events_mono (c : Collaborators) (fs : List (Str × Str)) (s : State)
    (e : Event) (he : e ∈ s.events) : e ∈ (feedJobs c fs s).events := by
  induction fs generalizing s with
  | nil => exact he
  | cons f rest ih => exact ih _ (feedThread_events_mono c f s e he)

/-- After the feed job of a feed `f` that lists `u`, taken after the feed jobs of `pre`,
the HTML document of `u` has been parsed, provided `u` is not the url of `f` or of a
feed of `pre` and no feed of `pre` lists the url of `f` as an article. -/
theorem parsed_after_listing_feed (c : Collaborators) (uri : Str) (pre : List (Str × Str))
    (f : Str × Str) (u : Str) (hlist : lists c f u) (hfu : f.1 ≠ u)
    (hpre : ∀ g ∈ pre, g.1 ≠ u ∧ ¬ lists c g f.1) :
    Event.htmlParse u ∈ (feedThread c f (feedJobs c pre (State.init uri))).events := by
  obtain ⟨arts, harts, a, ha, hau⟩ := hlist
  by_cases hin : f.1 ∈ (feedJobs c pre (State.init uri)).urlSet
  · have hcl := claimed_feedJobs c (fun x => ∃ g ∈ pre, lists c g x)
      (fun v => ∃ g ∈ pre, g.1 = v) pre (State.init uri)
      (fun g hg => ⟨g, hg, rfl⟩)
      (fun g hg arts2 harts2 b hb => ⟨g, hg, arts2, harts2, b, hb, rfl⟩)
      (claimed_init c _ _ uri)
    have hu : u ∈ (feedJobs c pre (State.init uri)).urlSet := by
      rcases hcl.claimed _ hin with h1 | h1 | h1
      · obtain ⟨g, hg, hg2⟩ := (hcl.parsed _ h1).2
        exact absurd hg2 (hpre g hg).2
      · cases h1
      · exact hau ▸ h1.2 arts harts a ha
    have hp : Event.htmlParse u ∈ (feedJobs c pre (State.init uri)).events := by
      rcases hcl.claimed _ hu with h1 | h1 | h1
      · exact h1
      · cases h1
      · obtain ⟨g, hg, hg2⟩ := h1.1
        exact absurd hg2 (hpre g hg).1
    exact feedThread_events_mono c f _ _ hp
  · have hcl0 := claimed_feedJobs c (fun x => ∃ g ∈ pre ++ [f], lists c g x)
      (fun v => ∃ g ∈ pre ++ [f], g.1 = v) pre (State.init uri)
      (fun g hg => ⟨g, List.mem_append_left _ hg, rfl⟩)
      (fun g hg arts2 harts2 b hb =>
        ⟨g, List.mem_append_left _ hg, arts2, harts2, b, hb, rfl⟩)
      (claimed_init c _ _ uri)
    have hcl := claimed_feedThread c (fun x => ∃ g ∈ pre ++ [f], lists c g x)
      (fun v => ∃ g ∈ pre ++ [f], g.1 = v) f (feedJobs c pre (State.init uri))
      ⟨f, List.mem_append_right _ (List.mem_singleton_self _), rfl⟩
      (fun arts2 harts2 b hb =>
        ⟨f, List.mem_append_right _ (List.mem_singleton_self _), arts2, harts2, b, hb, rfl⟩)
      hcl0
    have hu : u ∈ (feedThread c f (feedJobs c pre (State.init uri))).urlSet := by
      rw [feedThread_eq, if_neg hin]
      simp only [harts]
      exact hau ▸ articleThreads_claims c arts _ a ha
    rcases hcl.claimed _ hu with h1 | h1 | h1
    · exact h1
    · cases h1
    · obtain ⟨g, hg, hg2⟩ := h1.1
      rcases List.mem_append.mp hg with hg | hg
      · exact absurd hg2 (hpre g hg).1
      · have hgf := List.mem_singleton.mp hg
        subst hgf
        exact absurd hg2 hfu

/-- C3, as stated, fails, in two ways. The feed list names `http://a/x` as a feed and
two further feeds list `http://a/x` as an article: the first feed job claims the url, so
both article jobs return at the claim and the HTML document is never parsed. And the
feed `http://a/g` enumerates the urls of the feeds `http://a/f1` and `http://a/f2` as
articles: its article jobs claim these urls, so the two feed jobs that follow return at
the claim, and the page `http://a/x` that both feeds list is never parsed. -/
theorem dedup_by_url_counterexample :
    (lists collidingFeeds feedF1 "http://a/x".toList ∧
      lists collidingFeeds feedF2 "http://a/x".toList ∧
      (feedJobs collidingFeeds [("http://a/x".toList, "F0".toList), feedF1, feedF2]
        (State.init [])).htmlParses "http://a/x".toList = 0) ∧
    (lists listedFeeds feedF1 "http://a/x".toList ∧
      lists listedFeeds feedF2 "http://a/x".toList ∧
      (feedJobs listedFeeds [feedG, feedF1, feedF2]
        (State.init [])).htmlParses "http://a/x".toList = 0) := by
  refine ⟨⟨⟨_, rfl, _, List.mem_singleton_self _, rfl⟩,
      ⟨_, rfl, _, List.mem_singleton_self _, rfl⟩, by decide⟩,
    ⟨⟨_, rfl, _, List.mem_singleton_self _, rfl⟩,
      ⟨_, rfl, _, List.mem_singleton_self _, rfl⟩, by decide⟩⟩

/-- C3, amended. Deduplication by url: in every run of feed jobs with their article
jobs, taken one after another on a seen-url set that starts empty, the HTML document of
a url `u` is downloaded and parsed at most once; it is parsed exactly once when some
feed `f` of the run lists `u`, `u` is not the url of `f` or of a feed taken before `f`,
and no feed taken before `f` lists the url of `f` as an article, whatever else the feeds
of the run enumerate. A job whose url is already in the seen-url set returns without
parsing and without any other effect, and a job whose url is absent inserts it and goes
on to the parse. -/
theorem dedup_by_url (c : Collaborators) (uri : Str) (feeds : List (Str × Str)) (u : Str) :
    (feedJobs c feeds (State.init uri)).htmlParses u ≤ 1 ∧
    (∀ (pre post : List (Str × Str)) (f : Str × Str), feeds = pre ++ f :: post →
      lists c f u → f.1 ≠ u → (∀ g ∈ pre, g.1 ≠ u ∧ ¬ lists c g f.1) →
      (feedJobs c feeds (State.init uri)).htmlParses u = 1) ∧
    (∀ (st : State) (a : Article), a.url ∈ st.urlSet → articleJob c a st = st) ∧
    (∀ (st : State) (a : Article), a.url ∉ st.urlSet →
      (articleJob c a st).urlSet = a.url :: st.urlSet ∧
      (articleJob c a st).events = st.events ++ [Event.htmlParse a.url]) ∧
    (∀ (st : State) (f : Str × Str), f.1 ∈ st.urlSet → feedThread c f st = st) ∧
    (∀ (st : State) (f : Str × Str), f.1 ∉ st.urlSet →
      f.1 ∈ (feedThread c f st).urlSet ∧ Event.feedParse f.1 ∈ (feedThread c f st).events) := by
  have honce : (feedJobs c feeds (State.init uri)).htmlParses u ≤ 1 :=
    (claimed_feedJobs c (fun _ => True) (fun _ => True) feeds _
      (fun _ _ => trivial) (fun _ _ _ _ _ _ => trivial) (claimed_init c _ _ uri)).once u
  refine ⟨honce, ?_, ?_, ?_, ?_, ?_⟩
  · intro pre post f hfeeds hlist hfu hpre
    have hmid := parsed_after_listing_feed c uri pre f u hlist hfu hpre
    have hparsed : Event.htmlParse u ∈ (feedJobs c feeds (State.init uri)).events := by
      rw [hfeeds, feedJobs_append, feedJobs_cons]
      exact feedJobs_events_mono c post _ _ hmid
    have hpos : 0 < (feedJobs c feeds (State.init uri)).htmlParses u :=
      List.count_pos_iff.mpr hparsed
    omega
  · intro st a ha
    unfold articleJob
    rw [if_pos ha]
  · intro st a ha
    rw [articleJob_urlSet, articleJob_events, if_neg ha, if_neg ha]
    exact ⟨rfl, rfl⟩
  · intro st f hf
    rw [feedThread_eq, if_pos hf]
  · intro st f hf
    refine ⟨feedThread_claims c f st, ?_⟩
    rw [feedThread_eq, if_neg hf]
    cases c.feed f.1 with
    | none => simp [State.emit]
    | some arts =>
      exact articleThreads_events_mono c arts _ _ (by simp [State.emit])

end ThreadPoolVariant

end NewsAggregator

namespace NewsAggregator

namespace ThreadPoolVariant

theorem listedFeeds_f2_not_f1 :
    ∀ g ∈ [feedF2], g.1 ≠ "http://a/x".toList ∧ ¬ lists listedFeeds g feedF1.1 := by
  intro g hg
  have hgf := List.mem_singleton.mp hg
  subst hgf
  refine ⟨by decide, ?_⟩
  rintro ⟨arts, harts, a, ha, hau⟩
  have hfeed : listedFeeds.feed feedF2.1
      = some [{ url := "http://a/x".toList, title := "T".toList }] := by decide
  rw [hfeed] at harts
  cases harts
  have ha2 := List.mem_singleton.mp ha
  subst ha2
  revert hau
  decide

/-- The scenario `listedFeeds` with the feed jobs taken in the order `http://a/f2`,
`http://a/f1`, `http://a/g`: the hypotheses of the amended C3 hold for the feed
`http://a/f1` and the page `http://a/x`, although the feed taken last enumerates the
urls of the two other feeds as articles, and the theorem gives exactly one parse of the
page; on the state after the run the article job for `http://a/x` finds the url claimed
and returns that state, and on the fresh state, where the url is absent, it inserts the
url and parses. -/
theorem dedup_by_url_witness :
    lists listedFeeds feedF1 "http://a/x".toList ∧
    feedF1.1 ≠ "http://a/x".toList ∧
    (∀ g ∈ [feedF2], g.1 ≠ "http://a/x".toList ∧ ¬ lists listedFeeds g feedF1.1) ∧
    lists listedFeeds feedG feedF1.1 ∧
    (feedJobs listedFeeds [feedF2, feedF1, feedG]
      (State.init [])).htmlParses "http://a/x".toList = 1 ∧
    ("http://a/x".toList ∈ (feedJobs listedFeeds [feedF2, feedF1, feedG] (State.init [])).urlSet ∧
      articleJob listedFeeds { url := "http://a/x".toList, title := "T".toList }
          (feedJobs listedFeeds [feedF2, feedF1, feedG] (State.init []))
        = feedJobs listedFeeds [feedF2, feedF1, feedG] (State.init [])) ∧
    ("http://a/x".toList ∉ (State.init []).urlSet ∧
      (articleJob listedFeeds { url := "http://a/x".toList, title := "T".toList }
          (State.init [])).urlSet = "http://a/x".toList :: (State.init []).urlSet ∧
      (articleJob listedFeeds { url := "http://a/x".toList, title := "T".toList }
          (State.init [])).events
        = (State.init []).events ++ [Event.htmlParse "http://a/x".toList]) :=
  ⟨⟨_, rfl, _, List.mem_singleton_self _, rfl⟩,
   by decide,
   listedFeeds_f2_not_f1,
   ⟨_, rfl, _, List.mem_cons_self _ _, rfl⟩,
   (dedup_by_url listedFeeds [] [feedF2, feedF1, feedG] "http://a/x".toList).2.1
     [feedF2] [feedG] feedF1 rfl ⟨_, rfl, _, List.mem_singleton_self _, rfl⟩ (by decide)
     listedFeeds_f2_not_f1,
   ⟨by decide,
    (dedup_by_url listedFeeds [] [feedF2, feedF1, feedG] "http://a/x".toList).2.2.1
      (feedJobs listedFeeds [feedF2, feedF1, feedG] (State.init []))
      { url := "http://a/x".toList, title := "T".toList } (by decide)⟩,
   ⟨by decide,
    (dedup_by_url listedFeeds [] [feedF2, feedF1, feedG] "http://a/x".toList).2.2.2.1
      (State.init []) { url := "http://a/x".toList, title := "T".toList } (by decide)⟩⟩

/-! ## `buildIndex` -/

theorem quiet_refl (s : State) : Quiet s s := ⟨rfl, rfl, rfl⟩

theorem quiet_trans (s1 s2 s3 : State) (h1 : Quiet s1 s2) (h2 : Quiet s2 s3) : Quiet s1 s3 :=
  ⟨h2.1.trans h1.1, h2.2.1.trans h1.2.1, h2.2.2.trans h1.2.2⟩

theorem quiet_emit (s : State) (e : Event) (he : e.isCrawl = false) : Quiet s (s.emit e) := by
  refine ⟨rfl, rfl, ?_⟩
  simp [State.crawls, State.emit, List.countP_append, List.countP_cons, he]

theorem quiet_articleJob (c : Collaborators) (a : Article) (s : State) :
    Quiet s (articleJob c a s) := by
  unfold articleJob
  split_ifs with h
  · exact quiet_refl s
  · cases c.html a.url with
    | none =>
      refine ⟨rfl, rfl, ?_⟩
      simp [State.crawls, State.emit, List.countP_append, List.countP_cons, Event.isCrawl]
    | some toks =>
      refine ⟨rfl, rfl, ?_⟩
      simp [State.crawls, State.emit, List.countP_append, List.countP_cons, Event.isCrawl]

theorem quiet_articleThreads (c : Collaborators) (arts : List Article) (s : State) :
    Quiet s (articleThreads c arts s) := by
  induction arts generalizing s with
  | nil => exact quiet_refl s
  | cons a rest ih => exact quiet_trans _ _ _ (quiet_articleJob c a s) (ih _)

theorem quiet_feedThread (c : Collaborators) (f : Str × Str) (s : State) :
    Quiet s (feedThread c f s) := by
  rw [feedThread_eq]
  split_ifs with h
  · exact quiet_refl s
  · have h1 : Quiet s ({ s with urlSet := f.1 :: s.urlSet }.emit (Event.feedParse f.1)) := by
      refine ⟨rfl, rfl, ?_⟩
      simp [State.crawls, State.emit, List.countP_append, List.countP_cons, Event.isCrawl]
    cases c.feed f.1 with
    | none => exact quiet_trans _ _ _ h1 (quiet_emit _ _ rfl)
    | some arts => exact quiet_trans _ _ _ h1 (quiet_articleThreads c arts _)

theorem quiet_feedJobs (c : Collaborators) (fs : List (Str × Str)) (s : State) :
    Quiet s (feedJobs c fs s) := by
  induction fs generalizing s with
  | nil => exact quiet_refl s
  | cons f rest ih => exact quiet_trans _ _ _ (quiet_feedThread c f s) (ih _)

theorem processAllFeeds_built (c : Collaborators) (s : State) :
    (processAllFeeds c s).built = s.built ∧
    (processAllFeeds c s).crawls = s.crawls + 1 := by
  have h1 : (s.emit (Event.feedListParse s.rssFeedListURI)).crawls = s.crawls + 1 := by
    simp [State.crawls, State.emit, List.countP_append, List.countP_cons, Event.isCrawl]
  unfold processAllFeeds
  cases c.feedList s.rssFeedListURI with
  | none =>
    have h2 := quiet_emit (s.emit (Event.feedListParse s.rssFeedListURI))
      (Event.feedListFailure s.rssFeedListURI) rfl
    exact ⟨h2.1, h2.2.2.trans h1⟩
  | some feeds =>
    have h2 := quiet_feedJobs c feeds (s.emit (Event.feedListParse s.rssFeedListURI))
    exact ⟨h2.1, h2.2.2.trans h1⟩

theorem buildIndex_of_built (c : Collaborators) (s : State) (h : s.built = true) :
    buildIndex c s = s := by
  unfold buildIndex
  rw [if_pos h]

theorem buildIndex_of_not_built (c : Collaborators) (s : State) (h : s.built = false) :
    buildIndex c s =
      ((processAllFeeds c
        (({ s with built := true }.emit Event.xmlInitParser).emit
          Event.xmlInitializeCatalog)).emit Event.xmlCatalogCleanup).emit
        Event.xmlCleanupParser := by
  unfold buildIndex
  rw [if_neg (by simp [h])]

theorem buildIndex_built (c : Collaborators) (s : State) : (buildIndex c s).built = true := by
  cases h : s.built with
  | true => rw [buildIndex_of_built c s h, h]
  | false =>
    rw [buildIndex_of_not_built c s h]
    exact (processAllFeeds_built c _).1

/-- C8. Idempotent `buildIndex`: from every aggregator state, `buildIndex` hands
`processAllFeeds` a state whose `built` flag is already set; a call made when `built` is
true returns the state unchanged (no parser initialisation, no `processAllFeeds`, index and
maps as they were); so after one call the flag is set whatever the crawl did, a second call
changes nothing, and two successive calls from an unbuilt state enter the crawl exactly
once, also when the feed list could not be obtained. -/
theorem buildIndex_idempotent (c : Collaborators) (s : State) :
    (s.built = true → buildIndex c s = s) ∧
    (s.built = false → ∃ s1 : State, s1.built = true ∧
      s1.events = s.events ++ [Event.xmlInitParser, Event.xmlInitializeCatalog] ∧
      buildIndex c s =
        ((processAllFeeds c s1).emit Event.xmlCatalogCleanup).emit Event.xmlCleanupParser) ∧
    (buildIndex c s).built = true ∧
    buildIndex c (buildIndex c s) = buildIndex c s ∧
    (s.built = false → (buildIndex c (buildIndex c s)).crawls = s.crawls + 1) ∧
    (s.built = false → c.feedList s.rssFeedListURI = none →
      (buildIndex c (buildIndex c s)).crawls = s.crawls + 1 ∧
      (buildIndex c (buildIndex c s)).index = s.index) := by
  have hcr : s.built = false → (buildIndex c s).crawls = s.crawls + 1 := by
    intro h
    rw [buildIndex_of_not_built c s h]
    have h1 := (processAllFeeds_built c
      (({ s with built := true }.emit Event.xmlInitParser).emit
        Event.xmlInitializeCatalog)).2
    have h2 := quiet_emit { s with built := true } Event.xmlInitParser rfl
    have h3 := quiet_emit ({ s with built := true }.emit Event.xmlInitParser)
      Event.xmlInitializeCatalog rfl
    have h4 := quiet_emit (processAllFeeds c
      (({ s with built := true }.emit Event.xmlInitParser).emit
        Event.xmlInitializeCatalog)) Event.xmlCatalogCleanup rfl
    have h5 := quiet_emit ((processAllFeeds c
      (({ s with built := true }.emit Event.xmlInitParser).emit
        Event.xmlInitializeCatalog)).emit Event.xmlCatalogCleanup) Event.xmlCleanupParser rfl
    rw [h5.2.2, h4.2.2, h1, h3.2.2, h2.2.2]
    rfl
  have hidem : buildIndex c (buildIndex c s) = buildIndex c s :=
    buildIndex_of_built c _ (buildIndex_built c s)
  refine ⟨buildIndex_of_built c s, ?_, buildIndex_built c s, hidem, ?_, ?_⟩
  · intro h
    refine ⟨({ s with built := true }.emit Event.xmlInitParser).emit
      Event.xmlInitializeCatalog, rfl, ?_, buildIndex_of_not_built c s h⟩
    simp [State.emit]
  · intro h
    rw [hidem]
    exact hcr h
  · intro h hnone
    rw [hidem]
    refine ⟨hcr h, ?_⟩
    rw [buildIndex_of_not_built c s h]
    have hnone2 : c.feedList (({ s with built := true }.emit Event.xmlInitParser).emit
        Event.xmlInitializeCatalog).rssFeedListURI = none := hnone
    simp only [processAllFeeds, hnone2]
    rfl

/-- Two calls of `buildIndex` on a fresh aggregator, where the flag starts false: with
the feeds of the scenario "two feeds share one article url" the crawl is entered once;
with a feed list that cannot be obtained the crawl is also entered once and the index
stays empty; and on the state after the first call, where the flag is true, a further
call returns that state. -/
theorem buildIndex_idempotent_witness :
    ((State.init []).built = false ∧
      (buildIndex sharedArticle (buildIndex sharedArticle (State.init []))).crawls
        = (State.init []).crawls + 1) ∧
    ((State.init []).built = false ∧
      collidingFeeds.feedList (State.init []).rssFeedListURI = none ∧
      (buildIndex collidingFeeds (buildIndex collidingFeeds (State.init []))).crawls
        = (State.init []).crawls + 1 ∧
      (buildIndex collidingFeeds (buildIndex collidingFeeds (State.init []))).index
        = (State.init []).index) ∧
    ((buildIndex sharedArticle (State.init [])).built = true ∧
      buildIndex sharedArticle (buildIndex sharedArticle (State.init []))
        = buildIndex sharedArticle (State.init [])) :=
  ⟨⟨rfl, (buildIndex_idempotent sharedArticle (State.init [])).2.2.2.2.1 rfl⟩,
   ⟨rfl, rfl, (buildIndex_idempotent collidingFeeds (State.init [])).2.2.2.2.2 rfl rfl⟩,
   ⟨(buildIndex_idempotent sharedArticle (State.init [])).2.2.1,
    (buildIndex_idempotent sharedArticle (buildIndex sharedArticle (State.init []))).1
      (buildIndex_idempotent sharedArticle (State.init [])).2.2.1⟩⟩

end ThreadPoolVariant

end NewsAggregator

namespace ThreadPool

/-! ## The thread pool -/

theorem step_running (p q : Pool) (a : Action) (hs : step p a = some q) :
    p.terminated = false := by
  cases ht : p.terminated with
  | false => rfl
  | true => simp [step, ht] at hs

theorem stuck_step (p q : Pool) (a : Action) (h : Stuck p) (hs : step p a = some q) :
    Stuck q := by
  obtain ⟨hc, hl, hn, hw, hq, he⟩ := h
  have hterm := step_running p q a hs
  simp only [step, hterm, Bool.false_eq_true, if_false] at hs
  cases a with
  | schedule throws =>
    simp only [Option.some.injEq] at hs
    subst hs
    exact ⟨hc, hl, hn, hw, hq, he⟩
  | callWait => simp [hc] at hs
  | callDestroy => simp [hc] at hs
  | caller => simp [stepCaller, hc, hn, hq] at hs
  | dispatcher =>
    simp only at hs
    unfold stepDispatcher at hs
    split at hs
    · split_ifs at hs
      · simp only [Option.some.injEq] at hs
        subst hs
        exact ⟨hc, hl, hn, hw, hq, he⟩
      · split at hs
        · cases hs
        · simp only [Option.some.injEq] at hs
          subst hs
          exact ⟨hc, hl, hn, hw, hq, he⟩
    · rw [hq] at hs
      cases hs
    · simp only [Option.some.injEq] at hs
      subst hs
      refine ⟨hc, hl, hn, ?_, hq, he⟩
      simp only [Pool.setWorker]
      split_ifs <;> simp_all
    · simp only [Option.some.injEq] at hs
      subst hs
      refine ⟨hc, hl, hn, ?_, hq, he⟩
      simp only [Pool.setWorker]
      split_ifs <;> simp_all
    · cases hs
  | worker w =>
    simp only at hs
    unfold stepWorker at hs
    by_cases hlt : w < p.totalNumThreads
    · rw [if_pos hlt] at hs
      have hw0 : w = 0 := by omega
      subst hw0
      rw [hw] at hs
      simp only [hl] at hs
      cases hs
    · rw [if_neg hlt] at hs
      cases hs

theorem stuck_run (tr : List Action) (p q : Pool) (h : Stuck p) (hr : run p tr = some q) :
    Stuck q := by
  induction tr generalizing p with
  | nil =>
    simp only [run, Option.some.injEq] at hr
    exact hr ▸ h
  | cons a rest ih =>
    simp only [run] at hr
    cases hs : step p a with
    | none => rw [hs] at hr; cases hr
    | some p2 =>
      rw [hs] at hr
      exact ih p2 (stuck_step p p2 a h hs) hr

/-- C4, evaluated on the code: with one worker, after the interleaving `raceTrace` the
call of `wait()` made after one `schedule` has returned (the caller is outside again),
although `jobQueue` was empty only because the dispatcher had popped the thunk: the thunk
has not run and is still in the dispatcher's hand. -/
theorem wait_returns_with_thunk_in_hand :
    (run (Pool.init 1) raceTrace).map
        (fun p => (p.caller, p.waitMark, p.nextId, p.executed, p.dt, p.jobQueue,
                   p.threadQueue))
      = some (CallerPc.idle, 1, 1, [], DispatcherPc.waitWorker { id := 0, throws := false },
              [], [0]) := by
  rfl

/-- C6, evaluated on the code: with one worker and one scheduled thunk, `dropTrace` lets
the destructor return although the thunk never ran, and `hangTrace` leads to a state from
which, whatever happens next, the destructor stays inside `wait()` and the thunk does not
run. -/
theorem destructor_drops_or_hangs :
    (run (Pool.init 1) dropTrace).map (fun p => (p.caller, p.nextId, p.executed))
      = some (CallerPc.destroyed, 1, []) ∧
    ∃ p, run (Pool.init 1) hangTrace = some p ∧ p.nextId = 1 ∧
      ∀ (tr : List Action) (q : Pool), run p tr = some q →
        q.caller = CallerPc.dWait2 ∧ q.executed = [] := by
  refine ⟨by decide, _, rfl, rfl, ?_⟩
  intro tr q hr
  have hst : Stuck q := stuck_run tr _ q ⟨rfl, rfl, rfl, rfl, rfl, rfl⟩ hr
  exact ⟨hst.caller, hst.none_ran⟩

end ThreadPool

namespace ThreadPool

theorem flightCount_succ (p : Pool) (n j : Nat) :
    flightCount p (n + 1) j = flightCount p n j + ((inFlight p n).map Thunk.id).count j := by
  simp [flightCount, List.range_succ, List.flatMap_append, List.count_append]

theorem flightCount_congr (p q : Pool) (n j : Nat) (h : ∀ i, inFlight q i = inFlight p i) :
    flightCount q n j = flightCount p n j := by
  induction n with
  | zero => rfl
  | succ n ih => rw [flightCount_succ, flightCount_succ, ih, h n]

theorem flightCount_update (p q : Pool) (w n j : Nat)
    (h : ∀ i, i ≠ w → inFlight q i = inFlight p i) :
    flightCount q n j + (if w < n then ((inFlight p w).map Thunk.id).count j else 0) =
      flightCount p n j + (if w < n then ((inFlight q w).map Thunk.id).count j else 0) := by
  induction n with
  | zero => rfl
  | succ n ih =>
    rw [flightCount_succ, flightCount_succ]
    by_cases hwn : w = n
    · subst hwn
      simp only [lt_irrefl, if_false, Nat.lt_succ_self, if_true, Nat.add_zero] at ih ⊢
      omega
    · rw [h n (Ne.symm hwn)]
      by_cases hlt : w < n
      · have hlt2 : w < n + 1 := by omega
        simp only [hlt, hlt2, if_true] at ih ⊢
        omega
      · have hlt2 : ¬ w < n + 1 := by omega
        simp only [hlt, hlt2, if_false] at ih ⊢
        omega

theorem occurrences_eq (p : Pool) (j : Nat) :
    occurrences p j =
      (p.jobQueue.map Thunk.id).count j + ((hand p).map Thunk.id).count j +
        flightCount p p.totalNumThreads j + (p.executed.map Thunk.id).count j := by
  simp only [occurrences, places, flightCount, List.map_append, List.count_append]

/-- Transfer of the invariant along a step that moves no thunk except, possibly, into or
out of the mailbox of worker `w`. -/
theorem poolInv_transfer (p q : Pool) (w : Nat) (h : PoolInv p)
    (hexit : q.exit = p.exit) (hcaller : q.caller = p.caller)
    (hN : q.totalNumThreads = p.totalNumThreads) (hX : q.nextId = p.nextId)
    (htok : ∀ v, tokenCount q v = tokenCount p v)
    (hfl : ∀ i, i ≠ w → inFlight q i = inFlight p i)
    (hw : w < p.totalNumThreads ∨ inFlight q w = inFlight p w)
    (hbal : ∀ j,
      (q.jobQueue.map Thunk.id).count j + ((hand q).map Thunk.id).count j +
          ((inFlight q w).map Thunk.id).count j + (q.executed.map Thunk.id).count j =
        (p.jobQueue.map Thunk.id).count j + ((hand p).map Thunk.id).count j +
          ((inFlight p w).map Thunk.id).count j + (p.executed.map Thunk.id).count j) :
    PoolInv q := by
  obtain ⟨h1, h2, h3, h4⟩ := h
  refine ⟨hexit.trans h1, hcaller ▸ h2, ?_, ?_⟩
  · intro v
    rw [htok v, hN]
    exact h3 v
  · intro j
    have hj := h4 j
    have hb := hbal j
    have hf := flightCount_update p q w p.totalNumThreads j hfl
    rw [occurrences_eq] at hj ⊢
    rw [hN, hX]
    rcases hw with hw | hw
    · simp only [hw, if_true] at hf
      omega
    · rw [hw] at hf hb
      have hf2 : flightCount q p.totalNumThreads j = flightCount p p.totalNumThreads j := by
        omega
      omega

end ThreadPool

namespace ThreadPool

theorem poolInv_schedule (p : Pool) (throws : Bool) (h : PoolInv p) :
    PoolInv (schedule p throws) := by
  obtain ⟨h1, h2, h3, h4⟩ := h
  refine ⟨h1, h2, h3, ?_⟩
  intro j
  have hj := h4 j
  rw [occurrences_eq] at hj ⊢
  have hf : flightCount (schedule p throws) p.totalNumThreads j
      = flightCount p p.totalNumThreads j :=
    flightCount_congr p (schedule p throws) _ _ (fun i => rfl)
  have hh : hand (schedule p throws) = hand p := rfl
  have hN : (schedule p throws).totalNumThreads = p.totalNumThreads := rfl
  have hE : (schedule p throws).executed = p.executed := rfl
  have hX : (schedule p throws).nextId = p.nextId + 1 := rfl
  have hJ : (schedule p throws).jobQueue = p.jobQueue ++ [{ id := p.nextId, throws := throws }] :=
    rfl
  rw [hN, hf, hh, hE, hX, hJ]
  simp only [List.map_append, List.count_append, List.map_cons, List.map_nil,
    List.count_cons, List.count_nil, beq_iff_eq]
  by_cases hjn : p.nextId = j
  · subst hjn
    simp only [lt_irrefl, if_false, if_true, Nat.lt_succ_self] at hj ⊢
    omega
  · have h5 : (j < p.nextId + 1) ↔ (j < p.nextId) := by omega
    simp only [hjn, if_false, h5] at hj ⊢
    omega

theorem poolInv_step (p q : Pool) (a : Action) (hd : a ≠ Action.callDestroy)
    (h : PoolInv p) (hs : step p a = some q) : PoolInv q := by
  have hexit := h.exitFalse
  have hcaller := h.callerOutside
  have htok := h.token
  have hterm := step_running p q a hs
  simp only [step, hterm, Bool.false_eq_true, if_false] at hs
  cases a with
  | schedule throws =>
    simp only [Option.some.injEq] at hs
    subst hs
    exact poolInv_schedule p throws h
  | callWait =>
    simp only at hs
    split_ifs at hs
    simp only [Option.some.injEq] at hs
    subst hs
    exact ⟨hexit, Or.inr (Or.inl rfl), htok, h.conserve⟩
  | callDestroy => exact absurd rfl hd
  | caller =>
    simp only at hs
    rcases hcaller with hc | hc | hc
    · simp [stepCaller, hc] at hs
    · simp only [stepCaller, hc] at hs
      split_ifs at hs
      simp only [Option.some.injEq] at hs
      subst hs
      exact ⟨hexit, Or.inr (Or.inr rfl), htok, h.conserve⟩
    · simp only [stepCaller, hc] at hs
      split_ifs at hs
      simp only [Option.some.injEq] at hs
      subst hs
      exact ⟨hexit, Or.inl rfl, htok, h.conserve⟩
  | dispatcher =>
    simp only at hs
    unfold stepDispatcher at hs
    split at hs
    · rename_i hdt
      rw [hexit] at hs
      simp only [Bool.false_eq_true, if_false] at hs
      split at hs
      · cases hs
      · rename_i thunk rest hjq
        simp only [Option.some.injEq] at hs
        subst hs
        refine poolInv_transfer p _ 0 h ?_ ?_ ?_ ?_ ?_ ?_ ?_ ?_
        · exact hexit.symm
        · rfl
        · rfl
        · rfl
        · intro v
          simp only [tokenCount, holds, hdt]
        · intro i _
          simp only [inFlight, fresh, hdt]
          simp
        · right
          simp only [inFlight, fresh, hdt]
          simp
        · intro j
          simp only [inFlight, fresh, hand, hdt, hjq]
          simp [List.count_cons]
    · rename_i thunk hdt
      split at hs
      · cases hs
      · rename_i w rest htq
        simp only [Option.some.injEq] at hs
        subst hs
        refine poolInv_transfer p _ 0 h ?_ ?_ ?_ ?_ ?_ ?_ ?_ ?_
        · rfl
        · rfl
        · rfl
        · rfl
        · intro v
          simp only [tokenCount, holds, hdt, htq, List.count_cons, beq_iff_eq]
          omega
        · intro i _
          simp only [inFlight, fresh, hdt]
          simp
        · right
          simp only [inFlight, fresh, hdt]
          simp
        · intro j
          simp only [inFlight, fresh, hand, hdt]
          simp
    · rename_i thunk w hdt
      simp only [Option.some.injEq] at hs
      subst hs
      have hw := htok w
      simp only [tokenCount, holds, hdt, if_true] at hw
      have hwN : w < p.totalNumThreads := by
        by_contra hcon
        rw [if_neg hcon] at hw
        omega
      rw [if_pos hwN] at hw
      have hsem : (p.workers w).sem = 0 := by omega
      have hbusy : busy (p.workers w).pc = 0 := by omega
      refine poolInv_transfer p _ w h ?_ ?_ ?_ ?_ ?_ ?_ ?_ ?_
      · rfl
      · rfl
      · rfl
      · rfl
      · intro v
        simp only [tokenCount, holds, hdt, Pool.setWorker]
        by_cases hv : v = w
        · simp [hv]
        · simp [hv]
      · intro i hi
        simp only [inFlight, fresh, hdt, Pool.setWorker, if_neg hi]
        simp [Ne.symm hi]
      · exact Or.inl hwN
      · intro j
        have hpc1 : (p.workers w).pc ≠ WorkerPc.waitLock := by
          intro e; rw [e] at hbusy; simp [busy] at hbusy
        have hpc2 : (p.workers w).pc ≠ WorkerPc.run := by
          intro e; rw [e] at hbusy; simp [busy] at hbusy
        simp only [inFlight, fresh, hand, hdt, Pool.setWorker, if_true, hsem]
        simp [hpc1, hpc2]
    · rename_i w hdt
      simp only [Option.some.injEq] at hs
      subst hs
      refine poolInv_transfer p _ w h ?_ ?_ ?_ ?_ ?_ ?_ ?_ ?_
      · rfl
      · rfl
      · rfl
      · rfl
      · intro v
        simp only [tokenCount, holds, hdt, Pool.setWorker]
        by_cases hv : v = w
        · simp [hv]
          omega
        · simp [hv, Ne.symm hv]
      · intro i hi
        simp only [inFlight, fresh, hdt, Pool.setWorker, if_neg hi]
        simp [Ne.symm hi]
      · right
        simp only [inFlight, fresh, hdt, Pool.setWorker, if_true]
        simp
      · intro j
        simp only [inFlight, fresh, hand, hdt, Pool.setWorker, if_true]
        simp
    · cases hs
  | worker w =>
    simp only at hs
    unfold stepWorker at hs
    by_cases hlt : w < p.totalNumThreads
    · rw [if_pos hlt] at hs
      have hw := htok w
      simp only [tokenCount, if_pos hlt] at hw
      split at hs
      · rename_i hpc
        split_ifs at hs with hsem
        simp only [Option.some.injEq] at hs
        subst hs
        refine poolInv_transfer p _ w h ?_ ?_ ?_ ?_ ?_ ?_ ?_ ?_
        · rfl
        · rfl
        · rfl
        · rfl
        · intro v
          simp only [tokenCount, Pool.setWorker]
          by_cases hv : v = w
          · subst hv
            simp only [if_true, busy, hpc]
            omega
          · simp [hv]
        · intro i hi
          simp only [inFlight, fresh, Pool.setWorker, if_neg hi]
        · right
          simp only [inFlight, fresh, Pool.setWorker, if_true]
          simp [hsem]
        · intro j
          simp only [inFlight, fresh, hand, Pool.setWorker, if_true]
          simp [hsem]
      · rename_i hpc
        split at hs
        · cases hs
        · rw [hexit] at hs
          simp only [Bool.false_eq_true, if_false, Option.some.injEq] at hs
          subst hs
          refine poolInv_transfer p _ w h ?_ ?_ ?_ ?_ ?_ ?_ ?_ ?_
          · rfl
          · rfl
          · rfl
          · rfl
          · intro v
            simp only [tokenCount, Pool.setWorker]
            by_cases hv : v = w
            · subst hv
              simp only [if_true, busy, hpc]
            · simp [hv]
          · intro i hi
            simp only [inFlight, fresh, Pool.setWorker, if_neg hi]
          · right
            simp only [inFlight, fresh, Pool.setWorker, if_true]
            simp [hpc]
          · intro j
            simp only [inFlight, fresh, hand, Pool.setWorker, if_true]
            simp [hpc]
      · rename_i hpc
        split at hs
        · simp only [Option.some.injEq] at hs
          subst hs
          exact ⟨hexit, hcaller, htok, h.conserve⟩
        · rename_i thunk hth
          split_ifs at hs with hthrows
          · simp only [Option.some.injEq] at hs
            subst hs
            exact ⟨hexit, hcaller, htok, h.conserve⟩
          · simp only [Option.some.injEq] at hs
            subst hs
            simp only [busy, hpc] at hw
            have hsem : (p.workers w).sem = 0 := by omega
            have hholds : holds p.dt w = 0 := by omega
            have hdt : p.dt ≠ DispatcherPc.signal w := by
              intro e
              rw [e] at hholds
              simp [holds] at hholds
            refine poolInv_transfer p _ w h ?_ ?_ ?_ ?_ ?_ ?_ ?_ ?_
            · rfl
            · rfl
            · rfl
            · rfl
            · intro v
              simp only [tokenCount, Pool.setWorker]
              by_cases hv : v = w
              · subst hv
                simp only [if_true, busy, hpc]
              · simp [hv]
            · intro i hi
              simp only [inFlight, fresh, Pool.setWorker, if_neg hi]
            · exact Or.inl hlt
            · intro j
              simp only [inFlight, fresh, hand, Pool.setWorker, if_true]
              simp [hpc, hsem, hdt, hth, List.count_append]
              omega
      · rename_i hpc
        simp only [Option.some.injEq] at hs
        subst hs
        refine poolInv_transfer p _ w h ?_ ?_ ?_ ?_ ?_ ?_ ?_ ?_
        · rfl
        · rfl
        · rfl
        · rfl
        · intro v
          simp only [tokenCount, Pool.setWorker]
          by_cases hv : v = w
          · subst hv
            simp only [if_true, busy, hpc, List.count_append]
            simp
            omega
          · simp [hv, List.count_append, List.count_cons, Ne.symm hv]
        · intro i hi
          simp only [inFlight, fresh, Pool.setWorker, if_neg hi]
        · right
          simp only [inFlight, fresh, Pool.setWorker, if_true]
          simp [hpc]
        · intro j
          simp only [inFlight, fresh, hand, Pool.setWorker, if_true]
          simp [hpc]
      · rename_i hpc
        simp only [Option.some.injEq] at hs
        subst hs
        refine poolInv_transfer p _ w h ?_ ?_ ?_ ?_ ?_ ?_ ?_ ?_
        · rfl
        · rfl
        · rfl
        · rfl
        · intro v
          simp only [tokenCount, Pool.setWorker]
          by_cases hv : v = w
          · subst hv
            simp only [if_true, busy, hpc]
          · simp [hv]
        · intro i hi
          simp only [inFlight, fresh, Pool.setWorker, if_neg hi]
        · right
          simp only [inFlight, fresh, Pool.setWorker, if_true]
          simp [hpc]
        · intro j
          simp only [inFlight, fresh, hand, Pool.setWorker, if_true]
          simp [hpc]
      · cases hs
    · rw [if_neg hlt] at hs
      cases hs

end ThreadPool

namespace ThreadPool

theorem count_range (n j : Nat) : (List.range n).count j = if j < n then 1 else 0 := by
  split_ifs with h
  · exact List.count_eq_one_of_mem (List.nodup_range n) (List.mem_range.mpr h)
  · exact List.count_eq_zero_of_not_mem (fun hm => h (List.mem_range.mp hm))

theorem poolInv_init (n : Nat) : PoolInv (Pool.init n) := by
  refine ⟨rfl, Or.inl rfl, ?_, ?_⟩
  · intro w
    simp only [tokenCount, Pool.init, holds, busy, count_range]
    omega
  · intro j
    rw [occurrences_eq]
    have hf : ∀ m, flightCount (Pool.init n) m j = 0 := by
      intro m
      induction m with
      | zero => rfl
      | succ m ih =>
        rw [flightCount_succ, ih]
        simp [inFlight, fresh, Pool.init]
    rw [hf]
    simp [Pool.init, hand]

theorem poolInv_run (trace : List Action) (p q : Pool)
    (hnd : ∀ a ∈ trace, a ≠ Action.callDestroy) (h : PoolInv p)
    (hr : run p trace = some q) : PoolInv q := by
  induction trace generalizing p with
  | nil =>
    simp only [run, Option.some.injEq] at hr
    exact hr ▸ h
  | cons a rest ih =>
    simp only [run] at hr
    cases hs : step p a with
    | none => rw [hs] at hr; cases hr
    | some p2 =>
      rw [hs] at hr
      exact ih p2 (fun b hb => hnd b (List.mem_cons_of_mem _ hb))
        (poolInv_step p p2 a (hnd a (List.mem_cons_self _ _)) h hs) hr

/-- C5. Pool job conservation: in every state reached from a new pool of any size by
`schedule` calls, dispatcher steps, worker steps and steps of a caller inside `wait()`,
the numbers of the thunks found in the job queue, the dispatcher's hand, the mailboxes
and executions of the workers and the record of completed thunks are, taken together, a
rearrangement of the numbers `0 .. nextId - 1` of the thunks passed to `schedule`: each
scheduled thunk is in exactly one place, so none is dropped and none has run twice; and
when the dispatcher is about to write the mailbox of worker `w`, that worker is one of
the pool, holds no unfinished thunk, has its semaphore at 0 and is not inside a job. -/
theorem pool_job_conservation (n : Nat) (trace : List Action) (q : Pool)
    (hnd : ∀ a ∈ trace, a ≠ Action.callDestroy)
    (hr : run (Pool.init n) trace = some q) :
    ((places q).map Thunk.id).Perm (List.range q.nextId) ∧
    (∀ j, j < q.nextId → j ∈ (places q).map Thunk.id) ∧
    (q.executed.map Thunk.id).Nodup ∧
    (∀ (thunk : Thunk) (w : Nat), q.dt = DispatcherPc.assign thunk w →
      w < q.totalNumThreads ∧ inFlight q w = [] ∧ w ∉ q.threadQueue ∧
      (q.workers w).sem = 0 ∧ busy (q.workers w).pc = 0) := by
  have hinv := poolInv_run trace _ q hnd (poolInv_init n) hr
  have hperm : ((places q).map Thunk.id).Perm (List.range q.nextId) := by
    rw [List.perm_iff_count]
    intro j
    rw [count_range]
    exact hinv.conserve j
  have hnodup : ((places q).map Thunk.id).Nodup :=
    hperm.nodup_iff.mpr (List.nodup_range _)
  refine ⟨hperm, ?_, ?_, ?_⟩
  · intro j hj
    exact hperm.mem_iff.mpr (List.mem_range.mpr hj)
  · have hsub : (q.executed.map Thunk.id).Sublist ((places q).map Thunk.id) := by
      apply List.Sublist.map
      unfold places
      exact List.sublist_append_right _ _
    exact hnodup.sublist hsub
  · intro thunk w hdt
    have hw := hinv.token w
    simp only [tokenCount, holds, hdt, if_true] at hw
    have hwN : w < q.totalNumThreads := by
      by_contra hcon
      rw [if_neg hcon] at hw
      omega
    rw [if_pos hwN] at hw
    have hsem : (q.workers w).sem = 0 := by omega
    have hbusy : busy (q.workers w).pc = 0 := by omega
    have hcount : q.threadQueue.count w = 0 := by omega
    refine ⟨hwN, ?_, List.count_eq_zero.mp hcount, hsem, hbusy⟩
    have hpc1 : (q.workers w).pc ≠ WorkerPc.waitLock := by
      intro e; rw [e] at hbusy; simp [busy] at hbusy
    have hpc2 : (q.workers w).pc ≠ WorkerPc.run := by
      intro e; rw [e] at hbusy; simp [busy] at hbusy
    simp [inFlight, fresh, hdt, hsem, hpc1, hpc2]

/-- The interleaving `busyTrace` on a pool of one worker contains no destructor call and
can be taken; C5 applies to the state it reaches, in which the dispatcher is about to
write the mailbox of worker 0 with the second thunk. -/
theorem pool_job_conservation_witness :
    (∀ a ∈ busyTrace, a ≠ Action.callDestroy) ∧
    run (Pool.init 1) busyTrace = some (runFrom (Pool.init 1) busyTrace) ∧
    (runFrom (Pool.init 1) busyTrace).dt
      = DispatcherPc.assign { id := 1, throws := false } 0 ∧
    (((places (runFrom (Pool.init 1) busyTrace)).map Thunk.id).Perm
        (List.range (runFrom (Pool.init 1) busyTrace).nextId) ∧
     (∀ j, j < (runFrom (Pool.init 1) busyTrace).nextId →
        j ∈ (places (runFrom (Pool.init 1) busyTrace)).map Thunk.id) ∧
     ((runFrom (Pool.init 1) busyTrace).executed.map Thunk.id).Nodup ∧
     (∀ (thunk : Thunk) (w : Nat),
        (runFrom (Pool.init 1) busyTrace).dt = DispatcherPc.assign thunk w →
        w < (runFrom (Pool.init 1) busyTrace).totalNumThreads ∧
        inFlight (runFrom (Pool.init 1) busyTrace) w = [] ∧
        w ∉ (runFrom (Pool.init 1) busyTrace).threadQueue ∧
        ((runFrom (Pool.init 1) busyTrace).workers w).sem = 0 ∧
        busy ((runFrom (Pool.init 1) busyTrace).workers w).pc = 0)) :=
  ⟨by decide, rfl, rfl,
   pool_job_conservation 1 busyTrace (runFrom (Pool.init 1) busyTrace) (by decide) rfl⟩

/-- C7, as stated, fails: with one worker, the thunk that throws is handed over and
called; the program is then terminated, the thunk is not recorded as completed, the id
of the worker is not back on `threadQueue`, and no thread takes another step. -/
theorem throwing_job_counterexample :
    ∃ q, run (Pool.init 1) (toRun true ++ [Action.worker 0]) = some q ∧
      q.terminated = true ∧ q.executed = [] ∧ q.threadQueue = [] ∧
      (q.workers 0).pc = WorkerPc.run ∧ ∀ a, step q a = none :=
  ⟨_, rfl, rfl, rfl, rfl, rfl, fun _ => rfl⟩

theorem worker_push_step (p : Pool) (w : Nat) (hw : w < p.totalNumThreads)
    (hterm : p.terminated = false) (hpc : (p.workers w).pc = WorkerPc.push) :
    ∃ q, step p (Action.worker w) = some q ∧ q.terminated = false ∧
      q.totalNumThreads = p.totalNumThreads ∧ (q.workers w).pc = WorkerPc.unlock ∧
      q.executed = p.executed ∧ q.threadQueue = p.threadQueue ++ [w] := by
  refine ⟨{ p.setWorker w { p.workers w with pc := WorkerPc.unlock } with
            threadQueue := p.threadQueue ++ [w] }, ?_, hterm, rfl, ?_, rfl, rfl⟩
  · simp [step, stepWorker, hterm, hw, hpc]
  · simp [Pool.setWorker]

theorem worker_unlock_step (p : Pool) (w : Nat) (hw : w < p.totalNumThreads)
    (hterm : p.terminated = false) (hpc : (p.workers w).pc = WorkerPc.unlock) :
    ∃ q, step p (Action.worker w) = some q ∧ q.terminated = false ∧
      (q.workers w).pc = WorkerPc.waitSem ∧
      q.executed = p.executed ∧ q.threadQueue = p.threadQueue ∧ q.sLock = none := by
  refine ⟨{ p.setWorker w { p.workers w with pc := WorkerPc.waitSem } with sLock := none },
    ?_, hterm, ?_, rfl, rfl, rfl⟩
  · simp [step, stepWorker, hterm, hw, hpc]
  · simp [Pool.setWorker]

/-- C7, amended. Pool failure handling: when a worker calls a thunk that throws, nothing
catches the failure: the program is terminated, the thunk is not recorded as completed,
the id of the worker is not pushed back and no thread takes another step. When the thunk
returns normally, the worker records it as completed, pushes its own id back onto the
idle-worker queue, releases `sLock` and is back at its semaphore to serve further jobs. -/
theorem worker_job_outcome (p : Pool) (w : Nat) (thunk : Thunk)
    (hw : w < p.totalNumThreads) (hterm : p.terminated = false)
    (hpc : (p.workers w).pc = WorkerPc.run) (hth : (p.workers w).thunk = some thunk) :
    (thunk.throws = true →
      ∃ q, step p (Action.worker w) = some q ∧ q.terminated = true ∧
        q.executed = p.executed ∧ q.threadQueue = p.threadQueue ∧
        (q.workers w).pc = WorkerPc.run ∧ ∀ a, step q a = none) ∧
    (thunk.throws = false →
      ∃ q, run p [Action.worker w, Action.worker w, Action.worker w] = some q ∧
        q.terminated = false ∧ q.executed = p.executed ++ [thunk] ∧
        q.threadQueue = p.threadQueue ++ [w] ∧
        (q.workers w).pc = WorkerPc.waitSem ∧ q.sLock = none) := by
  constructor
  · intro hthrows
    refine ⟨{ p with terminated := true }, ?_, rfl, rfl, rfl, hpc, fun a => ?_⟩
    · simp [step, stepWorker, hterm, hw, hpc, hth, hthrows]
    · simp [step]
  · intro hthrows
    have h1 : step p (Action.worker w) =
        some { p.setWorker w { p.workers w with pc := WorkerPc.push } with
               executed := p.executed ++ [thunk] } := by
      simp [step, stepWorker, hterm, hw, hpc, hth, hthrows]
    obtain ⟨q2, hq2, ht2, hn2, hpc2, he2, hq2q⟩ :=
      worker_push_step { p.setWorker w { p.workers w with pc := WorkerPc.push } with
               executed := p.executed ++ [thunk] } w hw hterm (by simp [Pool.setWorker])
    obtain ⟨q3, hq3, ht3, hpc3, he3, hq3q, hl3⟩ :=
      worker_unlock_step q2 w (hn2 ▸ hw) ht2 hpc2
    refine ⟨q3, ?_, ht3, he3.trans he2, hq3q.trans hq2q, hpc3, hl3⟩
    simp only [run, h1, hq2, hq3, Option.some_bind]

/-- The two cases of the amended C7 on a pool of one worker that has reached the call
of its thunk: the hypotheses hold in both states, the thunk that throws terminates the
program, and the thunk that returns brings the worker back to its semaphore. -/
theorem worker_job_outcome_witness :
    (0 < (runFrom (Pool.init 1) (toRun true)).totalNumThreads ∧
      (runFrom (Pool.init 1) (toRun true)).terminated = false ∧
      ((runFrom (Pool.init 1) (toRun true)).workers 0).pc = WorkerPc.run ∧
      ((runFrom (Pool.init 1) (toRun true)).workers 0).thunk
        = some { id := 0, throws := true }) ∧
    (∃ q, step (runFrom (Pool.init 1) (toRun true)) (Action.worker 0) = some q ∧
      q.terminated = true ∧
      q.executed = (runFrom (Pool.init 1) (toRun true)).executed ∧
      q.threadQueue = (runFrom (Pool.init 1) (toRun true)).threadQueue ∧
      (q.workers 0).pc = WorkerPc.run ∧ ∀ a, step q a = none) ∧
    (0 < (runFrom (Pool.init 1) (toRun false)).totalNumThreads ∧
      (runFrom (Pool.init 1) (toRun false)).terminated = false ∧
      ((runFrom (Pool.init 1) (toRun false)).workers 0).pc = WorkerPc.run ∧
      ((runFrom (Pool.init 1) (toRun false)).workers 0).thunk
        = some { id := 0, throws := false }) ∧
    (∃ q, run (runFrom (Pool.init 1) (toRun false))
        [Action.worker 0, Action.worker 0, Action.worker 0] = some q ∧
      q.terminated = false ∧
      q.executed = (runFrom (Pool.init 1) (toRun false)).executed
        ++ [{ id := 0, throws := false }] ∧
      q.threadQueue = (runFrom (Pool.init 1) (toRun false)).threadQueue ++ [0] ∧
      (q.workers 0).pc = WorkerPc.waitSem ∧ q.sLock = none) :=
  ⟨⟨by decide, rfl, rfl, rfl⟩,
   (worker_job_outcome (runFrom (Pool.init 1) (toRun true)) 0 { id := 0, throws := true }
      (by decide) rfl rfl rfl).1 rfl,
   ⟨by decide, rfl, rfl, rfl⟩,
   (worker_job_outcome (runFrom (Pool.init 1) (toRun false)) 0 { id := 0, throws := false }
      (by decide) rfl rfl rfl).2 rfl⟩

end ThreadPool

namespace NewsAggregator

/-! ## Failure isolation and finalization -/

theorem mapSet_mapSet {β : Type} (k : Str) (v v2 : β) (l : List (Str × β)) :
    mapSet k v (mapSet k v2 l) = mapSet k v l := by
  induction l with
  | nil => simp [mapSet]
  | cons e rest ih =>
    obtain ⟨k', x⟩ := e
    simp only [mapSet]
    split_ifs with h1 h2
    · simp [mapSet]
    · simp [mapSet, h1, h2, ih]
    · simp [mapSet]

/-- C11, as stated, fails for the variant that spawns threads: on a fresh aggregator the
article job whose HTML fetch fails leaves a semaphore for the server of the article in
`serverSemaphoreMap`, so the seen-url set is not the only state it changes. -/
theorem article_failure_counterexample :
    failingHtml.html "http://a/x".toList = none ∧
    (State.init []).serverSemaphoreMap = [] ∧
    (ThreadsVariant.articleJob failingHtml
        { url := "http://a/x".toList, title := "T".toList } (State.init [])).map
        (fun s => (s.serverSemaphoreMap, s.urlSet, s.ArticleMap))
      = some ([("http://a".toList, 10)], ["http://a/x".toList], []) := by
  refine ⟨rfl, rfl, rfl⟩

/-- C11, amended. Article failure isolation: for every aggregator state and every
article job whose HTML download or parse fails, the deduper map after the job is the map
before it, and so are the index, the `built` flag and the feed-list uri. In the
thread-pool variant the only member the job changes is the seen-url set, which gains the
url of the article. In the variant that spawns threads the job also leaves the semaphore
of the article's server in `serverSemaphoreMap`, with the count it had before the job, or
with `kNumPerServer` when the job created it; and the job does return when that
semaphore has a permit. -/
theorem article_failure_isolation (c : Collaborators) (a : Article) (s : State)
    (hfail : c.html a.url = none) :
    ((ThreadPoolVariant.articleJob c a s).ArticleMap = s.ArticleMap ∧
      (ThreadPoolVariant.articleJob c a s).index = s.index ∧
      (ThreadPoolVariant.articleJob c a s).built = s.built ∧
      (ThreadPoolVariant.articleJob c a s).rssFeedListURI = s.rssFeedListURI ∧
      (ThreadPoolVariant.articleJob c a s).serverSemaphoreMap = s.serverSemaphoreMap ∧
      (a.url ∉ s.urlSet →
        (ThreadPoolVariant.articleJob c a s).urlSet = a.url :: s.urlSet)) ∧
    (∀ s2, ThreadsVariant.articleJob c a s = some s2 →
      s2.ArticleMap = s.ArticleMap ∧ s2.index = s.index ∧ s2.built = s.built ∧
      s2.rssFeedListURI = s.rssFeedListURI ∧
      (a.url ∉ s.urlSet →
        s2.urlSet = a.url :: s.urlSet ∧
        s2.serverSemaphoreMap =
          mapSet (c.getURLServer a.url)
            ((mapFind (c.getURLServer a.url) s.serverSemaphoreMap).getD kNumPerServer)
            s.serverSemaphoreMap)) ∧
    (a.url ∉ s.urlSet →
      (mapFind (c.getURLServer a.url) s.serverSemaphoreMap).getD kNumPerServer ≠ 0 →
      ∃ s2, ThreadsVariant.articleJob c a s = some s2) := by
  refine ⟨?_, ?_, ?_⟩
  · unfold ThreadPoolVariant.articleJob
    split_ifs with hin
    · exact ⟨rfl, rfl, rfl, rfl, rfl, fun h => absurd hin h⟩
    · simp only [hfail]
      exact ⟨rfl, rfl, rfl, rfl, rfl, fun _ => rfl⟩
  · intro s2 hs2
    by_cases hin : a.url ∈ s.urlSet
    · simp only [ThreadsVariant.articleJob, hin, if_true, Option.some.injEq] at hs2
      subst hs2
      exact ⟨rfl, rfl, rfl, rfl, fun h => absurd hin h⟩
    · by_cases hperm :
          (mapFind (c.getURLServer a.url) s.serverSemaphoreMap).getD kNumPerServer = 0
      · simp [ThreadsVariant.articleJob, hin, hperm] at hs2
      · simp only [ThreadsVariant.articleJob, hin, hperm, if_false, hfail,
          Option.some.injEq] at hs2
        subst hs2
        refine ⟨rfl, rfl, rfl, rfl, fun _ => ⟨rfl, ?_⟩⟩
        simp only [State.emit]
        exact mapSet_mapSet _ _ _ _
  · intro hin hperm
    unfold ThreadsVariant.articleJob
    rw [if_neg hin]
    simp only [hperm, if_false, hfail]
    exact ⟨_, rfl⟩

/-- The article `http://a/x` with a failing HTML fetch on a fresh aggregator: the
hypotheses of the amended C11 hold, the job of the variant that spawns threads returns,
and the thread-pool job leaves the deduper map empty. -/
theorem article_failure_isolation_witness :
    failingHtml.html "http://a/x".toList = none ∧
    "http://a/x".toList ∉ (State.init []).urlSet ∧
    (mapFind (failingHtml.getURLServer "http://a/x".toList)
        (State.init []).serverSemaphoreMap).getD kNumPerServer ≠ 0 ∧
    (∃ s2, ThreadsVariant.articleJob failingHtml
        { url := "http://a/x".toList, title := "T".toList } (State.init []) = some s2) ∧
    (ThreadPoolVariant.articleJob failingHtml
        { url := "http://a/x".toList, title := "T".toList } (State.init [])).ArticleMap
      = (State.init []).ArticleMap ∧
    (ThreadPoolVariant.articleJob failingHtml
        { url := "http://a/x".toList, title := "T".toList } (State.init [])).urlSet
      = "http://a/x".toList :: (State.init []).urlSet :=
  ⟨rfl, by decide, by decide,
   (article_failure_isolation failingHtml { url := "http://a/x".toList, title := "T".toList }
      (State.init []) rfl).2.2 (by decide) (by decide),
   (article_failure_isolation failingHtml { url := "http://a/x".toList, title := "T".toList }
      (State.init []) rfl).1.1,
   (article_failure_isolation failingHtml { url := "http://a/x".toList, title := "T".toList }
      (State.init []) rfl).1.2.2.2.2.2 (by decide)⟩

end NewsAggregator

namespace NewsAggregator

theorem count_map_eq_length_filter {α β : Type} [DecidableEq β] (f : α → β) (k : β)
    (l : List α) : (l.map f).count k = (l.filter (fun e => decide (f e = k))).length := by
  induction l with
  | nil => rfl
  | cons x rest ih =>
    by_cases hx : f x = k
    · simp [List.filter_cons, hx, ih]
    · rw [List.map_cons, List.count_cons_of_ne (Ne.symm hx), ih]
      simp [List.filter_cons, hx]

theorem entries_keys_nodup (m : ArticleMap) (h : WellFormed m) :
    ((entries m).map (fun e => (e.1, e.2.1))).Nodup := by
  rw [List.nodup_iff_count_le_one]
  intro k
  obtain ⟨s, t⟩ := k
  rw [count_map_eq_length_filter]
  have hfilter : (entries m).filter
      (fun e : Str × Str × Article × List Str => decide ((e.1, e.2.1) = (s, t)))
      = entriesAt m s t := by
    unfold entriesAt
    apply List.filter_congr
    intro e _
    simp
  rw [hfilter, entriesAt_eq_lookup m s t h]
  cases lookup m s t <;> simp

theorem mem_entries_iff (m : ArticleMap) (h : WellFormed m) (s t : Str) (a : Article)
    (toks : List Str) : (s, t, a, toks) ∈ entries m ↔ lookup m s t = some (a, toks) := by
  constructor
  · intro he
    exact mem_entries_lookup m h _ he
  · intro hl
    have hat := entriesAt_eq_lookup m s t h
    rw [hl] at hat
    have hmem : (s, t, a, toks) ∈ entriesAt m s t := by
      rw [hat]
      simp
    exact (List.mem_filter.mp hmem).1

/-- C12. Finalize: for every state whose deduper map is a `std::map` on both levels,
the finalization loop appends to the record of `index.add` calls exactly the stored
(article, tokens) of the entries of the map, one call per entry in the order of the two
loops, and nothing else; no `(server, title)` occurs twice among the entries, and the
entries are exactly the values that `find` reaches; so two entries with one title on two
servers give two calls, and an empty map gives none. The loop changes nothing but the
index. -/
theorem finalize_calls (s : State) (hwf : WellFormed s.ArticleMap) :
    (ThreadPoolVariant.finalize s).index = s.index ++ (entries s.ArticleMap).map addCall ∧
    ((entries s.ArticleMap).map addCall).length = (entries s.ArticleMap).length ∧
    ((entries s.ArticleMap).map (fun e => (e.1, e.2.1))).Nodup ∧
    (∀ (srv t : Str) (a : Article) (toks : List Str),
      (srv, t, a, toks) ∈ entries s.ArticleMap ↔ lookup s.ArticleMap srv t = some (a, toks)) ∧
    (∀ (s1 s2 t : Str) (v1 v2 : Article × List Str), s1 ≠ s2 →
      lookup s.ArticleMap s1 t = some v1 → lookup s.ArticleMap s2 t = some v2 →
      List.Subperm [v1, v2] ((entries s.ArticleMap).map addCall)) ∧
    (s.ArticleMap = [] → (ThreadPoolVariant.finalize s).index = s.index) ∧
    (ThreadPoolVariant.finalize s).ArticleMap = s.ArticleMap ∧
    (ThreadPoolVariant.finalize s).urlSet = s.urlSet := by
  refine ⟨rfl, by simp, entries_keys_nodup _ hwf, fun srv t a toks =>
    mem_entries_iff _ hwf srv t a toks, ?_, ?_, rfl, rfl⟩
  · intro s1 s2 t v1 v2 hne h1 h2
    obtain ⟨a1, k1⟩ := v1
    obtain ⟨a2, k2⟩ := v2
    have he1 := (mem_entries_iff _ hwf s1 t a1 k1).mpr h1
    have he2 := (mem_entries_iff _ hwf s2 t a2 k2).mpr h2
    have hnd : [(s1, t, a1, k1), (s2, t, a2, k2)].Nodup := by
      simp [hne]
    have hsub : [(s1, t, a1, k1), (s2, t, a2, k2)] ⊆ entries s.ArticleMap := by
      intro e he
      simp only [List.mem_cons, List.mem_singleton, List.not_mem_nil, or_false] at he
      rcases he with rfl | rfl
      · exact he1
      · exact he2
    obtain ⟨l, hperm, hsubl⟩ := List.subperm_of_subset hnd hsub
    exact ⟨l.map addCall, by simpa [addCall] using hperm.map addCall, hsubl.map addCall⟩
  · intro hnil
    simp [ThreadPoolVariant.finalize, hnil, entries]

/-- The deduper map built from one title on two servers: it is well formed, `find`
reaches both entries, and C12 gives two `index.add` calls on an index that was empty. -/
theorem finalize_calls_witness :
    WellFormed (observeAll [] [scenarioX, scenarioOther]) ∧
    (ThreadPoolVariant.finalize
        { State.init [] with ArticleMap := observeAll [] [scenarioX, scenarioOther] }).index
      = [(scenarioX.article, ["k".toList, "m".toList, "p".toList]),
         (scenarioOther.article, ["k".toList])] ∧
    List.Subperm
      [(scenarioX.article, ["k".toList, "m".toList, "p".toList]),
       (scenarioOther.article, ["k".toList])]
      ((entries (observeAll [] [scenarioX, scenarioOther])).map addCall) :=
  ⟨wellFormed_observeAll _ [] wellFormed_nil, by decide,
   (finalize_calls { State.init [] with ArticleMap := observeAll [] [scenarioX, scenarioOther] }
      (wellFormed_observeAll _ [] wellFormed_nil)).2.2.2.2.1
      "http://a".toList "http://b".toList "T".toList _ _ (by decide) (by decide) (by decide)⟩

end NewsAggregator

namespace ThreadPool

/-! ## Mutual exclusion of the workers -/

theorem lockInv_init (n : Nat) : LockInv (Pool.init n) := by
  constructor
  · intro w h
    simp [Pool.init, holdsLock] at h
  · intro h
    simp [Pool.init, destructorLocked] at h

theorem lockInv_step (p q : Pool) (a : Action) (h : LockInv p) (hs : step p a = some q) :
    LockInv q := by
  obtain ⟨hwk, hdes⟩ := h
  have hterm := step_running p q a hs
  simp only [step, hterm, Bool.false_eq_true, if_false] at hs
  cases a with
  | schedule throws =>
    simp only [Option.some.injEq] at hs
    subst hs
    exact ⟨hwk, hdes⟩
  | callWait =>
    simp only at hs
    split_ifs at hs with hc
    simp only [Option.some.injEq] at hs
    subst hs
    exact ⟨hwk, fun hd => by simp [destructorLocked] at hd⟩
  | callDestroy =>
    simp only at hs
    split_ifs at hs with hc
    simp only [Option.some.injEq] at hs
    subst hs
    exact ⟨hwk, fun hd => by simp [destructorLocked] at hd⟩
  | caller =>
    simp only at hs
    unfold stepCaller at hs
    split at hs
    · cases hs
    · split_ifs at hs
      simp only [Option.some.injEq] at hs
      subst hs
      exact ⟨hwk, fun hd => by simp [destructorLocked] at hd⟩
    · split_ifs at hs
      simp only [Option.some.injEq] at hs
      subst hs
      exact ⟨hwk, fun hd => by simp [destructorLocked] at hd⟩
    · split at hs
      · cases hs
      · rename_i hfree
        simp only [Option.some.injEq] at hs
        subst hs
        refine ⟨?_, fun _ => rfl⟩
        intro w hw
        have := hwk w hw
        rw [hfree] at this
        cases this
    · rename_i hc
      split_ifs at hs
      simp only [Option.some.injEq] at hs
      subst hs
      exact ⟨hwk, fun _ => hdes (by simp [hc, destructorLocked])⟩
    · rename_i hc
      split_ifs at hs
      simp only [Option.some.injEq] at hs
      subst hs
      exact ⟨hwk, fun _ => hdes (by simp [hc, destructorLocked])⟩
    · rename_i hc
      simp only [Option.some.injEq] at hs
      subst hs
      exact ⟨hwk, fun _ => hdes (by simp [hc, destructorLocked])⟩
    · rename_i hc
      simp only [Option.some.injEq] at hs
      subst hs
      have hl := hdes (by simp [hc, destructorLocked])
      refine ⟨?_, fun hd => by simp [destructorLocked] at hd⟩
      intro w hw
      have := hwk w hw
      rw [hl] at this
      cases this
    · split_ifs at hs
      simp only [Option.some.injEq] at hs
      subst hs
      exact ⟨hwk, fun hd => by simp [destructorLocked] at hd⟩
    · rename_i i hc
      split_ifs at hs
      · simp only [Option.some.injEq] at hs
        subst hs
        refine ⟨?_, fun hd => by simp [destructorLocked] at hd⟩
        intro w hw
        simp only [Pool.setWorker] at hw
        split_ifs at hw with hvw
        · subst hvw
          exact hwk _ hw
        · exact hwk w hw
      · simp only [Option.some.injEq] at hs
        subst hs
        exact ⟨hwk, fun hd => by simp [destructorLocked] at hd⟩
    · rename_i i hc
      split_ifs at hs
      · simp only [Option.some.injEq] at hs
        subst hs
        exact ⟨hwk, fun hd => by simp [destructorLocked] at hd⟩
      · simp only [Option.some.injEq] at hs
        subst hs
        exact ⟨hwk, fun hd => by simp [destructorLocked] at hd⟩
    · cases hs
  | dispatcher =>
    simp only at hs
    unfold stepDispatcher at hs
    split at hs
    · split_ifs at hs
      · simp only [Option.some.injEq] at hs
        subst hs
        exact ⟨hwk, hdes⟩
      · split at hs
        · cases hs
        · simp only [Option.some.injEq] at hs
          subst hs
          exact ⟨hwk, hdes⟩
    · split at hs
      · cases hs
      · simp only [Option.some.injEq] at hs
        subst hs
        exact ⟨hwk, hdes⟩
    · rename_i thunk w hdt
      simp only [Option.some.injEq] at hs
      subst hs
      refine ⟨?_, hdes⟩
      intro v hv
      simp only [Pool.setWorker] at hv
      split_ifs at hv with hvw
      · subst hvw
        exact hwk _ hv
      · exact hwk v hv
    · rename_i w hdt
      simp only [Option.some.injEq] at hs
      subst hs
      refine ⟨?_, hdes⟩
      intro v hv
      simp only [Pool.setWorker] at hv
      split_ifs at hv with hvw
      · subst hvw
        exact hwk _ hv
      · exact hwk v hv
    · cases hs
  | worker w =>
    simp only at hs
    unfold stepWorker at hs
    by_cases hlt : w < p.totalNumThreads
    · rw [if_pos hlt] at hs
      split at hs
      · rename_i hpc
        split_ifs at hs
        simp only [Option.some.injEq] at hs
        subst hs
        refine ⟨?_, hdes⟩
        intro v hv
        simp only [Pool.setWorker] at hv
        split_ifs at hv with hvw
        · simp [holdsLock] at hv
        · exact hwk v hv
      · rename_i hpc
        split at hs
        · cases hs
        · rename_i hfree
          split_ifs at hs
          · simp only [Option.some.injEq] at hs
            subst hs
            refine ⟨?_, hdes⟩
            intro v hv
            simp only [Pool.setWorker] at hv
            split_ifs at hv with hvw
            · simp [holdsLock] at hv
            · exact hwk v hv
          · simp only [Option.some.injEq] at hs
            subst hs
            constructor
            · intro v hv
              simp only [Pool.setWorker] at hv
              split_ifs at hv with hvw
              · rw [hvw]
              · have := hwk v hv
                rw [hfree] at this
                cases this
            · intro hd
              have := hdes hd
              rw [hfree] at this
              cases this
      · rename_i hpc
        have hown := hwk w (by simp [hpc, holdsLock])
        split at hs
        · simp only [Option.some.injEq] at hs
          subst hs
          exact ⟨hwk, hdes⟩
        · split_ifs at hs
          · simp only [Option.some.injEq] at hs
            subst hs
            exact ⟨hwk, hdes⟩
          · simp only [Option.some.injEq] at hs
            subst hs
            refine ⟨?_, hdes⟩
            intro v hv
            simp only [Pool.setWorker] at hv
            split_ifs at hv with hvw
            · rw [hvw]
              exact hown
            · exact hwk v hv
      · rename_i hpc
        have hown := hwk w (by simp [hpc, holdsLock])
        simp only [Option.some.injEq] at hs
        subst hs
        refine ⟨?_, hdes⟩
        intro v hv
        simp only [Pool.setWorker] at hv
        split_ifs at hv with hvw
        · rw [hvw]
          exact hown
        · exact hwk v hv
      · rename_i hpc
        have hown := hwk w (by simp [hpc, holdsLock])
        simp only [Option.some.injEq] at hs
        subst hs
        constructor
        · intro v hv
          simp only [Pool.setWorker] at hv
          split_ifs at hv with hvw
          · simp [holdsLock] at hv
          · have := hwk v hv
            rw [hown] at this
            simp only [Option.some.injEq, LockOwner.worker.injEq] at this
            exact absurd this.symm hvw
        · intro hd
          have := hdes hd
          rw [hown] at this
          cases this
      · cases hs
    · rw [if_neg hlt] at hs
      cases hs

theorem lockInv_run (trace : List Action) (p q : Pool) (h : LockInv p)
    (hr : run p trace = some q) : LockInv q := by
  induction trace generalizing p with
  | nil =>
    simp only [run, Option.some.injEq] at hr
    exact hr ▸ h
  | cons a rest ih =>
    simp only [run] at hr
    cases hs : step p a with
    | none => rw [hs] at hr; cases hr
    | some p2 =>
      rw [hs] at hr
      exact ih p2 (lockInv_step p p2 a h hs) hr

/-- C16. One job at a time per pool: in every state that a pool of any number of workers
reaches by any interleaving of `schedule` calls, dispatcher steps, worker steps and steps
of a caller inside `wait()` or inside the destructor, a worker that stands at the call of
its thunk, at the push of its id or at the end of that iteration holds `sLock`; hence at
most one worker is at the call of a thunk, and no worker is there while another one has
not yet left the iteration in which it ran its thunk, or while the destructor holds
`sLock`. -/
theorem one_job_at_a_time (n : Nat) (trace : List Action) (q : Pool)
    (hr : run (Pool.init n) trace = some q) :
    (∀ w, holdsLock (q.workers w).pc = true → q.sLock = some (LockOwner.worker w)) ∧
    (∀ w v, (q.workers w).pc = WorkerPc.run → (q.workers v).pc = WorkerPc.run → w = v) ∧
    (∀ w v, (q.workers w).pc = WorkerPc.run → holdsLock (q.workers v).pc = true → w = v) ∧
    (destructorLocked q.caller = true → ∀ w, (q.workers w).pc ≠ WorkerPc.run) := by
  have hinv := lockInv_run trace _ q (lockInv_init n) hr
  have hexcl : ∀ w v, holdsLock (q.workers w).pc = true →
      holdsLock (q.workers v).pc = true → w = v := by
    intro w v hw hv
    have h1 := hinv.workers w hw
    have h2 := hinv.workers v hv
    rw [h1] at h2
    simpa using h2
  refine ⟨hinv.workers, ?_, ?_, ?_⟩
  · intro w v hw hv
    exact hexcl w v (by simp [hw, holdsLock]) (by simp [hv, holdsLock])
  · intro w v hw hv
    exact hexcl w v (by simp [hw, holdsLock]) hv
  · intro hd w hw
    have h1 := hinv.workers w (by simp [hw, holdsLock])
    have h2 := hinv.destructor hd
    rw [h1] at h2
    cases h2

/-- The interleaving `twoWorkersTrace` on a pool of two workers can be taken; in the
state it reaches worker 0 stands at the call of its thunk and holds `sLock`, and worker
1, which has its own thunk, waits for the lock. -/
theorem one_job_at_a_time_witness :
    run (Pool.init 2) twoWorkersTrace = some (runFrom (Pool.init 2) twoWorkersTrace) ∧
    ((runFrom (Pool.init 2) twoWorkersTrace).workers 0).pc = WorkerPc.run ∧
    ((runFrom (Pool.init 2) twoWorkersTrace).workers 1).pc = WorkerPc.waitLock ∧
    (runFrom (Pool.init 2) twoWorkersTrace).sLock = some (LockOwner.worker 0) ∧
    step (runFrom (Pool.init 2) twoWorkersTrace) (Action.worker 1) = none ∧
    (∀ w v, ((runFrom (Pool.init 2) twoWorkersTrace).workers w).pc = WorkerPc.run →
      ((runFrom (Pool.init 2) twoWorkersTrace).workers v).pc = WorkerPc.run → w = v) :=
  ⟨rfl, rfl, rfl, rfl, rfl,
   (one_job_at_a_time 2 twoWorkersTrace (runFrom (Pool.init 2) twoWorkersTrace) rfl).2.1⟩

end ThreadPool

namespace NewsAggregator

/-! ## Order independence of the deduper -/

theorem tally_nil {α : Type} [DecidableEq α] (x : α) : tally x ([] : List α) = 0 := rfl

theorem tally_cons_self {α : Type} [DecidableEq α] (x : α) (l : List α) :
    tally x (x :: l) = tally x l + 1 := by
  unfold tally
  exact List.count_cons_self x l

theorem tally_cons_of_ne {α : Type} [DecidableEq α] (x a : α) (l : List α) (h : x ≠ a) :
    tally x (a :: l) = tally x l := by
  unfold tally
  exact List.count_cons_of_ne h l

theorem tally_append {α : Type} [DecidableEq α] (x : α) (l1 l2 : List α) :
    tally x (l1 ++ l2) = tally x l1 + tally x l2 := by
  unfold tally
  exact List.count_append x l1 l2

theorem tally_eq_zero {α : Type} [DecidableEq α] (x : α) (l : List α) (h : x ∉ l) :
    tally x l = 0 := by
  unfold tally
  exact List.count_eq_zero_of_not_mem h

theorem perm_of_tally {α : Type} [DecidableEq α] (l1 l2 : List α)
    (h : ∀ x, tally x l1 = tally x l2) : l1.Perm l2 :=
  List.perm_iff_count.mpr h

theorem tally_of_perm {α : Type} [DecidableEq α] (l1 l2 : List α) (h : l1.Perm l2) (x : α) :
    tally x l1 = tally x l2 :=
  h.count_eq x

theorem tally_eq_zero_of_lt_head (x b : Str) (bs : List Str)
    (h : (b :: bs).Sorted (fun u v => u ≤ v)) (hx : x < b) : tally x (b :: bs) = 0 := by
  apply tally_eq_zero
  intro hm
  have hb := List.sorted_cons.mp h
  rcases List.mem_cons.mp hm with rfl | hm
  · exact lt_irrefl _ hx
  · exact absurd (hb.1 _ hm) (not_le.mpr hx)

/-- On ascending inputs the merge keeps every string as often as the input that has it
less often. -/
theorem tally_set_intersection (l1 l2 : List Str)
    (h1 : l1.Sorted (fun u v => u ≤ v)) (h2 : l2.Sorted (fun u v => u ≤ v)) (x : Str) :
    tally x (set_intersection l1 l2) = min (tally x l1) (tally x l2) := by
  induction l1 generalizing l2 with
  | nil => simp [set_intersection_nil_left, tally_nil]
  | cons a as ih =>
    induction l2 with
    | nil => simp [set_intersection_nil_right, tally_nil]
    | cons b bs ih2 =>
      have ha := List.sorted_cons.mp h1
      have hb := List.sorted_cons.mp h2
      rw [set_intersection_cons_cons]
      split_ifs with hab hba
      · rw [ih _ ha.2 h2]
        by_cases hxa : x = a
        · subst hxa
          have h0 := tally_eq_zero_of_lt_head x b bs h2 hab
          simp [h0]
        · rw [tally_cons_of_ne x a as hxa]
      · rw [ih2 hb.2]
        by_cases hxb : x = b
        · subst hxb
          have h0 := tally_eq_zero_of_lt_head x a as h1 hba
          simp [h0]
        · rw [tally_cons_of_ne x b bs hxb]
      · have hEq : a = b := le_antisymm (not_lt.mp hba) (not_lt.mp hab)
        subst hEq
        by_cases hxa : x = a
        · subst hxa
          rw [tally_cons_self, tally_cons_self, tally_cons_self, ih _ ha.2 hb.2]
          omega
        · rw [tally_cons_of_ne x a _ hxa, tally_cons_of_ne x a _ hxa,
            tally_cons_of_ne x a _ hxa, ih _ ha.2 hb.2]

theorem tally_sort (v : List Str) (x : Str) : tally x (sort v) = tally x v :=
  tally_of_perm _ _ (sort_perm v) x

theorem set_intersection_sorted (l1 l2 : List Str) (h1 : l1.Sorted (fun u v => u ≤ v)) :
    (set_intersection l1 l2).Sorted (fun u v => u ≤ v) :=
  h1.sublist (set_intersection_sublist l1 l2)

theorem eq_of_sorted_of_tally (l1 l2 : List Str) (h1 : l1.Sorted (fun u v => u ≤ v))
    (h2 : l2.Sorted (fun u v => u ≤ v)) (h : ∀ x, tally x l1 = tally x l2) : l1 = l2 :=
  List.eq_of_perm_of_sorted (perm_of_tally _ _ h) h1 h2

theorem article_lt_iff_key (a b : Article) : a < b ↔ a.key < b.key := by
  rw [article_lt_iff, Article.key, Article.key, Prod.Lex.lt_iff]

theorem article_key_injective (a b : Article) (h : a.key = b.key) : a = b := by
  unfold Article.key at h
  have h2 : (a.title, a.url) = (b.title, b.url) := toLex.injective h
  cases a
  cases b
  simp only [Prod.mk.injEq] at h2
  simp [h2.1, h2.2]

theorem key_stdMin (a b : Article) : (stdMin a b).key = min a.key b.key := by
  unfold stdMin
  split_ifs with h
  · rw [article_lt_iff_key] at h
    exact (min_eq_right (le_of_lt h)).symm
  · rw [article_lt_iff_key] at h
    exact (min_eq_left (not_lt.mp h)).symm

theorem stdMin_comm (a b : Article) : stdMin a b = stdMin b a := by
  apply article_key_injective
  rw [key_stdMin, key_stdMin, min_comm]

theorem stdMin_right_comm (a b c : Article) :
    stdMin (stdMin a b) c = stdMin (stdMin a c) b := by
  apply article_key_injective
  rw [key_stdMin, key_stdMin, key_stdMin, key_stdMin, min_right_comm]

end NewsAggregator

namespace NewsAggregator

theorem lookup_observe (m : ArticleMap) (o : Observation) (s t : Str) :
    lookup (observe m o.server o.article o.tokens) s t =
      if s = o.server ∧ t = o.article.title then some (mergeEntry (lookup m s t) o)
      else lookup m s t := by
  unfold observe dedupUpdate
  split_ifs with hk
  · obtain ⟨rfl, rfl⟩ := hk
    cases hl : lookup m o.server o.article.title with
    | none => simp [lookup_assign_self, mergeEntry]
    | some v =>
      obtain ⟨old, oldToks⟩ := v
      simp [lookup_assign_self, mergeEntry]
  · split <;> exact lookup_assign_ne _ _ _ _ _ _ _ hk

theorem mapSet_ne_nil {β : Type} (k : Str) (v : β) (l : List (Str × β)) :
    mapSet k v l ≠ [] := by
  cases l with
  | nil => simp [mapSet]
  | cons e rest =>
    obtain ⟨k', v'⟩ := e
    simp only [mapSet]
    split_ifs <;> simp

theorem innerNonempty_assign (m : ArticleMap) (s t : Str) (a : Article) (toks : List Str)
    (h : InnerNonempty m) : InnerNonempty (assign m s t a toks) := by
  intro st hst
  rcases mem_mapSet _ _ _ _ hst with rfl | hst
  · exact mapSet_ne_nil _ _ _
  · exact h st hst

theorem innerNonempty_observe (m : ArticleMap) (o : Observation) (h : InnerNonempty m) :
    InnerNonempty (observe m o.server o.article o.tokens) := by
  unfold observe dedupUpdate
  split <;> exact innerNonempty_assign _ _ _ _ _ h

theorem mapFind_none_of_lt {β : Type} (k : Str) (l : List (Str × β))
    (h : ∀ e ∈ l, k < e.1) : mapFind k l = none := by
  induction l with
  | nil => rfl
  | cons e rest ih =>
    obtain ⟨k', v'⟩ := e
    have hk := h (k', v') (List.mem_cons_self _ _)
    simp only [mapFind, if_neg (ne_of_gt hk)]
    exact ih (fun e he => h e (List.mem_cons_of_mem _ he))

/-- Two `std::map`s in which `find` gives the same answer for every key are the same
sequence of entries. -/
theorem mapFind_ext {β : Type} (l1 l2 : List (Str × β)) (h1 : SortedKeys l1)
    (h2 : SortedKeys l2) (h : ∀ k, mapFind k l1 = mapFind k l2) : l1 = l2 := by
  induction l1 generalizing l2 with
  | nil =>
    cases l2 with
    | nil => rfl
    | cons e rest =>
      obtain ⟨k, v⟩ := e
      have := h k
      simp [mapFind] at this
  | cons e1 r1 ih =>
    obtain ⟨k1, v1⟩ := e1
    cases l2 with
    | nil =>
      have := h k1
      simp [mapFind] at this
    | cons e2 r2 =>
      obtain ⟨k2, v2⟩ := e2
      unfold SortedKeys at h1 h2
      simp only [List.map_cons, List.pairwise_cons] at h1 h2
      have hr1 : ∀ e ∈ r1, k1 < e.1 := fun e he => h1.1 e.1 (List.mem_map_of_mem _ he)
      have hr2 : ∀ e ∈ r2, k2 < e.1 := fun e he => h2.1 e.1 (List.mem_map_of_mem _ he)
      have hkeys : k1 = k2 := by
        rcases lt_trichotomy k1 k2 with hlt | heq | hgt
        · exfalso
          have := h k1
          simp only [mapFind, if_true, if_neg (ne_of_gt hlt)] at this
          rw [mapFind_none_of_lt k1 r2 (fun e he => lt_trans hlt (hr2 e he))] at this
          cases this
        · exact heq
        · exfalso
          have := h k2
          simp only [mapFind, if_true, if_neg (ne_of_gt hgt)] at this
          rw [mapFind_none_of_lt k2 r1 (fun e he => lt_trans hgt (hr1 e he))] at this
          cases this
      subst hkeys
      have hv : v1 = v2 := by
        have := h k1
        simpa [mapFind] using this
      subst hv
      have hrest : r1 = r2 := by
        apply ih r2 h1.2 h2.2
        intro k
        by_cases hk : k1 = k
        · subst hk
          rw [mapFind_none_of_lt k1 r1 hr1, mapFind_none_of_lt k1 r2 hr2]
        · have := h k
          simpa [mapFind, hk] using this
      rw [hrest]

/-- Two deduper maps in which `find` reaches the same entry for every `(server, title)`
are the same map. -/
theorem articleMap_ext (m1 m2 : ArticleMap) (h1 : WellFormed m1) (h2 : WellFormed m2)
    (n1 : InnerNonempty m1) (n2 : InnerNonempty m2)
    (h : ∀ s t, lookup m1 s t = lookup m2 s t) : m1 = m2 := by
  apply mapFind_ext m1 m2 h1.1 h2.1
  intro s
  have hfirst : ∀ (m : ArticleMap) (tm : TitleMap), InnerNonempty m → mapFind s m = some tm →
      ∃ t v, lookup m s t = some v := by
    intro m tm hn hf
    have hmem := mapFind_some_mem _ _ _ hf
    have hne := hn _ hmem
    cases tm with
    | nil => exact absurd rfl hne
    | cons e rest =>
      obtain ⟨t, v⟩ := e
      exact ⟨t, v, by simp [lookup, hf, mapFind]⟩
  cases hf1 : mapFind s m1 with
  | none =>
    cases hf2 : mapFind s m2 with
    | none => rfl
    | some tm2 =>
      exfalso
      obtain ⟨t, v, hl⟩ := hfirst m2 tm2 n2 hf2
      have := h s t
      rw [hl] at this
      simp [lookup, hf1] at this
  | some tm1 =>
    cases hf2 : mapFind s m2 with
    | none =>
      exfalso
      obtain ⟨t, v, hl⟩ := hfirst m1 tm1 n1 hf1
      have := h s t
      rw [hl] at this
      simp [lookup, hf2] at this
    | some tm2 =>
      have hs1 := h1.2 _ (mapFind_some_mem _ _ _ hf1)
      have hs2 := h2.2 _ (mapFind_some_mem _ _ _ hf2)
      have : tm1 = tm2 := by
        apply mapFind_ext tm1 tm2 hs1 hs2
        intro t
        have := h s t
        simpa [lookup, hf1, hf2] using this
      rw [this]

theorem wellFormed_observe (m : ArticleMap) (o : Observation) (h : WellFormed m) :
    WellFormed (observe m o.server o.article o.tokens) :=
  wellFormed_dedupUpdate _ _ _ _ h

theorem mergeEntry_comm (old : Option (Article × List Str)) (o1 o2 : Observation) :
    mergeEntry (some (mergeEntry old o1)) o2 = mergeEntry (some (mergeEntry old o2)) o1 := by
  have htoks : ∀ (X Y Z : List Str),
      set_intersection (sort (set_intersection (sort X) (sort Y))) (sort Z)
        = set_intersection (sort (set_intersection (sort X) (sort Z))) (sort Y) := by
    intro X Y Z
    apply eq_of_sorted_of_tally
    · exact set_intersection_sorted _ _ (sort_sorted _)
    · exact set_intersection_sorted _ _ (sort_sorted _)
    · intro x
      simp only [tally_set_intersection _ _ (sort_sorted _) (sort_sorted _), tally_sort]
      omega
  cases old with
  | none =>
    simp only [mergeEntry]
    rw [stdMin_comm]
    congr 1
    apply eq_of_sorted_of_tally
    · exact set_intersection_sorted _ _ (sort_sorted _)
    · exact set_intersection_sorted _ _ (sort_sorted _)
    · intro x
      simp only [tally_set_intersection _ _ (sort_sorted _) (sort_sorted _), tally_sort]
      omega
  | some v =>
    obtain ⟨a, toks⟩ := v
    simp only [mergeEntry]
    rw [stdMin_right_comm, htoks]

/-- On a `std::map` two deduper updates give the same map in either order. -/
theorem observe_comm (m : ArticleMap) (o1 o2 : Observation) (hwf : WellFormed m)
    (hne : InnerNonempty m) :
    observe (observe m o1.server o1.article o1.tokens) o2.server o2.article o2.tokens =
      observe (observe m o2.server o2.article o2.tokens) o1.server o1.article o1.tokens := by
  apply articleMap_ext
  · exact wellFormed_observe _ _ (wellFormed_observe _ _ hwf)
  · exact wellFormed_observe _ _ (wellFormed_observe _ _ hwf)
  · exact innerNonempty_observe _ _ (innerNonempty_observe _ _ hne)
  · exact innerNonempty_observe _ _ (innerNonempty_observe _ _ hne)
  · intro s t
    rw [lookup_observe (observe m o1.server o1.article o1.tokens) o2 s t,
      lookup_observe m o1 s t,
      lookup_observe (observe m o2.server o2.article o2.tokens) o1 s t,
      lookup_observe m o2 s t]
    by_cases hk1 : s = o1.server ∧ t = o1.article.title
    · by_cases hk2 : s = o2.server ∧ t = o2.article.title
      · simp only [if_pos hk1, if_pos hk2]
        rw [mergeEntry_comm]
      · simp only [if_pos hk1, if_neg hk2]
    · by_cases hk2 : s = o2.server ∧ t = o2.article.title
      · simp only [if_neg hk1, if_pos hk2]
      · simp only [if_neg hk1, if_neg hk2]

theorem observeAll_perm (obs1 obs2 : List Observation) (h : obs1.Perm obs2) :
    ∀ m : ArticleMap, WellFormed m → InnerNonempty m →
      observeAll m obs1 = observeAll m obs2 := by
  induction h with
  | nil => intro m _ _; rfl
  | cons o _ ih =>
    intro m hwf hne
    exact ih _ (wellFormed_observe m o hwf) (innerNonempty_observe m o hne)
  | swap o1 o2 l =>
    intro m hwf hne
    simp only [observeAll, List.foldl_cons]
    rw [observe_comm m o2 o1 hwf hne]
  | trans _ _ ih1 ih2 =>
    intro m hwf hne
    exact (ih1 m hwf hne).trans (ih2 m hwf hne)

/-- C15. Deduper order independence: for every finite list of observations and every
rearrangement of it, the deduper updates applied one after another from the empty
`ArticleMap` end in the same map: the same entries in the same order, with the same
canonical article and the same token list, repetitions included. -/
theorem deduper_order_independent (obs1 obs2 : List Observation) (h : obs1.Perm obs2) :
    observeAll [] obs1 = observeAll [] obs2 :=
  observeAll_perm obs1 obs2 h [] wellFormed_nil (fun _ hst => by cases hst)

/-- Three observations, two of them in one group and one with a repeated word, taken
in two orders: the second order is a rearrangement of the first, C15 gives the same map,
and the map evaluates to the two entries shown. -/
theorem deduper_order_independent_witness :
    [scenarioX, scenarioRepeat, scenarioY].Perm [scenarioY, scenarioX, scenarioRepeat] ∧
    observeAll [] [scenarioX, scenarioRepeat, scenarioY]
      = observeAll [] [scenarioY, scenarioX, scenarioRepeat] ∧
    entries (observeAll [] [scenarioY, scenarioX, scenarioRepeat])
      = [("http://a".toList, "T".toList, scenarioX.article, ["k".toList, "p".toList]),
         ("http://a".toList, "Z".toList, scenarioRepeat.article,
           ["a".toList, "b".toList, "b".toList])] :=
  ⟨by decide,
   deduper_order_independent [scenarioX, scenarioRepeat, scenarioY]
     [scenarioY, scenarioX, scenarioRepeat] (by decide),
   by decide⟩

end NewsAggregator

namespace ThreadPool

theorem length_le_one_of_all_eq {α : Type} (l : List α) (hnd : l.Nodup)
    (h : ∀ a ∈ l, ∀ b ∈ l, a = b) : l.length ≤ 1 := by
  match l, hnd, h with
  | [], _, _ => exact Nat.zero_le _
  | [_], _, _ => exact Nat.le_refl _
  | a :: b :: rest, hnd, h =>
    have hab : a = b :=
      h a (List.mem_cons_self _ _) b (List.mem_cons_of_mem _ (List.mem_cons_self _ _))
    subst hab
    exact absurd (List.mem_cons_self _ _) (List.nodup_cons.mp hnd).1

theorem runningWorkers_length (p : Pool) (h : LockInv p) : (runningWorkers p).length ≤ 1 := by
  apply length_le_one_of_all_eq
  · exact (List.nodup_range _).filter _
  · intro a ha b hb
    have hpa : (p.workers a).pc = WorkerPc.run := by
      simpa using (List.mem_filter.mp ha).2
    have hpb : (p.workers b).pc = WorkerPc.run := by
      simpa using (List.mem_filter.mp hb).2
    have h1 := h.workers a (by simp [hpa, holdsLock])
    have h2 := h.workers b (by simp [hpb, holdsLock])
    rw [h1] at h2
    simpa using h2

theorem activeOn_le_one (serverOf : Nat → NewsAggregator.Str) (server : NewsAggregator.Str)
    (p : Pool) (h : LockInv p) : activeOn serverOf server p ≤ 1 :=
  Nat.le_trans (List.length_filter_le _ _) (runningWorkers_length p h)

end ThreadPool

namespace NewsAggregator

/-! ## The per-server permit -/

/-- C10, as stated, fails: on a fresh aggregator the url claim of the article
`http://a/x` succeeds, and the article job of the thread-pool variant goes from the
claim straight to the HTML parse; it waits on no semaphore, signals none, and leaves
`serverSemaphoreMap` empty. The same job of the variant that spawns threads creates the
semaphore of the server with `kNumPerServer` permits, waits on it before the parse and
signals it afterwards. -/
theorem pool_permit_counterexample :
    "http://a/x".toList ∉ (State.init []).urlSet ∧
    (ThreadPoolVariant.articleJob ThreadPoolVariant.sharedArticle
        { url := "http://a/x".toList, title := "T".toList } (State.init [])).events
      = [Event.htmlParse "http://a/x".toList] ∧
    (ThreadPoolVariant.articleJob ThreadPoolVariant.sharedArticle
        { url := "http://a/x".toList, title := "T".toList } (State.init [])).serverSemaphoreMap
      = [] ∧
    (ThreadsVariant.articleJob ThreadPoolVariant.sharedArticle
        { url := "http://a/x".toList, title := "T".toList } (State.init [])).map
        (fun s => (s.events, s.serverSemaphoreMap))
      = some ([Event.semWait "http://a".toList, Event.htmlParse "http://a/x".toList,
               Event.semSignal "http://a".toList],
              [("http://a".toList, 10)]) := by
  refine ⟨by decide, by decide, by decide, by decide⟩

/-- C10, amended. The thread-pool pipeline has no per-server permit. An article job
whose url claim succeeds derives the server from the url and goes straight to the HTML
download: its only collaborator call is the parse, on the success path the deduper is
updated under the derived server, on the failure path it is left alone, and no article
job waits on or signals a server semaphore or touches `serverSemaphoreMap`. The bound on
downloads holds through the pool instead: a worker calls its thunk holding `sLock`, so
in every state that a pool of any number of workers reaches by any interleaving at most
one article job is under execution, and so at most one download, which is within
`kNumPerServer`, is active against any one server. -/
theorem pool_downloads_without_permit :
    (∀ (c : Collaborators) (a : Article) (s : State), a.url ∉ s.urlSet →
      (ThreadPoolVariant.articleJob c a s).events = s.events ++ [Event.htmlParse a.url] ∧
      (ThreadPoolVariant.articleJob c a s).ArticleMap =
        match c.html a.url with
        | none => s.ArticleMap
        | some const_tokens => observe s.ArticleMap (c.getURLServer a.url) a const_tokens) ∧
    (∀ (c : Collaborators) (a : Article) (s : State) (server : Str),
      (ThreadPoolVariant.articleJob c a s).events.count (Event.semWait server)
        = s.events.count (Event.semWait server) ∧
      (ThreadPoolVariant.articleJob c a s).events.count (Event.semSignal server)
        = s.events.count (Event.semSignal server) ∧
      (ThreadPoolVariant.articleJob c a s).serverSemaphoreMap = s.serverSemaphoreMap) ∧
    (∀ (n : Nat) (trace : List ThreadPool.Action) (q : ThreadPool.Pool),
      ThreadPool.run (ThreadPool.Pool.init n) trace = some q →
      ∀ (serverOf : Nat → Str) (server : Str),
        ThreadPool.activeOn serverOf server q ≤ 1 ∧
        ThreadPool.activeOn serverOf server q ≤ kNumPerServer) := by
  refine ⟨?_, ?_, ?_⟩
  · intro c a s hin
    unfold ThreadPoolVariant.articleJob
    rw [if_neg hin]
    cases c.html a.url <;> exact ⟨rfl, rfl⟩
  · intro c a s server
    rw [ThreadPoolVariant.articleJob_events]
    refine ⟨?_, ?_, ?_⟩
    · split_ifs
      · rfl
      · simp [List.count_append, List.count_cons]
    · split_ifs
      · rfl
      · simp [List.count_append, List.count_cons]
    · unfold ThreadPoolVariant.articleJob
      split_ifs
      · rfl
      · cases c.html a.url <;> rfl
  · intro n trace q hr serverOf server
    have hinv := ThreadPool.lockInv_run trace _ q (ThreadPool.lockInv_init n) hr
    have h1 := ThreadPool.activeOn_le_one serverOf server q hinv
    refine ⟨h1, Nat.le_trans h1 ?_⟩
    unfold kNumPerServer
    decide

/-- The article `http://a/x` on a fresh aggregator: the claim succeeds and the theorem
gives the parse as the only call of the job. And the interleaving `twoWorkersTrace` on a
pool of two workers, both thunks being article jobs for the server `http://a`: it can be
taken, one job is under execution in the state it reaches while the other waits for
`sLock`, and the theorem bounds the jobs under execution. -/
theorem pool_downloads_without_permit_witness :
    ("http://a/x".toList ∉ (State.init []).urlSet ∧
      (ThreadPoolVariant.articleJob ThreadPoolVariant.sharedArticle
          { url := "http://a/x".toList, title := "T".toList } (State.init [])).events
        = (State.init []).events ++ [Event.htmlParse "http://a/x".toList]) ∧
    (ThreadPool.run (ThreadPool.Pool.init 2) ThreadPool.twoWorkersTrace
        = some (ThreadPool.runFrom (ThreadPool.Pool.init 2) ThreadPool.twoWorkersTrace) ∧
      ThreadPool.activeOn (fun _ => "http://a".toList) "http://a".toList
        (ThreadPool.runFrom (ThreadPool.Pool.init 2) ThreadPool.twoWorkersTrace) = 1 ∧
      ThreadPool.activeOn (fun _ => "http://a".toList) "http://a".toList
        (ThreadPool.runFrom (ThreadPool.Pool.init 2) ThreadPool.twoWorkersTrace)
          ≤ kNumPerServer) :=
  ⟨⟨by decide,
    (pool_downloads_without_permit.1 ThreadPoolVariant.sharedArticle
      { url := "http://a/x".toList, title := "T".toList } (State.init []) (by decide)).1⟩,
   ⟨rfl, by decide,
    (pool_downloads_without_permit.2.2 2 ThreadPool.twoWorkersTrace
      (ThreadPool.runFrom (ThreadPool.Pool.init 2) ThreadPool.twoWorkersTrace) rfl
      (fun _ => "http://a".toList) "http://a".toList).2⟩⟩

end NewsAggregator

namespace StreamTokenizer

/-! ## The tokenizer -/

theorem toChar_plain (b : Nat) (h : Plain b) :
    toChar true (b : Int) ≠ EOF ∧ (b : Int) ≠ EOF ∧
    byteOf (toChar true (b : Int)) = b ∧ byteOf (b : Int) = b ∧
    toChar true (toChar true (b : Int)) = toChar true (b : Int) := by
  unfold Plain at h
  simp only [toChar, EOF, byteOf, if_true]
  refine ⟨?_, ?_, ?_, ?_, ?_⟩ <;> omega

theorem toChar_eof : toChar true EOF = EOF := by
  decide

theorem isDelimiter_plain (delims : List Nat) (b : Nat) (h : Plain b) :
    isDelimiter delims (toChar true (b : Int)) = delims.contains b ∧
    isDelimiter delims (b : Int) = delims.contains b := by
  unfold isDelimiter
  rw [(toChar_plain b h).2.2.1, (toChar_plain b h).2.2.2.1]
  exact ⟨rfl, rfl⟩

theorem getNextChar_saved (delims : List Nat) (t : Tokenizer) (b : Nat) (rest : List Nat)
    (h : Rep delims t (some b) rest) :
    (getNextChar t).1 = toChar true (b : Int) ∧ Rep delims (getNextChar t).2 none rest := by
  obtain ⟨h1, h2, h3, h4, h5, h6⟩ := h
  have hp := toChar_plain b h5
  have hne : t.saved ≠ EOF := by
    rcases h6 with e | e <;> rw [e]
    · exact hp.2.1
    · exact hp.1
  have e : getNextChar t = (toChar t.signedChar t.saved, { t with saved := EOF }) := by
    unfold getNextChar
    rw [if_pos hne]
  rw [e]
  refine ⟨?_, ⟨h1, h2, h3, h4, rfl⟩⟩
  show toChar t.signedChar t.saved = toChar true (b : Int)
  rw [h2]
  rcases h6 with e6 | e6 <;> rw [e6]
  exact hp.2.2.2.2

theorem getNextChar_cons (delims : List Nat) (t : Tokenizer) (b : Nat) (l : List Nat)
    (h : Rep delims t none (b :: l)) :
    (getNextChar t).1 = (b : Int) ∧ Rep delims (getNextChar t).2 none l := by
  obtain ⟨h1, h2, h3, h4, h5⟩ := h
  have h5b : t.saved = EOF := h5
  have e : getNextChar t = ((b : Int), { t with is := l }) := by
    unfold getNextChar
    rw [if_neg (fun hn => hn h5b), h4]
  rw [e]
  exact ⟨rfl, ⟨h1, h2, h3, rfl, h5b⟩⟩

theorem getNextChar_nil (delims : List Nat) (t : Tokenizer) (h : Rep delims t none []) :
    (getNextChar t).1 = EOF ∧ (getNextChar t).2 = t := by
  obtain ⟨h1, h2, h3, h4, h5⟩ := h
  have h5b : t.saved = EOF := h5
  have e : getNextChar t = (EOF, t) := by
    unfold getNextChar
    rw [if_neg (fun hn => hn h5b), h4]
  rw [e]
  exact ⟨rfl, rfl⟩

end StreamTokenizer

namespace StreamTokenizer

theorem rep_set_saved (delims : List Nat) (t : Tokenizer) (rest : List Nat) (b : Nat)
    (v : Int) (h : Rep delims t none rest) (hb : Plain b)
    (hv : v = (b : Int) ∨ v = toChar true (b : Int)) :
    Rep delims { t with saved := v } (some b) rest :=
  ⟨h.delims, h.signed, h.skip, h.stream, hb, hv⟩

/-- With enough passes the loop of `hasMoreTokens` skips the delimiters at the front of
what is left to read, answers whether anything is left, and saves the first byte that is
not a delimiter. -/
theorem skipLoop_spec (delims : List Nat) (fuel : Nat) :
    ∀ (t : Tokenizer) (pend : Option Nat) (rest : List Nat),
      Rep delims t pend rest → (∀ b ∈ rest, Plain b) →
      (pend.toList ++ rest).length < fuel →
      ∃ t2, skipLoop fuel t =
          some (!((pend.toList ++ rest).dropWhile (isDelimByte delims)).isEmpty, t2) ∧
        Rep delims t2 ((pend.toList ++ rest).dropWhile (isDelimByte delims)).head?
          ((pend.toList ++ rest).dropWhile (isDelimByte delims)).tail := by
  induction fuel with
  | zero => intro t pend rest _ _ hlen; omega
  | succ fuel ih =>
    intro t pend rest hrep hplain hlen
    cases pend with
    | some b =>
      obtain ⟨hch, hrep1⟩ := getNextChar_saved delims t b rest hrep
      have hb : Plain b := hrep.saved.1
      have hp := toChar_plain b hb
      have hdel := (isDelimiter_plain delims b hb).1
      simp only [Option.toList, List.singleton_append, List.length_cons] at hlen ⊢
      unfold skipLoop
      rw [hch, if_neg hp.1, hrep.delims, hdel]
      by_cases hpb : delims.contains b = true
      · have hyes : isDelimByte delims b = true := hpb
        rw [if_pos hpb, List.dropWhile_cons_of_pos hyes]
        exact ih (getNextChar t).2 none rest hrep1 hplain (Nat.lt_of_succ_lt_succ hlen)
      · have hno : ¬ (isDelimByte delims b = true) := hpb
        rw [if_neg hpb, List.dropWhile_cons_of_neg hno]
        exact ⟨_, rfl, rep_set_saved delims _ rest b _ hrep1 hb (Or.inr rfl)⟩
    | none =>
      cases rest with
      | nil =>
        obtain ⟨hch, ht⟩ := getNextChar_nil delims t hrep
        unfold skipLoop
        rw [hch, if_pos rfl, ht]
        exact ⟨t, rfl, hrep⟩
      | cons b l =>
        obtain ⟨hch, hrep1⟩ := getNextChar_cons delims t b l hrep
        have hb : Plain b := hplain b (List.mem_cons_self _ _)
        have hp := toChar_plain b hb
        have hdel := (isDelimiter_plain delims b hb).2
        simp only [Option.toList, List.nil_append, List.length_cons] at hlen ⊢
        unfold skipLoop
        rw [hch, if_neg hp.2.1, hrep.delims, hdel]
        by_cases hpb : delims.contains b = true
        · have hyes : isDelimByte delims b = true := hpb
          rw [if_pos hpb, List.dropWhile_cons_of_pos hyes]
          exact ih (getNextChar t).2 none l hrep1
            (fun x hx => hplain x (List.mem_cons_of_mem _ hx)) (Nat.lt_of_succ_lt_succ hlen)
        · have hno : ¬ (isDelimByte delims b = true) := hpb
          rw [if_neg hpb, List.dropWhile_cons_of_neg hno]
          exact ⟨_, rfl, rep_set_saved delims _ l b _ hrep1 hb (Or.inl rfl)⟩

/-- With enough passes the loop of `nextToken` appends the bytes up to the next
delimiter or the end of the stream, and stops with that delimiter, or with `EOF`, in
`ch`. -/
theorem tokenLoop_spec (delims : List Nat) (fuel : Nat) :
    ∀ (t : Tokenizer) (rest token : List Nat),
      Rep delims t none rest → (∀ b ∈ rest, Plain b) → rest.length < fuel →
      ∃ t2 ch, tokenLoop fuel t token =
          some (ch, token ++ rest.takeWhile (notDelimByte delims), t2) ∧
        Rep delims t2 none (rest.dropWhile (notDelimByte delims)).tail ∧
        (match (rest.dropWhile (notDelimByte delims)).head? with
          | none => ch = EOF
          | some d => ch = toChar true (d : Int) ∧ Plain d) := by
  induction fuel with
  | zero => intro t rest token _ _ hlen; omega
  | succ fuel ih =>
    intro t rest token hrep hplain hlen
    cases rest with
    | nil =>
      obtain ⟨hch, ht⟩ := getNextChar_nil delims t hrep
      unfold tokenLoop
      rw [hch, hrep.signed, toChar_eof, if_pos (Or.inl rfl), ht]
      exact ⟨t, EOF, by rw [List.takeWhile_nil, List.append_nil], hrep, rfl⟩
    | cons b l =>
      obtain ⟨hch, hrep1⟩ := getNextChar_cons delims t b l hrep
      have hb : Plain b := hplain b (List.mem_cons_self _ _)
      have hp := toChar_plain b hb
      have hdel := (isDelimiter_plain delims b hb).1
      unfold tokenLoop
      rw [hch, hrep.signed, hrep.delims, hdel, hp.2.2.1]
      by_cases hpb : delims.contains b = true
      · rw [if_pos (Or.inr hpb)]
        have hnot : ¬ (notDelimByte delims b = true) := by
          unfold notDelimByte
          rw [hpb]
          decide
        rw [List.takeWhile_cons_of_neg hnot, List.dropWhile_cons_of_neg hnot]
        exact ⟨_, _, by rw [List.append_nil], hrep1, rfl, hb⟩
      · have hcond : ¬ (toChar true (b : Int) = EOF ∨ delims.contains b = true) := by
          rintro (h | h)
          · exact hp.1 h
          · exact hpb h
        rw [if_neg hcond]
        have hyes : notDelimByte delims b = true := by
          unfold notDelimByte
          cases hc : delims.contains b
          · rfl
          · exact absurd hc hpb
        rw [List.takeWhile_cons_of_pos hyes, List.dropWhile_cons_of_pos hyes]
        obtain ⟨t2, ch, h1, h2, h3⟩ := ih (getNextChar t).2 l (token ++ [b]) hrep1
          (fun x hx => hplain x (List.mem_cons_of_mem _ hx)) (Nat.lt_of_succ_lt_succ hlen)
        refine ⟨t2, ch, ?_, h2, h3⟩
        rw [h1, List.append_assoc]
        rfl

end StreamTokenizer

namespace StreamTokenizer

theorem notDelimByte_eq (delims : List Nat) (b : Nat) :
    notDelimByte delims b = !isDelimByte delims b := rfl

theorem maximalRuns_nil (delims : List Nat) : maximalRuns delims [] = [] := rfl

theorem maximalRuns_cons_delim (delims : List Nat) (b : Nat) (l : List Nat)
    (h : isDelimByte delims b = true) : maximalRuns delims (b :: l) = maximalRuns delims l := by
  unfold maximalRuns
  rw [List.splitOnP_cons, if_pos h]
  rfl

theorem splitOnP_head (delims : List Nat) (l : List Nat) :
    ∃ T, l.splitOnP (isDelimByte delims) = l.takeWhile (notDelimByte delims) :: T ∧
      T.filter (fun r => !r.isEmpty) = maximalRuns delims (l.dropWhile (notDelimByte delims)) := by
  induction l with
  | nil => exact ⟨[], rfl, rfl⟩
  | cons x l ih =>
    obtain ⟨T, hT, hF⟩ := ih
    cases hx : isDelimByte delims x with
    | true =>
      have hnot : ¬ (notDelimByte delims x = true) := by
        rw [notDelimByte_eq, hx]
        decide
      refine ⟨l.splitOnP (isDelimByte delims), ?_, ?_⟩
      · rw [List.splitOnP_cons, if_pos hx, List.takeWhile_cons_of_neg hnot]
      · rw [List.dropWhile_cons_of_neg hnot, maximalRuns_cons_delim delims x l hx]
        rfl
    | false =>
      have hyes : notDelimByte delims x = true := by
        rw [notDelimByte_eq, hx]
        rfl
      refine ⟨T, ?_, ?_⟩
      · rw [List.splitOnP_cons, hx, hT, List.takeWhile_cons_of_pos hyes]
        rfl
      · rw [List.dropWhile_cons_of_pos hyes]
        exact hF

theorem maximalRuns_cons_plain (delims : List Nat) (b : Nat) (l : List Nat)
    (h : isDelimByte delims b = false) :
    maximalRuns delims (b :: l) =
      (b :: l.takeWhile (notDelimByte delims)) ::
        maximalRuns delims (l.dropWhile (notDelimByte delims)) := by
  obtain ⟨T, hT, hF⟩ := splitOnP_head delims l
  unfold maximalRuns at hF ⊢
  rw [List.splitOnP_cons, h, hT, ← hF]
  rfl

theorem maximalRuns_dropWhile (delims : List Nat) (l : List Nat) :
    maximalRuns delims (l.dropWhile (isDelimByte delims)) = maximalRuns delims l := by
  induction l with
  | nil => rfl
  | cons x l ih =>
    cases hx : isDelimByte delims x with
    | true =>
      rw [List.dropWhile_cons_of_pos hx, ih, maximalRuns_cons_delim delims x l hx]
    | false =>
      have hno : ¬ (isDelimByte delims x = true) := by rw [hx]; decide
      rw [List.dropWhile_cons_of_neg hno]

theorem dropWhile_head_not {α : Type} (p : α → Bool) (l : List α) (b : α) (r : List α)
    (h : l.dropWhile p = b :: r) : p b = false := by
  induction l with
  | nil => cases h
  | cons x l ih =>
    cases hx : p x with
    | true =>
      rw [List.dropWhile_cons_of_pos hx] at h
      exact ih h
    | false =>
      have hno : ¬ (p x = true) := by rw [hx]; decide
      rw [List.dropWhile_cons_of_neg hno] at h
      injection h with h1 _
      rw [← h1]
      exact hx

theorem head_toList_append_tail {α : Type} (l : List α) : l.head?.toList ++ l.tail = l := by
  cases l <;> rfl

theorem mem_of_mem_dropWhile {α : Type} (p : α → Bool) (l : List α) (x : α)
    (h : x ∈ l.dropWhile p) : x ∈ l :=
  (List.dropWhile_sublist p).subset h

theorem length_dropWhile_le {α : Type} (p : α → Bool) (l : List α) :
    (l.dropWhile p).length ≤ l.length :=
  (List.dropWhile_sublist p).length_le

/-- No run is empty and no run contains a delimiter. -/
theorem maximalRuns_clean (delims : List Nat) (l : List Nat) :
    ∀ r ∈ maximalRuns delims l, r ≠ [] ∧ ∀ b ∈ r, isDelimByte delims b = false := by
  have hsplit : ∀ l : List Nat, ∀ r ∈ l.splitOnP (isDelimByte delims),
      ∀ b ∈ r, isDelimByte delims b = false := by
    intro l
    induction l with
    | nil =>
      intro r hr b hb
      simp only [List.splitOnP_nil, List.mem_singleton] at hr
      rw [hr] at hb
      cases hb
    | cons x l ih =>
      intro r hr b hb
      rw [List.splitOnP_cons] at hr
      cases hx : isDelimByte delims x with
      | true =>
        rw [hx, if_pos rfl] at hr
        rcases List.mem_cons.mp hr with rfl | hr
        · cases hb
        · exact ih r hr b hb
      | false =>
        rw [hx] at hr
        simp only [Bool.false_eq_true, if_false] at hr
        cases hs : l.splitOnP (isDelimByte delims) with
        | nil => exact absurd hs (List.splitOnP_ne_nil _ _)
        | cons h0 T =>
          rw [hs] at hr ih
          simp only [List.modifyHead_cons, List.mem_cons] at hr
          rcases hr with rfl | hr
          · rcases List.mem_cons.mp hb with rfl | hb
            · exact hx
            · exact ih h0 (List.mem_cons_self _ _) b hb
          · exact ih r (List.mem_cons_of_mem _ hr) b hb
  intro r hr
  unfold maximalRuns at hr
  obtain ⟨hmem, hne⟩ := List.mem_filter.mp hr
  refine ⟨?_, hsplit l r hmem⟩
  intro e
  rw [e] at hne
  simp at hne

end StreamTokenizer

namespace StreamTokenizer

theorem hasMoreTokens_spec (delims : List Nat) (fuel : Nat) (t : Tokenizer)
    (pend : Option Nat) (rest : List Nat) (hrep : Rep delims t pend rest)
    (hplain : ∀ b ∈ rest, Plain b) (hlen : (pend.toList ++ rest).length < fuel) :
    ∃ t2, hasMoreTokens fuel t =
        some (!((pend.toList ++ rest).dropWhile (isDelimByte delims)).isEmpty, t2) ∧
      Rep delims t2 ((pend.toList ++ rest).dropWhile (isDelimByte delims)).head?
        ((pend.toList ++ rest).dropWhile (isDelimByte delims)).tail := by
  unfold hasMoreTokens
  rw [if_pos hrep.skip]
  exact skipLoop_spec delims fuel t pend rest hrep hplain hlen

theorem nextTokenBody_spec (delims : List Nat) (fuel : Nat) (t : Tokenizer) (b : Nat)
    (rest : List Nat) (hrep : Rep delims t (some b) rest)
    (hb : isDelimByte delims b = false) (hplain : ∀ x ∈ rest, Plain x)
    (hlen : rest.length < fuel) :
    ∃ t2, nextTokenBody fuel t =
        Result.done (b :: rest.takeWhile (notDelimByte delims), t2) ∧
      Rep delims t2 (rest.dropWhile (notDelimByte delims)).head?
        (rest.dropWhile (notDelimByte delims)).tail := by
  obtain ⟨hch, hrep1⟩ := getNextChar_saved delims t b rest hrep
  have hpl : Plain b := hrep.saved.1
  have hp := toChar_plain b hpl
  have hdel := (isDelimiter_plain delims b hpl).1
  have hcontains : delims.contains b = false := hb
  obtain ⟨t2, ch, h1, h2, h3⟩ := tokenLoop_spec delims fuel (getNextChar t).2 rest [b]
    hrep1 hplain hlen
  unfold nextTokenBody
  rw [hch, hrep.signed, hp.2.2.2.2, hrep.delims, hdel, hcontains, hp.2.2.1]
  simp only [Bool.false_eq_true, if_false]
  rw [h1]
  simp only
  cases hd : (rest.dropWhile (notDelimByte delims)).head? with
  | none =>
    rw [hd] at h3
    simp only at h3
    rw [h3]
    simp only [ne_eq, not_true_eq_false, if_false]
    exact ⟨t2, rfl, h2⟩
  | some d =>
    rw [hd] at h3
    simp only at h3
    have hpd := toChar_plain d h3.2
    rw [h3.1, if_pos hpd.1]
    exact ⟨_, rfl, rep_set_saved delims t2 _ d _ h2 h3.2 (Or.inr rfl)⟩

theorem nextToken_spec (delims : List Nat) (fuel : Nat) (t : Tokenizer) (b : Nat)
    (rest : List Nat) (hrep : Rep delims t (some b) rest)
    (hb : isDelimByte delims b = false) (hplain : ∀ x ∈ rest, Plain x)
    (hlen : rest.length + 1 < fuel) :
    ∃ t2, nextToken fuel t =
        Result.done (b :: rest.takeWhile (notDelimByte delims), t2) ∧
      Rep delims t2 (rest.dropWhile (notDelimByte delims)).head?
        (rest.dropWhile (notDelimByte delims)).tail := by
  obtain ⟨t1, h1, hrep1⟩ := hasMoreTokens_spec delims fuel t (some b) rest hrep hplain
    (by simpa using hlen)
  have hno : ¬ (isDelimByte delims b = true) := by rw [hb]; decide
  have hdrop : ((some b).toList ++ rest).dropWhile (isDelimByte delims) = b :: rest := by
    show (b :: rest).dropWhile (isDelimByte delims) = b :: rest
    rw [List.dropWhile_cons_of_neg hno]
  rw [hdrop] at h1 hrep1
  unfold nextToken
  rw [h1]
  exact nextTokenBody_spec delims fuel t1 b rest hrep1 hb hplain (by omega)

/-- With a signed `char`, on bytes other than 255 and with enough passes allowed, the
loop over `hasMoreTokens` and `nextToken` ends and has pushed the maximal runs of
non-delimiter bytes of what was left to read. -/
theorem drain_spec (delims : List Nat) (fuel : Nat) (n : Nat) :
    ∀ (t : Tokenizer) (pend : Option Nat) (rest : List Nat),
      Rep delims t pend rest → (∀ b ∈ rest, Plain b) →
      (pend.toList ++ rest).length < n → (pend.toList ++ rest).length + 1 < fuel →
      drain n fuel t = Result.done (maximalRuns delims (pend.toList ++ rest)) := by
  induction n with
  | zero => intro t pend rest _ _ hlen; omega
  | succ n ih =>
    intro t pend rest hrep hplain hlen hfuel
    obtain ⟨t1, h1, hrep1⟩ := hasMoreTokens_spec delims fuel t pend rest hrep hplain
      (by omega)
    have hallplain : ∀ x ∈ pend.toList ++ rest, Plain x := by
      intro x hx
      rcases List.mem_append.mp hx with hx | hx
      · cases pend with
        | none => cases hx
        | some b =>
          have : x = b := by simpa using hx
          rw [this]
          exact hrep.saved.1
      · exact hplain x hx
    rw [← maximalRuns_dropWhile delims (pend.toList ++ rest)]
    have hle := length_dropWhile_le (isDelimByte delims) (pend.toList ++ rest)
    have hmem : ∀ x ∈ (pend.toList ++ rest).dropWhile (isDelimByte delims), Plain x :=
      fun x hx => hallplain x (mem_of_mem_dropWhile _ _ x hx)
    unfold drain
    rw [h1]
    cases hD : (pend.toList ++ rest).dropWhile (isDelimByte delims) with
    | nil => rfl
    | cons b l =>
      rw [hD] at hrep1 hle hmem
      have hb : isDelimByte delims b = false := dropWhile_head_not _ _ b l hD
      have hpl : ∀ x ∈ l, Plain x := fun x hx => hmem x (List.mem_cons_of_mem _ hx)
      simp only [List.length_cons] at hle
      obtain ⟨t2, h2, hrep2⟩ := nextToken_spec delims fuel t1 b l hrep1 hb hpl (by omega)
      have hle2 := length_dropWhile_le (notDelimByte delims) l
      have hpl2 : ∀ x ∈ (l.dropWhile (notDelimByte delims)).tail, Plain x := by
        intro x hx
        exact hpl x (mem_of_mem_dropWhile _ _ x (List.mem_of_mem_tail hx))
      have hlog := head_toList_append_tail (l.dropWhile (notDelimByte delims))
      have h3 := ih t2 _ _ hrep2 hpl2 (by rw [hlog]; omega) (by rw [hlog]; omega)
      rw [hlog] at h3
      simp only [List.isEmpty_cons, Bool.not_false]
      rw [h2]
      simp only
      rw [h3, maximalRuns_cons_plain delims b l hb]

/-- With a signed `char`, on every input without the byte 255 and for every delimiter
set, the tokenizer with `skipDelimiters` on terminates and returns exactly the maximal
non-empty runs of non-delimiter bytes, in input order; no token is empty or contains a
delimiter, and more passes allowed change nothing. -/
theorem tokenize_eq_maximalRuns (delims input : List Nat) (h : ∀ b ∈ input, Plain b) :
    tokenize true delims input = Result.done (maximalRuns delims input) ∧
    (∀ n fuel, input.length < n → input.length + 1 < fuel →
      drain n fuel (Tokenizer.init true input delims true)
        = Result.done (maximalRuns delims input)) ∧
    (∀ r ∈ maximalRuns delims input, r ≠ [] ∧ ∀ b ∈ r, isDelimByte delims b = false) := by
  have hrep : Rep delims (Tokenizer.init true input delims true) none input :=
    ⟨rfl, rfl, rfl, rfl, rfl⟩
  refine ⟨?_, ?_, maximalRuns_clean delims input⟩
  · exact drain_spec delims _ _ _ none input hrep h (by simp) (by simp)
  · intro n fuel hn hfuel
    exact drain_spec delims fuel n _ none input hrep h (by simpa using hn)
      (by simpa using hfuel)

end StreamTokenizer

namespace StreamTokenizer

theorem tokenLoop_atEndUnsigned (fuel : Nat) :
    ∀ token : List Nat, tokenLoop fuel atEndUnsigned token = none := by
  induction fuel with
  | zero => intro token; rfl
  | succ fuel ih =>
    intro token
    have hg : getNextChar atEndUnsigned = (EOF, atEndUnsigned) := rfl
    have hc : toChar false EOF = 255 := by decide
    have hcond : ¬ (toChar atEndUnsigned.signedChar (getNextChar atEndUnsigned).1 = EOF ∨
        isDelimiter atEndUnsigned.delimiters
          (toChar atEndUnsigned.signedChar (getNextChar atEndUnsigned).1) = true) := by
      decide
    unfold tokenLoop
    rw [if_neg hcond, hg]
    exact ih _

/-- C13, evaluated on the code. Where `char` is signed, the input `a`, byte 255, `b`
with the space as only delimiter is one maximal run, but the tokenizer returns the two
tokens `a` and `b` and loses the byte 255, because `nextToken` keeps the result of
`getNextChar` in a `char` and takes the byte 255 for `EOF`; on the input that is the
single byte 255 the `assert` of `nextToken` fails. Where `char` is unsigned, `EOF`
stored in that `char` is never equal to `EOF` again: on the input `a` the loop of
`nextToken` never reaches its `break`, however many passes are allowed, and every pass
appends one more byte 255 to the token. -/
theorem tokenizer_confuses_char_and_eof :
    tokenize true [32] [97, 255, 98] = Result.done [[97], [98]] ∧
    maximalRuns [32] [97, 255, 98] = [[97, 255, 98]] ∧
    tokenize true [32] [255] = Result.aborted ∧
    maximalRuns [32] [255] = [[255]] ∧
    (∀ n fuel, drain n fuel (Tokenizer.init false [97] [32] true) = Result.unfinished) ∧
    maximalRuns [32] [97] = [[97]] := by
  refine ⟨by decide, by decide, by decide, by decide, ?_, by decide⟩
  intro n fuel
  cases n with
  | zero => rfl
  | succ n =>
    cases fuel with
    | zero => rfl
    | succ fuel =>
      have h1 : hasMoreTokens (fuel + 1) (Tokenizer.init false [97] [32] true)
          = some (true, { atEndUnsigned with saved := 97 }) := rfl
      have h2 : hasMoreTokens (fuel + 1) { atEndUnsigned with saved := 97 }
          = some (true, { atEndUnsigned with saved := 97 }) := rfl
      have h3 : nextTokenBody (fuel + 1) { atEndUnsigned with saved := 97 }
          = Result.unfinished := by
        have hg : getNextChar { atEndUnsigned with saved := 97 } = (97, atEndUnsigned) := rfl
        have hd : ¬ (isDelimiter ({ atEndUnsigned with saved := 97 } : Tokenizer).delimiters
            (toChar ({ atEndUnsigned with saved := 97 } : Tokenizer).signedChar
              (getNextChar { atEndUnsigned with saved := 97 }).1) = true) := by
          decide
        unfold nextTokenBody
        rw [if_neg hd, hg, tokenLoop_atEndUnsigned]
      have h4 : nextToken (fuel + 1) { atEndUnsigned with saved := 97 }
          = Result.unfinished := by
        unfold nextToken
        rw [h2]
        exact h3
      unfold drain
      rw [h1]
      simp only
      rw [h4]

end StreamTokenizer

namespace StreamTokenizer

theorem splitOnP_append_sep (delims : List Nat) (sep : Nat) (rest : List Nat)
    (h : isDelimByte delims sep = true) (a : List Nat) :
    (a ++ sep :: rest).splitOnP (isDelimByte delims) =
      a.splitOnP (isDelimByte delims) ++ rest.splitOnP (isDelimByte delims) := by
  induction a with
  | nil =>
    rw [List.nil_append, List.splitOnP_cons, if_pos h, List.splitOnP_nil]
    rfl
  | cons x a ih =>
    rw [List.cons_append, List.splitOnP_cons, List.splitOnP_cons, ih]
    cases hx : isDelimByte delims x with
    | true => rfl
    | false =>
      cases hs : a.splitOnP (isDelimByte delims) with
      | nil => exact absurd hs (List.splitOnP_ne_nil _ _)
      | cons r T => rfl

theorem maximalRuns_append_sep (delims : List Nat) (sep : Nat) (rest : List Nat)
    (h : isDelimByte delims sep = true) (a : List Nat) :
    maximalRuns delims (a ++ sep :: rest) = maximalRuns delims a ++ maximalRuns delims rest := by
  unfold maximalRuns
  rw [splitOnP_append_sep delims sep rest h a, List.filter_append]

theorem serializationOf_cons (text : List Nat) (nodes : List (List Nat)) :
    serializationOf (text :: nodes) = text ++ 32 :: (text ++ 32 :: serializationOf nodes) := by
  unfold serializationOf kSeparator
  rw [List.flatMap_cons]
  simp only [List.append_assoc, List.cons_append, List.nil_append]

theorem maximalRuns_serializationOf (nodes : List (List Nat)) :
    maximalRuns kDelimiters (serializationOf nodes) =
      nodes.flatMap (fun text => maximalRuns kDelimiters text ++ maximalRuns kDelimiters text) := by
  induction nodes with
  | nil => rfl
  | cons text nodes ih =>
    have h32 : isDelimByte kDelimiters 32 = true := by decide
    rw [serializationOf_cons, maximalRuns_append_sep kDelimiters 32 _ h32,
      maximalRuns_append_sep kDelimiters 32 _ h32, ih, List.flatMap_cons, List.append_assoc]

theorem plain_serializationOf (nodes : List (List Nat))
    (h : ∀ text ∈ nodes, ∀ b ∈ text, Plain b) : ∀ b ∈ serializationOf nodes, Plain b := by
  intro b hb
  unfold serializationOf kSeparator at hb
  rw [List.mem_flatMap] at hb
  obtain ⟨text, ht, hb⟩ := hb
  have h32 : Plain 32 := by unfold Plain; decide
  simp only [List.mem_append, List.mem_singleton] at hb
  rcases hb with (hb | hb) | (hb | hb)
  · exact h text ht b hb
  · rw [hb]; exact h32
  · exact h text ht b hb
  · rw [hb]; exact h32

theorem extractLoop_spec (nodes : List (List Nat)) :
    ∀ (serialization : List Nat) (tokens : List (List Nat)),
      (∀ text ∈ nodes, ∀ b ∈ text, Plain b) →
      extractLoop true nodes serialization tokens =
        Result.done (serialization ++ serializationOf nodes,
          tokens ++ nodes.flatMap (maximalRuns kDelimiters)) := by
  induction nodes with
  | nil =>
    intro serialization tokens _
    unfold extractLoop serializationOf
    rw [List.flatMap_nil, List.flatMap_nil, List.append_nil, List.append_nil]
  | cons text nodes ih =>
    intro serialization tokens h
    have ht := (tokenize_eq_maximalRuns kDelimiters text
      (h text (List.mem_cons_self _ _))).1
    have hrest : ∀ t ∈ nodes, ∀ b ∈ t, Plain b :=
      fun t hm => h t (List.mem_cons_of_mem _ hm)
    unfold extractLoop
    rw [ht]
    simp only
    rw [ih _ _ hrest, serializationOf_cons, List.flatMap_cons]
    unfold kSeparator
    simp only [List.append_assoc, List.cons_append, List.nil_append]

theorem tally_flatMap_twice (x : List Nat) (nodes : List (List Nat)) :
    NewsAggregator.tally x (nodes.flatMap
        (fun text => maximalRuns kDelimiters text ++ maximalRuns kDelimiters text)) =
      2 * NewsAggregator.tally x (nodes.flatMap (maximalRuns kDelimiters)) := by
  induction nodes with
  | nil => rfl
  | cons text nodes ih =>
    rw [List.flatMap_cons, List.flatMap_cons, NewsAggregator.tally_append,
      NewsAggregator.tally_append, NewsAggregator.tally_append, ih]
    omega

/-- C14, the statement as written fails: a document whose body has the single text node
`a` gets the token `a` three times, once from the node itself and twice from the
serialization, where the text nodes hold it once and twice that is two. -/
theorem extractTokens_not_twice :
    extractTokens true [[97]] [] = Result.done [[97], [97], [97]] ∧
    NewsAggregator.tally [97] [[97], [97], [97]] = 3 ∧
    NewsAggregator.tally [97] (maximalRuns kDelimiters [97]) = 1 := by
  refine ⟨by decide, by decide, by decide⟩

/-- C14, amended: where `char` is signed and no text node holds the byte 255,
`extractTokens` ends and has appended, to the tokens the document had, the tokens of
every text node in node order and then the tokens of every text node twice over, node
by node; so every token occurs in what was appended exactly three times as often as in
the text nodes. -/
theorem extractTokens_thrice (nodes : List (List Nat)) (tokens : List (List Nat))
    (h : ∀ text ∈ nodes, ∀ b ∈ text, Plain b) :
    extractTokens true nodes tokens =
      Result.done (tokens ++ (nodes.flatMap (maximalRuns kDelimiters) ++
        nodes.flatMap
          (fun text => maximalRuns kDelimiters text ++ maximalRuns kDelimiters text))) ∧
    ∀ x : List Nat,
      NewsAggregator.tally x (nodes.flatMap (maximalRuns kDelimiters) ++
        nodes.flatMap
          (fun text => maximalRuns kDelimiters text ++ maximalRuns kDelimiters text)) =
        3 * NewsAggregator.tally x (nodes.flatMap (maximalRuns kDelimiters)) := by
  constructor
  · have hser := (tokenize_eq_maximalRuns kDelimiters (serializationOf nodes)
      (plain_serializationOf nodes h)).1
    unfold extractTokens
    rw [extractLoop_spec nodes [] tokens h]
    simp only [List.nil_append]
    rw [hser]
    simp only
    rw [maximalRuns_serializationOf, List.append_assoc]
  · intro x
    rw [NewsAggregator.tally_append, tally_flatMap_twice]
    omega

theorem extractTokens_thrice_witness :
    (∀ text ∈ [[97, 32, 98], [98]], ∀ b ∈ text, Plain b) ∧
    (extractTokens true [[97, 32, 98], [98]] [] =
      Result.done ([] ++ ([[97, 32, 98], [98]].flatMap (maximalRuns kDelimiters) ++
        [[97, 32, 98], [98]].flatMap
          (fun text => maximalRuns kDelimiters text ++ maximalRuns kDelimiters text))) ∧
    ∀ x : List Nat,
      NewsAggregator.tally x ([[97, 32, 98], [98]].flatMap (maximalRuns kDelimiters) ++
        [[97, 32, 98], [98]].flatMap
          (fun text => maximalRuns kDelimiters text ++ maximalRuns kDelimiters text)) =
        3 * NewsAggregator.tally x ([[97, 32, 98], [98]].flatMap (maximalRuns kDelimiters))) :=
  ⟨by unfold Plain; decide,
    extractTokens_thrice [[97, 32, 98], [98]] [] (by unfold Plain; decide)⟩

end StreamTokenizer
